import Mathlib

set_option maxRecDepth 100000

/-!
# Arrays-visualization spec validation and repair engine: a shallow embedding

This file embeds the core of the repository's arrays-visualization lane:

* the Zod schema and semantic validator (`lib/arrays/schema.ts`, current
  iteration): structural parsing of an untrusted JSON document into a typed
  `ArraysVizSpec`, cross-field index-bounds checks, and the recursion
  call-lifecycle checker (`validateCallLifecycle`);
* the repair-loop orchestrator `generateValidatedSpec` of
  `app/api/arrays/chat/route.ts` (current iteration), with its budget
  `SPEC_MAX_REPAIR_ATTEMPTS = 3`, its algorithm-match cross-check
  `validateAlgorithmMatch`, its deterministic quicksort fallback and its
  recursive step-budget diagnostic;
* the deterministic fallback tracer: `partitionLomuto`,
  `traceQuicksortCall`, `buildDeterministicQuicksortSpec`.

Modelling conventions:

* JSON documents are values of the inductive `JsonValue`.  The raw-text
  stage of `parseAndValidateArraysSpec` (markdown-fence stripping followed
  by `JSON.parse`) is modelled by feeding the function an `Option JsonValue`
  (`none` = the candidate text did not parse as JSON).
* JavaScript numbers are modelled as `ℚ` for finite values plus an explicit
  `numInf` constructor for the two infinities that `JSON.parse` can produce
  by overflow (`1e999`); `z.number().finite()` accepts exactly the `num`
  constructor and `z.number().int()` additionally requires denominator 1.
  `NaN` is unreachable from `JSON.parse` and is not modelled.
* JavaScript objects after `JSON.parse` are association lists with distinct
  keys; Zod object parsing looks fields up by name and is insensitive to
  field order, which the embedding mirrors with `findField`.
* String checks (`.trim().toLowerCase()` in the generic-caption rule) are
  modelled per-character for ASCII; `.length` on strings equals the Lean
  codepoint length for the ASCII strings all checks here involve.
* Validation issues carry their discriminating data as constructors of
  `Issue`; the human-readable message strings of the source are not
  reproduced, since no checked behaviour depends on their exact wording.
-/

/-! ## Closed vocabularies (`lib/arrays/types.ts`) -/

/-- The four algorithms of `ARRAYS_ALGORITHMS`. -/
inductive ArraysAlgorithm where
  | linearSearch
  | binarySearch
  | quicksort
  | mergesort
  deriving DecidableEq, Repr

/-- The seven recursion phases of `RECURSION_PHASES`. -/
inductive RecursionPhase where
  | enter
  | base
  | divide
  | recurseLeft
  | recurseRight
  | combine
  | phaseReturn
  deriving DecidableEq, Repr

/-- The twelve component kinds of `REGISTRY_COMPONENT_TYPES` (the list
appears literally in `lib/arrays/types.ts` and is re-exported from the
component registry in the current iteration; the twelve names are identical
in both iterations and in `docs/arrays-visualization-spec.md`). -/
inductive RegistryComponentType where
  | arrayView
  | barArrayView
  | pointer
  | rangeHighlight
  | swapAnimation
  | compareAnimation
  | captionCallout
  | codeBlock
  | timelineStepper
  | stackView
  | partitionView
  | mergeView
  deriving DecidableEq, Repr

/-- Outcome tag of a `compare` event. -/
inductive CompareOutcome where
  | lt
  | eq
  | gt
  deriving DecidableEq, Repr

/-- `MAX_ARRAY_LENGTH` from `lib/arrays/types.ts`. -/
def MAX_ARRAY_LENGTH : ℕ := 32

/-- `MAX_TIMELINE_STEPS` from `lib/arrays/types.ts`. -/
def MAX_TIMELINE_STEPS : ℕ := 300

/-- `MAX_CODE_LINES` from `lib/arrays/types.ts`. -/
def MAX_CODE_LINES : ℕ := 40

/-- `SPEC_MAX_REPAIR_ATTEMPTS` from `app/api/arrays/chat/route.ts`. -/
def SPEC_MAX_REPAIR_ATTEMPTS : ℕ := 3

/-- `RECURSIVE_ALGORITHMS.has(algorithm)`: quicksort and mergesort. -/
def isRecursiveAlgorithm : ArraysAlgorithm → Bool
  | .quicksort => true
  | .mergesort => true
  | _ => false

/-! ## JSON documents -/

/-- A parsed JSON value, the output domain of `JSON.parse`.  `numInf`
models the non-finite numbers (`±Infinity`) that `JSON.parse` produces by
float overflow; every schema number check rejects them. -/
inductive JsonValue where
  | null
  | bool (b : Bool)
  | num (q : ℚ)
  | numInf (positive : Bool)
  | str (s : String)
  | arr (elems : List JsonValue)
  | obj (fields : List (String × JsonValue))

namespace JsonValue

mutual

/-- Whether the JSON value `null` occurs anywhere inside a document
(object keys are strings and cannot be null). -/
def containsNull : JsonValue → Bool
  | .null => true
  | .bool _ => false
  | .num _ => false
  | .numInf _ => false
  | .str _ => false
  | .arr elems => containsNullList elems
  | .obj fields => containsNullFields fields

/-- `containsNull` over the elements of an array. -/
def containsNullList : List JsonValue → Bool
  | [] => false
  | e :: rest => containsNull e || containsNullList rest

/-- `containsNull` over the values of an object. -/
def containsNullFields : List (String × JsonValue) → Bool
  | [] => false
  | (_, v) :: rest => containsNull v || containsNullFields rest

end

end JsonValue

/-! ## The typed spec (`lib/arrays/types.ts`) -/

/-- An inclusive index range `{l, r}`. -/
structure RangeSpec where
  l : ℤ
  r : ℤ
  deriving DecidableEq, Repr

/-- `RecursionState`: per-step recursion metadata. -/
structure RecursionState where
  callId : String
  parentCallId : Option String
  fn : String
  depth : ℤ
  phase : RecursionPhase
  args : String
  deriving DecidableEq, Repr

/-- `partition` sub-state of a step. -/
structure PartitionState where
  pivotIndex : ℤ
  less : List ℚ
  greater : List ℚ
  deriving DecidableEq, Repr

/-- `merge` sub-state of a step. -/
structure MergeState where
  left : List ℚ
  right : List ℚ
  merged : List ℚ
  writeRange : Option RangeSpec
  deriving DecidableEq, Repr

/-- `StepEvent`: the tagged union of swap and compare events. -/
inductive StepEvent where
  | swap (i j : ℤ)
  | compare (i j : ℤ) (outcome : Option CompareOutcome)
  deriving DecidableEq, Repr

namespace StepEvent

/-- The `i` field of either event variant. -/
def i : StepEvent → ℤ
  | .swap i _ => i
  | .compare i _ _ => i

/-- The `j` field of either event variant. -/
def j : StepEvent → ℤ
  | .swap _ j => j
  | .compare _ j _ => j

end StepEvent

/-- `StepState`: the per-step authoritative array snapshot plus optional
pointers/range/stack/recursion/partition/merge sub-states.  `pointers` is a
string-keyed record, kept as an association list in JSON key order. -/
structure StepState where
  array : List ℚ
  pointers : Option (List (String × ℤ))
  range : Option RangeSpec
  stack : Option (List String)
  recursion : Option RecursionState
  partition : Option PartitionState
  merge : Option MergeState
  deriving DecidableEq, Repr

/-- `StepSpec`: one timeline frame. -/
structure StepSpec where
  id : String
  caption : String
  activeCodeLine : ℤ
  state : StepState
  events : Option (List StepEvent)
  deriving DecidableEq, Repr

/-- A scene component reference `{id, type, props?}`.  The props record
holds primitive values only once validated; at the JSON level props values
are arbitrary `JsonValue`s checked by `primitivePropValueSchema`. -/
structure RegistryComponentRef where
  id : String
  type : RegistryComponentType
  props : Option (List (String × JsonValue))

/-- `ArraysVizSpec`: the root document. -/
structure ArraysVizSpec where
  version : String
  algorithm : ArraysAlgorithm
  title : String
  codeLines : List String
  components : List RegistryComponentRef
  steps : List StepSpec

/-- `NormalizedArraysInput`: the normalizer's output consumed by the
orchestrator and the deterministic tracer. -/
structure NormalizedArraysInput where
  algorithm : ArraysAlgorithm
  array : List ℚ
  target : Option ℚ
  deriving DecidableEq, Repr

/-! ## Structural parsing (the Zod schema of `lib/arrays/schema.ts`)

Each `z.object(...).strict()` is modelled by name-based field lookup plus a
check that every present key is among the declared ones; optional fields
may be absent, but a present field must parse.  The parsers return `none`
exactly when the Zod structural parse of the corresponding schema records
an issue. -/

/-- Look a field up by key in a parsed JSON object (first match; objects
produced by `JSON.parse` have distinct keys). -/
def findField : List (String × JsonValue) → String → Option JsonValue
  | [], _ => none
  | (k, v) :: rest, key => if k = key then some v else findField rest key

/-- `.strict()`: every key of the object is among the allowed ones. -/
def keysSubset (fields : List (String × JsonValue)) (allowed : List String) : Bool :=
  fields.all fun f => allowed.contains f.1

/-- View a JSON value as an object. -/
def asObj : JsonValue → Option (List (String × JsonValue))
  | .obj fields => some fields
  | _ => none

/-- `z.string()`. -/
def parseStr : JsonValue → Option String
  | .str s => some s
  | _ => none

/-- `z.string().min(1)`. -/
def parseStrMin1 (j : JsonValue) : Option String := do
  let s ← parseStr j
  if 1 ≤ s.length then pure s else none

/-- `z.number().finite()`: a finite number. -/
def parseFiniteNum : JsonValue → Option ℚ
  | .num q => some q
  | _ => none

/-- `z.number().int()`: a finite number that is an integer. -/
def parseIntNum (j : JsonValue) : Option ℤ := do
  let q ← parseFiniteNum j
  if q.den = 1 then pure q.num else none

/-- `primitivePropValueSchema`: string, boolean, or finite number. -/
def isPrimitivePropValue : JsonValue → Bool
  | .str _ => true
  | .bool _ => true
  | .num _ => true
  | _ => false

/-- A required field of a strict object. -/
def reqF (fields : List (String × JsonValue)) (key : String)
    (p : JsonValue → Option α) : Option α :=
  findField fields key >>= p

/-- An optional field of a strict object: absent is fine, present must
parse. -/
def optF (fields : List (String × JsonValue)) (key : String)
    (p : JsonValue → Option α) : Option (Option α) :=
  match findField fields key with
  | none => some none
  | some v => (p v).map some

/-- The `algorithm` enum. -/
def parseAlgorithm (j : JsonValue) : Option ArraysAlgorithm := do
  match ← parseStr j with
  | "linear-search" => pure .linearSearch
  | "binary-search" => pure .binarySearch
  | "quicksort" => pure .quicksort
  | "mergesort" => pure .mergesort
  | _ => none

/-- The recursion `phase` enum. -/
def parsePhase (j : JsonValue) : Option RecursionPhase := do
  match ← parseStr j with
  | "enter" => pure .enter
  | "base" => pure .base
  | "divide" => pure .divide
  | "recurse-left" => pure .recurseLeft
  | "recurse-right" => pure .recurseRight
  | "combine" => pure .combine
  | "return" => pure .phaseReturn
  | _ => none

/-- The component `type` literal union (`REGISTRY_COMPONENT_TYPES`). -/
def parseComponentType (j : JsonValue) : Option RegistryComponentType := do
  match ← parseStr j with
  | "ArrayView" => pure .arrayView
  | "BarArrayView" => pure .barArrayView
  | "Pointer" => pure .pointer
  | "RangeHighlight" => pure .rangeHighlight
  | "SwapAnimation" => pure .swapAnimation
  | "CompareAnimation" => pure .compareAnimation
  | "CaptionCallout" => pure .captionCallout
  | "CodeBlock" => pure .codeBlock
  | "TimelineStepper" => pure .timelineStepper
  | "StackView" => pure .stackView
  | "PartitionView" => pure .partitionView
  | "MergeView" => pure .mergeView
  | _ => none

/-- The compare-event `outcome` enum. -/
def parseOutcome (j : JsonValue) : Option CompareOutcome := do
  match ← parseStr j with
  | "lt" => pure .lt
  | "eq" => pure .eq
  | "gt" => pure .gt
  | _ => none

/-- `z.record(z.string(), z.number().int())` (the `pointers` map). -/
def parseIntRecord (j : JsonValue) : Option (List (String × ℤ)) := do
  let fields ← asObj j
  fields.mapM fun f => (parseIntNum f.2).map fun n => (f.1, n)

/-- The strict `{l, r}` range object. -/
def parseRange (j : JsonValue) : Option RangeSpec := do
  let fields ← asObj j
  if keysSubset fields ["l", "r"] then
    let l ← reqF fields "l" parseIntNum
    let r ← reqF fields "r" parseIntNum
    pure ⟨l, r⟩
  else none

/-- `numberArraySchema`: 1 to `MAX_ARRAY_LENGTH` finite numbers. -/
def parseNumberArray (j : JsonValue) : Option (List ℚ) :=
  match j with
  | .arr elems => do
    let ns ← elems.mapM parseFiniteNum
    if 1 ≤ ns.length ∧ ns.length ≤ MAX_ARRAY_LENGTH then pure ns else none
  | _ => none

/-- An unbounded array of finite numbers (`partition.less` / `.greater`). -/
def parseFiniteNumList (j : JsonValue) : Option (List ℚ) :=
  match j with
  | .arr elems => elems.mapM parseFiniteNum
  | _ => none

/-- An array of at most `MAX_ARRAY_LENGTH` finite numbers (merge
buffers). -/
def parseFiniteNumListMax (j : JsonValue) : Option (List ℚ) := do
  let ns ← parseFiniteNumList j
  if ns.length ≤ MAX_ARRAY_LENGTH then pure ns else none

/-- `z.array(z.string()).max(128)` (the call `stack`). -/
def parseStack (j : JsonValue) : Option (List String) :=
  match j with
  | .arr elems => do
    let ss ← elems.mapM parseStr
    if ss.length ≤ 128 then pure ss else none
  | _ => none

/-- The strict `recursion` object. -/
def parseRecursion (j : JsonValue) : Option RecursionState := do
  let fields ← asObj j
  if keysSubset fields ["callId", "parentCallId", "fn", "depth", "phase", "args"] then
    let callId ← reqF fields "callId" parseStrMin1
    let parentCallId ← optF fields "parentCallId" parseStrMin1
    let fn ← reqF fields "fn" parseStrMin1
    let depth ← reqF fields "depth" parseIntNum
    if 0 ≤ depth then
      let phase ← reqF fields "phase" parsePhase
      let args ← reqF fields "args" parseStrMin1
      pure ⟨callId, parentCallId, fn, depth, phase, args⟩
    else none
  else none

/-- The strict `partition` object. -/
def parsePartitionState (j : JsonValue) : Option PartitionState := do
  let fields ← asObj j
  if keysSubset fields ["pivotIndex", "less", "greater"] then
    let pivotIndex ← reqF fields "pivotIndex" parseIntNum
    let less ← reqF fields "less" parseFiniteNumList
    let greater ← reqF fields "greater" parseFiniteNumList
    pure ⟨pivotIndex, less, greater⟩
  else none

/-- The strict `merge` object. -/
def parseMergeState (j : JsonValue) : Option MergeState := do
  let fields ← asObj j
  if keysSubset fields ["left", "right", "merged", "writeRange"] then
    let left ← reqF fields "left" parseFiniteNumListMax
    let right ← reqF fields "right" parseFiniteNumListMax
    let merged ← reqF fields "merged" parseFiniteNumListMax
    let writeRange ← optF fields "writeRange" parseRange
    pure ⟨left, right, merged, writeRange⟩
  else none

/-- `stepStateSchema` (strict). -/
def parseStepState (j : JsonValue) : Option StepState := do
  let fields ← asObj j
  if keysSubset fields
      ["array", "pointers", "range", "stack", "recursion", "partition", "merge"] then
    let array ← reqF fields "array" parseNumberArray
    let pointers ← optF fields "pointers" parseIntRecord
    let range ← optF fields "range" parseRange
    let stack ← optF fields "stack" parseStack
    let recursion ← optF fields "recursion" parseRecursion
    let partition ← optF fields "partition" parsePartitionState
    let merge ← optF fields "merge" parseMergeState
    pure ⟨array, pointers, range, stack, recursion, partition, merge⟩
  else none

/-- `stepEventSchema`: the discriminated union on `type`. -/
def parseEvent (j : JsonValue) : Option StepEvent := do
  let fields ← asObj j
  match ← reqF fields "type" parseStr with
  | "swap" =>
    if keysSubset fields ["type", "i", "j"] then
      let i ← reqF fields "i" parseIntNum
      let j ← reqF fields "j" parseIntNum
      pure (.swap i j)
    else none
  | "compare" =>
    if keysSubset fields ["type", "i", "j", "outcome"] then
      let i ← reqF fields "i" parseIntNum
      let j ← reqF fields "j" parseIntNum
      let outcome ← optF fields "outcome" parseOutcome
      pure (.compare i j outcome)
    else none
  | _ => none

/-- `z.array(stepEventSchema).max(48)`. -/
def parseEvents (j : JsonValue) : Option (List StepEvent) :=
  match j with
  | .arr elems => do
    let evs ← elems.mapM parseEvent
    if evs.length ≤ 48 then pure evs else none
  | _ => none

/-- `stepSchema` (strict), structural part only; the cross-field bounds of
its `superRefine` live in `stepIssues` below. -/
def parseStep (j : JsonValue) : Option StepSpec := do
  let fields ← asObj j
  if keysSubset fields ["id", "caption", "activeCodeLine", "state", "events"] then
    let id ← reqF fields "id" parseStrMin1
    let caption ← reqF fields "caption" parseStrMin1
    let activeCodeLine ← reqF fields "activeCodeLine" parseIntNum
    if 1 ≤ activeCodeLine then
      let state ← reqF fields "state" parseStepState
      let events ← optF fields "events" parseEvents
      pure ⟨id, caption, activeCodeLine, state, events⟩
    else none
  else none

/-- `componentSchema`: twelve strict variants that differ only in the
`type` literal, so the union is one strict shape with an enum `type`;
`props` values must satisfy `primitivePropValueSchema`. -/
def parseComponent (j : JsonValue) : Option RegistryComponentRef := do
  let fields ← asObj j
  if keysSubset fields ["id", "type", "props"] then
    let id ← reqF fields "id" parseStrMin1
    let type ← reqF fields "type" parseComponentType
    let props ← optF fields "props" fun pj => do
      let pfields ← asObj pj
      if pfields.all fun f => isPrimitivePropValue f.2 then pure pfields else none
    pure ⟨id, type, props⟩
  else none

/-- `code` object: `{ lines: z.array(z.string().min(1)).min(1).max(40) }`,
strict. -/
def parseCodeLines (j : JsonValue) : Option (List String) := do
  let fields ← asObj j
  if keysSubset fields ["lines"] then
    match ← reqF fields "lines" pure with
    | .arr elems => do
      let lines ← elems.mapM parseStrMin1
      if 1 ≤ lines.length ∧ lines.length ≤ MAX_CODE_LINES then pure lines else none
    | _ => none
  else none

/-- `scene` object: `{ components: z.array(componentSchema).min(1).max(32) }`,
strict. -/
def parseScene (j : JsonValue) : Option (List RegistryComponentRef) := do
  let fields ← asObj j
  if keysSubset fields ["components"] then
    match ← reqF fields "components" pure with
    | .arr elems => do
      let comps ← elems.mapM parseComponent
      if 1 ≤ comps.length ∧ comps.length ≤ 32 then pure comps else none
    | _ => none
  else none

/-- The structural part of `arraysVizSpecSchema` (strict root object). -/
def parseSpec (j : JsonValue) : Option ArraysVizSpec := do
  let fields ← asObj j
  if keysSubset fields ["version", "algorithm", "title", "code", "scene", "steps"] then
    let version ← reqF fields "version" parseStr
    if version = "1.0" then
      let algorithm ← reqF fields "algorithm" parseAlgorithm
      let title ← reqF fields "title" parseStr
      if 1 ≤ title.length ∧ title.length ≤ 140 then
        let codeLines ← reqF fields "code" parseCodeLines
        let components ← reqF fields "scene" parseScene
        match ← reqF fields "steps" pure with
        | .arr elems => do
          let steps ← elems.mapM parseStep
          if 1 ≤ steps.length ∧ steps.length ≤ MAX_TIMELINE_STEPS then
            pure ⟨version, algorithm, title, codeLines, components, steps⟩
          else none
        | _ => none
      else none
    else none
  else none

/-! ## Semantic validation (the `superRefine` passes) -/

/-- A validation issue.  Constructors mirror the `ctx.addIssue` sites of
`lib/arrays/schema.ts`; each carries the data that appears in the source's
message or path. -/
inductive Issue where
  | pointerOutOfBounds (name : String) (index : ℤ)
  | rangeInvalid (l r : ℤ)
  | pivotIndexOutOfBounds (pivotIndex : ℤ)
  | mergedTooLong
  | writeRangeInvalid (l r : ℤ)
  | eventIndicesInvalid (eventIndex : ℕ) (i j : ℤ)
  | activeCodeLineOutOfRange (stepIndex : ℕ) (line : ℤ)
  | missingStackView
  | genericRecursionCaption (stepIndex : ℕ)
  | missingStack (stepIndex : ℕ)
  | missingRecursion (stepIndex : ℕ)
  | depthStackMismatch (stepIndex : ℕ)
  | divideRequiresPartition (stepIndex : ℕ)
  | combineRequiresMerge (stepIndex : ℕ)
  | firstStepNotRootEnter
  | depthJump (stepIndex : ℕ)
  | depthIncreaseBadPrevPhase (stepIndex : ℕ)
  | depthIncreaseBadCurrentPhase (stepIndex : ℕ)
  | depthDecreaseBadPrevPhase (stepIndex : ℕ)
  | lastStepNotRootReturn
  | callMustBeginWithEnter (callId : String)
  | callMissingReturn (callId : String)
  | callBadBaseLifecycle (callId : String)
  | callMixesBaseAndRecursive (callId : String)
  | callMissingPhase (callId : String) (phase : RecursionPhase)
  | callPhaseOutOfOrder (callId : String) (phase : RecursionPhase)
  deriving DecidableEq, Repr

/-- The per-step cross-field bounds checks (`stepSchema.superRefine`). -/
def stepIssues (st : StepSpec) : List Issue :=
  (match st.state.pointers with
   | none => []
   | some ps => ps.flatMap fun p =>
      if p.2 < 0 ∨ p.2 ≥ (st.state.array.length : ℤ) then
        [.pointerOutOfBounds p.1 p.2]
      else [])
  ++ (match st.state.range with
      | none => []
      | some r =>
        if r.l < 0 ∨ r.r < 0 ∨ r.l ≥ (st.state.array.length : ℤ) ∨
            r.r ≥ (st.state.array.length : ℤ) ∨ r.l > r.r then
          [.rangeInvalid r.l r.r]
        else [])
  ++ (match st.state.partition with
      | none => []
      | some p =>
        if p.pivotIndex < 0 ∨ p.pivotIndex ≥ (st.state.array.length : ℤ) then
          [.pivotIndexOutOfBounds p.pivotIndex]
        else [])
  ++ (match st.state.merge with
      | none => []
      | some m =>
        (if m.merged.length > m.left.length + m.right.length then [.mergedTooLong] else [])
        ++ match m.writeRange with
           | none => []
           | some w =>
             if w.l < 0 ∨ w.r < 0 ∨ w.l ≥ (st.state.array.length : ℤ) ∨
                 w.r ≥ (st.state.array.length : ℤ) ∨ w.l > w.r then
               [.writeRangeInvalid w.l w.r]
             else [])
  ++ (match st.events with
      | none => []
      | some evs => evs.enum.flatMap fun e =>
          if e.2.i < 0 ∨ e.2.j < 0 ∨ e.2.i ≥ (st.state.array.length : ℤ) ∨
              e.2.j ≥ (st.state.array.length : ℤ) then
            [.eventIndicesInvalid e.1 e.2.i e.2.j]
          else [])

/-- The flattened recursion frame collected per step by the root
`superRefine` (`type RecursionFrame` in `lib/arrays/schema.ts`). -/
structure RecursionTraceFrame where
  stepIndex : ℕ
  callId : String
  fn : String
  depth : ℤ
  phase : RecursionPhase
  deriving DecidableEq, Repr

/-- `findPhaseIndex`: index of the first frame with the given phase, `-1`
when absent (mirroring `Array.prototype.findIndex`). -/
def findPhaseIndex (frames : List RecursionTraceFrame) (phase : RecursionPhase) : ℤ :=
  match frames.findIdx? fun f => f.phase == phase with
  | none => -1
  | some i => (i : ℤ)

/-- The algorithm-specific required phase list of `validateCallLifecycle`. -/
def requiredPhases (alg : ArraysAlgorithm) : List RecursionPhase :=
  if alg = .mergesort then
    [.enter, .divide, .recurseLeft, .recurseRight, .combine, .phaseReturn]
  else
    [.enter, .divide, .recurseLeft, .recurseRight, .phaseReturn]

/-- `validateCallLifecycle`: per-`callId` lifecycle checking. -/
def validateCallLifecycle (alg : ArraysAlgorithm) (callId : String)
    (frames : List RecursionTraceFrame) : List Issue :=
  match frames with
  | [] => []
  | first :: _ =>
    let beginIssues : List Issue :=
      if first.phase ≠ .enter then [.callMustBeginWithEnter callId] else []
    let hasBase := frames.any fun f => f.phase == .base
    let hasReturn := frames.any fun f => f.phase == .phaseReturn
    let returnIssues : List Issue :=
      if ¬hasReturn then [.callMissingReturn callId] else []
    if hasBase then
      let baseIndex := findPhaseIndex frames .base
      let returnIndex := findPhaseIndex frames .phaseReturn
      let baseOrderIssues : List Issue :=
        if baseIndex < 0 ∨ returnIndex < 0 ∨ baseIndex > returnIndex then
          [.callBadBaseLifecycle callId]
        else []
      let hasRecursivePhase := frames.any fun f =>
        f.phase == .divide ∨ f.phase == .recurseLeft ∨
          f.phase == .recurseRight ∨ f.phase == .combine
      let mixIssues : List Issue :=
        if hasRecursivePhase then [.callMixesBaseAndRecursive callId] else []
      beginIssues ++ returnIssues ++ baseOrderIssues ++ mixIssues
    else
      let phaseFold := (requiredPhases alg).foldl
        (fun (acc : List Issue × ℤ) phase =>
          let phaseIndex := findPhaseIndex frames phase
          if phaseIndex < 0 then (acc.1 ++ [.callMissingPhase callId phase], acc.2)
          else if phaseIndex < acc.2 then
            (acc.1 ++ [.callPhaseOutOfOrder callId phase], acc.2)
          else (acc.1, phaseIndex))
        ([], -1)
      beginIssues ++ returnIssues ++ phaseFold.1

/-- The recursion frames of a step list, in step order, with their step
indices (the flattening loop of the root `superRefine`). -/
def recFrames (steps : List StepSpec) : List RecursionTraceFrame :=
  steps.enum.filterMap fun p =>
    p.2.state.recursion.map fun r => ⟨p.1, r.callId, r.fn, r.depth, r.phase⟩

/-- The distinct `callId`s in first-occurrence order (the key order of the
`recursionByCallId` insertion-ordered `Map`). -/
def callIdsInOrder (steps : List StepSpec) : List String :=
  ((recFrames steps).map fun f => f.callId).foldl
    (fun acc c => if c ∈ acc then acc else acc ++ [c]) []

/-- The frame group of one `callId`, in step order. -/
def framesFor (steps : List StepSpec) (callId : String) : List RecursionTraceFrame :=
  (recFrames steps).filter fun f => f.callId == callId

/-- `hasComponentType` for `StackView`. -/
def hasStackView (components : List RegistryComponentRef) : Bool :=
  components.any fun c => c.type == .stackView

/-- JavaScript whitespace for `String.prototype.trim` (ASCII part). -/
def isJsWhitespace (c : Char) : Bool :=
  c = ' ' ∨ c = '\t' ∨ c = '\n' ∨ c = '\r' ∨ c = '\x0b' ∨ c = '\x0c'

/-- `trim()` on a character list: drop whitespace from both ends. -/
def jsTrimChars (l : List Char) : List Char :=
  ((l.dropWhile isJsWhitespace).reverse.dropWhile isJsWhitespace).reverse

/-- `toLowerCase()` per character (ASCII range). -/
def jsLowerChar (c : Char) : Char :=
  if 'A' ≤ c ∧ c ≤ 'Z' then Char.ofNat (c.toNat + 32) else c

/-- `s.trim().toLowerCase()` as a character list. -/
def jsTrimLower (s : String) : List Char :=
  (jsTrimChars s.data).map jsLowerChar

/-- The banned generic caption check:
`step.caption.trim().toLowerCase() === "recursion"`. -/
def isGenericRecursionCaption (caption : String) : Bool :=
  jsTrimLower caption = "recursion".data

/-- The per-step checks of the recursive-algorithm block (caption, stack,
recursion presence, depth consistency, phase-specific sub-states), in
source order.  The source `return`s after the missing-recursion issue, so
the depth and phase checks run only when `state.recursion` is present. -/
def recursiveStepIssues (alg : ArraysAlgorithm) (stepIndex : ℕ) (st : StepSpec) :
    List Issue :=
  (if isGenericRecursionCaption st.caption then
     [.genericRecursionCaption stepIndex]
   else [])
  ++ (match st.state.stack with
      | none => [.missingStack stepIndex]
      | some s => if s.length = 0 then [.missingStack stepIndex] else [])
  ++ (match st.state.recursion with
      | none => [.missingRecursion stepIndex]
      | some r =>
        (if r.depth ≠ (((match st.state.stack with
                          | none => 0
                          | some s => (s.length : ℤ)) : ℤ) - 1) then
           [.depthStackMismatch stepIndex]
         else [])
        ++ (if alg = .quicksort ∧ r.phase = .divide ∧ st.state.partition = none then
              [.divideRequiresPartition stepIndex]
            else [])
        ++ (if alg = .mergesort ∧ r.phase = .combine ∧ st.state.merge = none then
              [.combineRequiresMerge stepIndex]
            else []))

/-- First-step rule: `{depth: 0, phase: "enter"}` when the first step has
recursion metadata. -/
def firstStepIssues (steps : List StepSpec) : List Issue :=
  match steps.head? >>= fun st => st.state.recursion with
  | none => []
  | some r =>
    if r.depth ≠ 0 ∨ r.phase ≠ .enter then [.firstStepNotRootEnter] else []

/-- Last-step rule: `{depth: 0, phase: "return"}` when the last step has
recursion metadata. -/
def lastStepIssues (steps : List StepSpec) : List Issue :=
  match steps.getLast? >>= fun st => st.state.recursion with
  | none => []
  | some r =>
    if r.depth ≠ 0 ∨ r.phase ≠ .phaseReturn then [.lastStepNotRootReturn] else []

/-- The adjacent-step depth-delta rule for one pair; `stepIndex` is the
index of the *current* (second) step, as in the source loop.  On a jump
outside `[-1, 1]` the source `continue`s, so the phase checks are
skipped. -/
def adjacentPairIssues (stepIndex : ℕ) (prev cur : StepSpec) : List Issue :=
  match prev.state.recursion, cur.state.recursion with
  | some p, some c =>
    let depthDelta := c.depth - p.depth
    if depthDelta < -1 ∨ depthDelta > 1 then [.depthJump stepIndex]
    else
      (if depthDelta = 1 then
         (if p.phase ≠ .recurseLeft ∧ p.phase ≠ .recurseRight then
            [.depthIncreaseBadPrevPhase (stepIndex - 1)]
          else [])
         ++ (if c.phase ≠ .enter then [.depthIncreaseBadCurrentPhase stepIndex] else [])
       else [])
      ++ (if depthDelta = -1 ∧ p.phase ≠ .phaseReturn then
            [.depthDecreaseBadPrevPhase (stepIndex - 1)]
          else [])
  | _, _ => []

/-- The adjacent-step loop (`for index = 1; index < steps.length`). -/
def adjacentIssues (steps : List StepSpec) : List Issue :=
  (steps.zip steps.tail).enum.flatMap fun p =>
    adjacentPairIssues (p.1 + 1) p.2.1 p.2.2

/-- The per-`callId` lifecycle pass over the insertion-ordered group map. -/
def lifecycleIssues (alg : ArraysAlgorithm) (steps : List StepSpec) : List Issue :=
  (callIdsInOrder steps).flatMap fun cid =>
    validateCallLifecycle alg cid (framesFor steps cid)

/-- The root `superRefine`: `activeCodeLine` range plus, for recursive
algorithms, the StackView requirement, the per-step recursion checks, the
global first/adjacent/last sequencing rules and the per-call lifecycle. -/
def rootIssues (spec : ArraysVizSpec) : List Issue :=
  (spec.steps.enum.flatMap fun p =>
    if p.2.activeCodeLine < 1 ∨ p.2.activeCodeLine > (spec.codeLines.length : ℤ) then
      [.activeCodeLineOutOfRange p.1 p.2.activeCodeLine]
    else [])
  ++ (if ¬isRecursiveAlgorithm spec.algorithm then []
      else
        (if ¬hasStackView spec.components then [.missingStackView] else [])
        ++ (spec.steps.enum.flatMap fun p => recursiveStepIssues spec.algorithm p.1 p.2)
        ++ firstStepIssues spec.steps
        ++ adjacentIssues spec.steps
        ++ lastStepIssues spec.steps
        ++ lifecycleIssues spec.algorithm spec.steps)

/-- All issues of a structurally parsed spec: the per-step `superRefine`
issues (collected while the steps array parses) followed by the root
`superRefine` issues. -/
def specIssues (spec : ArraysVizSpec) : List Issue :=
  (spec.steps.flatMap stepIssues) ++ rootIssues spec

/-- The error side of `parseAndValidateArraysSpec` /
`validateAlgorithmMatch` (`ArraysSpecValidationError`): which failure the
thrown error describes.  `stepBudgetExceeded` is the post-loop diagnostic
of the orchestrator. -/
inductive SpecError where
  | notJson
  | structuralFail
  | semanticFail (issues : List Issue)
  | algorithmMismatch (expected received : ArraysAlgorithm)
  | stepBudgetExceeded
  deriving DecidableEq, Repr

/-- `parseAndValidateArraysSpec`: fence-stripping plus `JSON.parse` are
modelled by the `Option JsonValue` input (`none` = the text was not valid
JSON); then the structural schema and both `superRefine` passes run, and
the document is accepted iff no issue is recorded. -/
def parseAndValidateArraysSpec (candidate : Option JsonValue) :
    Except SpecError ArraysVizSpec :=
  match candidate with
  | none => .error .notJson
  | some j =>
    match parseSpec j with
    | none => .error .structuralFail
    | some spec =>
      match specIssues spec with
      | [] => .ok spec
      | issues => .error (.semanticFail issues)

/-- `validateAlgorithmMatch`: the orchestrator's non-schema business rule. -/
def validateAlgorithmMatch (spec : ArraysVizSpec)
    (normalizedInput : NormalizedArraysInput) : Except SpecError Unit :=
  if spec.algorithm ≠ normalizedInput.algorithm then
    .error (.algorithmMismatch normalizedInput.algorithm spec.algorithm)
  else .ok ()

/-- One full validation of a candidate as the orchestrator performs it:
`parseAndValidateArraysSpec` followed by `validateAlgorithmMatch`. -/
def validateCandidate (normalizedInput : NormalizedArraysInput)
    (candidate : Option JsonValue) : Except SpecError ArraysVizSpec := do
  let spec ← parseAndValidateArraysSpec candidate
  let _ ← validateAlgorithmMatch spec normalizedInput
  pure spec

/-! ## Decimal rendering (template-literal interpolation)

`natToChars` renders a natural number in decimal exactly as JavaScript
template literals render the (integer) values that appear in the tracer's
ids, callIds, args, captions and title. -/

/-- Decimal digits, most significant first, with a structural fuel bound
(dividing by 10 strictly shrinks a number that is at least 10, so any
`fuel > n` is enough; the wrapper `natToChars` supplies `n + 1`). -/
def natToCharsAux : ℕ → ℕ → List Char
  | 0, _ => []
  | fuel + 1, n =>
    if n < 10 then [Nat.digitChar n]
    else natToCharsAux fuel (n / 10) ++ [Nat.digitChar (n % 10)]

/-- Decimal digits of a natural number, most significant first. -/
def natToChars (n : ℕ) : List Char := natToCharsAux (n + 1) n

/-- Decimal string of a natural number. -/
def natToString (n : ℕ) : String := ⟨natToChars n⟩

/-- Decimal string of an integer (`${i}` for integral numbers). -/
def intToString (i : ℤ) : String :=
  if i < 0 then "-" ++ natToString i.natAbs else natToString i.toNat

/-- `${q}` for a finite number.  Exact for integral values (the only
values interpolated into fields with validated lengths); non-integral
rationals use a `num/den` placeholder, since modelling
`Number.prototype.toString`'s shortest-float rendering is out of scope —
it influences only caption text and the title, and the title length is
always an explicit hypothesis where it matters. -/
def renderRat (q : ℚ) : String :=
  if q.den = 1 then intToString q.num
  else intToString q.num ++ "/" ++ natToString q.den

/-! ## Serialization (`JSON.stringify` of a typed spec)

Only specs produced by the deterministic tracer are ever serialized by the
orchestrator; optional fields that are `none` are genuinely absent from
the builder's object literals (conditional spreads), so they serialize to
no key at all. -/

/-- A finite number as JSON. -/
def jnum (q : ℚ) : JsonValue := .num q

/-- An integer as JSON. -/
def jint (i : ℤ) : JsonValue := .num (i : ℚ)

/-- An optional field: absent when `none`. -/
def optField (key : String) : Option JsonValue → List (String × JsonValue)
  | none => []
  | some v => [(key, v)]

/-- Enum literal of an algorithm. -/
def algorithmToStr : ArraysAlgorithm → String
  | .linearSearch => "linear-search"
  | .binarySearch => "binary-search"
  | .quicksort => "quicksort"
  | .mergesort => "mergesort"

/-- Enum literal of a phase. -/
def phaseToStr : RecursionPhase → String
  | .enter => "enter"
  | .base => "base"
  | .divide => "divide"
  | .recurseLeft => "recurse-left"
  | .recurseRight => "recurse-right"
  | .combine => "combine"
  | .phaseReturn => "return"

/-- Enum literal of a component type. -/
def componentTypeToStr : RegistryComponentType → String
  | .arrayView => "ArrayView"
  | .barArrayView => "BarArrayView"
  | .pointer => "Pointer"
  | .rangeHighlight => "RangeHighlight"
  | .swapAnimation => "SwapAnimation"
  | .compareAnimation => "CompareAnimation"
  | .captionCallout => "CaptionCallout"
  | .codeBlock => "CodeBlock"
  | .timelineStepper => "TimelineStepper"
  | .stackView => "StackView"
  | .partitionView => "PartitionView"
  | .mergeView => "MergeView"

/-- Enum literal of a compare outcome. -/
def outcomeToStr : CompareOutcome → String
  | .lt => "lt"
  | .eq => "eq"
  | .gt => "gt"

/-- `{l, r}` as JSON. -/
def rangeToJson (r : RangeSpec) : JsonValue :=
  .obj [("l", jint r.l), ("r", jint r.r)]

/-- The recursion object as JSON, in the key order of
`pushQuicksortStep`. -/
def recursionToJson (r : RecursionState) : JsonValue :=
  .obj ([("callId", .str r.callId)]
    ++ optField "parentCallId" (r.parentCallId.map .str)
    ++ [("fn", .str r.fn), ("depth", jint r.depth),
        ("phase", .str (phaseToStr r.phase)), ("args", .str r.args)])

/-- The partition object as JSON. -/
def partitionToJson (p : PartitionState) : JsonValue :=
  .obj [("pivotIndex", jint p.pivotIndex),
        ("less", .arr (p.less.map jnum)),
        ("greater", .arr (p.greater.map jnum))]

/-- The merge object as JSON. -/
def mergeToJson (m : MergeState) : JsonValue :=
  .obj ([("left", .arr (m.left.map jnum)), ("right", .arr (m.right.map jnum)),
         ("merged", .arr (m.merged.map jnum))]
    ++ optField "writeRange" (m.writeRange.map rangeToJson))

/-- An event as JSON. -/
def eventToJson : StepEvent → JsonValue
  | .swap i j => .obj [("type", .str "swap"), ("i", jint i), ("j", jint j)]
  | .compare i j outcome =>
    .obj ([("type", .str "compare"), ("i", jint i), ("j", jint j)]
      ++ optField "outcome" ((outcome.map outcomeToStr).map .str))

/-- A step state as JSON, in the key order of `pushQuicksortStep`'s object
literal. -/
def stepStateToJson (st : StepState) : JsonValue :=
  .obj ([("array", .arr (st.array.map jnum))]
    ++ optField "pointers" (st.pointers.map fun ps =>
        .obj (ps.map fun p => (p.1, jint p.2)))
    ++ optField "range" (st.range.map rangeToJson)
    ++ optField "stack" (st.stack.map fun s => .arr (s.map .str))
    ++ optField "recursion" (st.recursion.map recursionToJson)
    ++ optField "partition" (st.partition.map partitionToJson)
    ++ optField "merge" (st.merge.map mergeToJson))

/-- A step as JSON. -/
def stepToJson (st : StepSpec) : JsonValue :=
  .obj ([("id", .str st.id), ("caption", .str st.caption),
         ("activeCodeLine", jint st.activeCodeLine),
         ("state", stepStateToJson st.state)]
    ++ optField "events" (st.events.map fun evs => .arr (evs.map eventToJson)))

/-- A component as JSON. -/
def componentToJson (c : RegistryComponentRef) : JsonValue :=
  .obj ([("id", .str c.id), ("type", .str (componentTypeToStr c.type))]
    ++ optField "props" (c.props.map .obj))

/-- `JSON.stringify(spec)` followed by `JSON.parse`: the whole spec as a
JSON document. -/
def specToJson (spec : ArraysVizSpec) : JsonValue :=
  .obj [("version", .str spec.version),
        ("algorithm", .str (algorithmToStr spec.algorithm)),
        ("title", .str spec.title),
        ("code", .obj [("lines", .arr (spec.codeLines.map .str))]),
        ("scene", .obj [("components", .arr (spec.components.map componentToJson))]),
        ("steps", .arr (spec.steps.map stepToJson))]

/-! ## The deterministic quicksort tracer (`app/api/arrays/chat/route.ts`) -/

/-- The mutable trace context threaded through `traceQuicksortCall`. -/
structure QuicksortTraceContext where
  array : List ℚ
  steps : List StepSpec
  nextStepId : ℕ
  nextCallId : ℕ
  deriving Repr

/-- The destructuring swap
`[values[i], values[j]] = [values[j], values[i]]` (both reads happen
before either write). -/
def swapList (values : List ℚ) (i j : ℕ) : List ℚ :=
  (values.set i (values.getD j 0)).set j (values.getD i 0)

/-- The partition scan loop of `partitionLomuto`
(`for scanIndex = lo; scanIndex < hi; ...`), returning the final values
and `storeIndex`.  The loop runs exactly as long as `scanIndex < hi`, so
the structural counter `fuel` is supplied as `hi - scanIndex` by
`partitionLomuto`: it reaches `0` exactly when `scanIndex` reaches `hi`. -/
def lomutoScan (pivotValue : ℚ) : ℕ → List ℚ → ℕ → ℕ → ℕ → List ℚ × ℕ
  | 0, values, storeIndex, _, _ => (values, storeIndex)
  | fuel + 1, values, storeIndex, scanIndex, hi =>
    if scanIndex < hi then
      if values.getD scanIndex 0 ≤ pivotValue then
        lomutoScan pivotValue fuel (swapList values storeIndex scanIndex)
          (storeIndex + 1) (scanIndex + 1) hi
      else
        lomutoScan pivotValue fuel values storeIndex (scanIndex + 1) hi
    else (values, storeIndex)

/-- `partitionLomuto(values, lo, hi)`: pivot is `values[hi]`; returns the
updated values (the source mutates in place), the `pivotIndex` and the
`pivotValue`.  The tracer only calls it with `0 ≤ lo < hi < length`. -/
def partitionLomuto (values : List ℚ) (lo hi : ℕ) : List ℚ × ℕ × ℚ :=
  let pivotValue := values.getD hi 0
  let scanned := lomutoScan pivotValue (hi - lo) values lo lo hi
  (swapList scanned.1 scanned.2 hi, scanned.2, pivotValue)

/-- `getQuicksortCodeLineForPhase`. -/
def getQuicksortCodeLineForPhase : RecursionPhase → ℤ
  | .enter => 1
  | .base => 2
  | .divide => 3
  | .recurseLeft => 4
  | .recurseRight => 5
  | .phaseReturn => 6
  | _ => 1

/-- `createValidRange`: omit the range when it would be invalid. -/
def createValidRange (arrayLength : ℕ) (lo hi : ℤ) : Option RangeSpec :=
  if lo < 0 ∨ hi < 0 ∨ lo ≥ (arrayLength : ℤ) ∨ hi ≥ (arrayLength : ℤ) ∨ lo > hi then
    none
  else some ⟨lo, hi⟩

/-- `createValidPointers`: only in-bounds pointers, `undefined` when both
are out of bounds. -/
def createValidPointers (arrayLength : ℕ) (lo hi : ℤ) : Option (List (String × ℤ)) :=
  let pointers :=
    (if 0 ≤ lo ∧ lo < (arrayLength : ℤ) then [("lo", lo)] else [])
    ++ (if 0 ≤ hi ∧ hi < (arrayLength : ℤ) then [("hi", hi)] else [])
  if 0 < pointers.length then some pointers else none

/-- `pushQuicksortStep`: append one step built from the current context. -/
def pushQuicksortStep (context : QuicksortTraceContext) (callId : String)
    (parentCallId : Option String) (depth : ℕ) (phase : RecursionPhase)
    (lo hi : ℤ) (stack : List String) (caption : String)
    (partition : Option PartitionState) (events : Option (List StepEvent)) :
    QuicksortTraceContext :=
  let range := createValidRange context.array.length lo hi
  let basePointers := createValidPointers context.array.length lo hi
  let pointers :=
    match phase, partition with
    | .divide, some p => some ((basePointers.getD []) ++ [("pivot", p.pivotIndex)])
    | _, _ => basePointers
  { context with
    steps := context.steps ++ [{
      id := "s" ++ natToString context.nextStepId,
      caption := caption,
      activeCodeLine := getQuicksortCodeLineForPhase phase,
      state := {
        array := context.array,
        pointers := pointers,
        range := range,
        stack := some stack,
        recursion := some {
          callId := callId,
          parentCallId := parentCallId,
          fn := "quicksort",
          depth := (depth : ℤ),
          phase := phase,
          args := "lo=" ++ intToString lo ++ " hi=" ++ intToString hi },
        partition := partition,
        merge := none },
      events := match events with
        | some evs => if 0 < evs.length then some evs else none
        | none => none }],
    nextStepId := context.nextStepId + 1 }

/-- `traceQuicksortCall`.  The source recursion always terminates because
each recursive range is strictly smaller; the embedding makes that bound
explicit with a `fuel` parameter, and `buildDeterministicQuicksortSpec`
supplies `array.length + 1`, which is always sufficient (proved below for
the inputs the builder uses). -/
def traceQuicksortCall (fuel : ℕ) (context : QuicksortTraceContext)
    (lo hi : ℤ) (depth : ℕ) (parentCallId : Option String)
    (stackBase : List String) : QuicksortTraceContext :=
  match fuel with
  | 0 => context
  | fuel + 1 =>
    let callId := "q" ++ natToString context.nextCallId
    let context := { context with nextCallId := context.nextCallId + 1 }
    let argsText := "lo=" ++ intToString lo ++ ", hi=" ++ intToString hi
    let stack := stackBase ++ [callId ++ "(" ++ argsText ++ ")"]
    let context := pushQuicksortStep context callId parentCallId depth .enter
      lo hi stack ("Enter quicksort(" ++ argsText ++ ")") none none
    if lo ≥ hi then
      let context := pushQuicksortStep context callId parentCallId depth .base
        lo hi stack ("Base case reached for quicksort(" ++ argsText ++ ")") none none
      pushQuicksortStep context callId parentCallId depth .phaseReturn
        lo hi stack ("Return from quicksort(" ++ argsText ++ ")") none none
    else
      let part := partitionLomuto context.array lo.toNat hi.toNat
      let newArray := part.1
      let pivotIndex := part.2.1
      let pivotValue := part.2.2
      let context := { context with array := newArray }
      let partitionState : PartitionState := {
        pivotIndex := (pivotIndex : ℤ),
        less := (newArray.drop lo.toNat).take (pivotIndex - lo.toNat),
        greater := (newArray.drop (pivotIndex + 1)).take (hi.toNat - pivotIndex) }
      let divideEvents : List StepEvent :=
        [.compare hi hi (some .eq), .swap (pivotIndex : ℤ) hi]
      let context := pushQuicksortStep context callId parentCallId depth .divide
        lo hi stack
        ("Partition [" ++ intToString lo ++ ", " ++ intToString hi ++
          "] with pivot " ++ renderRat pivotValue ++ " at index " ++
          natToString pivotIndex)
        (some partitionState) (some divideEvents)
      let leftLo := lo
      let leftHi := (pivotIndex : ℤ) - 1
      let rightLo := (pivotIndex : ℤ) + 1
      let rightHi := hi
      let context := pushQuicksortStep context callId parentCallId depth
        .recurseLeft lo hi stack
        ("Recurse left: quicksort(lo=" ++ intToString leftLo ++ ", hi=" ++
          intToString leftHi ++ ")") none none
      let context := traceQuicksortCall fuel context leftLo leftHi (depth + 1)
        (some callId) stack
      let context := pushQuicksortStep context callId parentCallId depth
        .recurseRight lo hi stack
        ("Recurse right: quicksort(lo=" ++ intToString rightLo ++ ", hi=" ++
          intToString rightHi ++ ")") none none
      let context := traceQuicksortCall fuel context rightLo rightHi (depth + 1)
        (some callId) stack
      pushQuicksortStep context callId parentCallId depth .phaseReturn
        lo hi stack ("Return from quicksort(" ++ argsText ++ ")") none none

/-- `buildDeterministicQuicksortSpec`: run the tracer on a defensive copy
of the input array and wrap the steps in the fixed shell (code panel,
scene components, title). -/
def buildDeterministicQuicksortSpec (normalizedInput : NormalizedArraysInput) :
    ArraysVizSpec :=
  let traceContext : QuicksortTraceContext := {
    array := normalizedInput.array, steps := [], nextStepId := 0, nextCallId := 0 }
  let traced := traceQuicksortCall (normalizedInput.array.length + 1) traceContext
    0 ((normalizedInput.array.length : ℤ) - 1) 0 none []
  { version := "1.0",
    algorithm := .quicksort,
    title := "Quicksort walkthrough for [" ++
      String.intercalate ", " (normalizedInput.array.map renderRat) ++ "]",
    codeLines := [
      "function quicksort(a, lo, hi):",
      "  if lo >= hi: return",
      "  p = partition(a, lo, hi)",
      "  quicksort(a, lo, p - 1)",
      "  quicksort(a, p + 1, hi)",
      "  return"],
    components := [
      ⟨"bars", .barArrayView, none⟩,
      ⟨"pointer", .pointer, none⟩,
      ⟨"range", .rangeHighlight, none⟩,
      ⟨"swap", .swapAnimation, none⟩,
      ⟨"compare", .compareAnimation, none⟩,
      ⟨"partition", .partitionView, none⟩,
      ⟨"stack", .stackView, none⟩,
      ⟨"caption", .captionCallout, none⟩,
      ⟨"code", .codeBlock, none⟩,
      ⟨"timeline", .timelineStepper, none⟩],
    steps := traced.steps }

/-! ## The repair-loop orchestrator (`generateValidatedSpec`) -/

/-- `buildDeterministicFallbackSpec`: quicksort is the only algorithm with
a deterministic fallback. -/
def buildDeterministicFallbackSpec (normalizedInput : NormalizedArraysInput) :
    Option ArraysVizSpec :=
  if normalizedInput.algorithm = .quicksort then
    some (buildDeterministicQuicksortSpec normalizedInput)
  else none

/-- `getCandidateStepCount`: re-parse the last candidate and read
`steps.length` when it is an array. -/
def getCandidateStepCount (candidate : Option JsonValue) : Option ℕ :=
  match candidate with
  | some (.obj fields) =>
    match findField fields "steps" with
    | some (.arr elems) => some elems.length
    | _ => none
  | _ => none

/-- The `for attempt in 0..SPEC_MAX_REPAIR_ATTEMPTS` loop of
`generateValidatedSpec`: validate the current candidate; on success return
it; on validation failure either stop (budget reached, keeping the last
error and last candidate) or request a repaired candidate and continue.
The generator is modelled as the sequence of its outputs: `gen k` is the
parsed JSON (or `none` for unparseable text) of the `(k+1)`-th generation
call; `calls` counts generation calls made so far.  The source counts
`attempt` up from `0` to `SPEC_MAX_REPAIR_ATTEMPTS`; the embedding counts
the remaining repair attempts down from `SPEC_MAX_REPAIR_ATTEMPTS`
(so `remainingRepairs = 0` is `attempt >= SPEC_MAX_REPAIR_ATTEMPTS`). -/
def specAttemptLoop (gen : ℕ → Option JsonValue)
    (normalizedInput : NormalizedArraysInput) :
    ℕ → Option JsonValue → ℕ →
      Except SpecError ArraysVizSpec × Option JsonValue × ℕ
  | 0, candidate, calls =>
    (match validateCandidate normalizedInput candidate with
     | .ok spec => (.ok spec, candidate, calls)
     | .error e => (.error e, candidate, calls))
  | r + 1, candidate, calls =>
    match validateCandidate normalizedInput candidate with
    | .ok spec => (.ok spec, candidate, calls)
    | .error _ =>
      specAttemptLoop gen normalizedInput r (gen calls) (calls + 1)

/-- `generateValidatedSpec`: one initial generation call, the bounded
repair loop, then the deterministic fallback (validated through the full
pipeline after serialization) and the recursive step-budget diagnostic.
Returns the outcome together with the number of generation calls issued.
The unreachable `lastValidationError ?? new ...` default of the source is
dropped: the loop always validates at least once. -/
def generateValidatedSpec (gen : ℕ → Option JsonValue)
    (normalizedInput : NormalizedArraysInput) :
    Except SpecError ArraysVizSpec × ℕ :=
  let loopResult := specAttemptLoop gen normalizedInput SPEC_MAX_REPAIR_ATTEMPTS (gen 0) 1
  let lastCandidate := loopResult.2.1
  let calls := loopResult.2.2
  match loopResult.1 with
  | .ok spec => (.ok spec, calls)
  | .error lastValidationError =>
    let fallbackOutcome : Option (Except SpecError ArraysVizSpec) :=
      match buildDeterministicFallbackSpec normalizedInput with
      | none => none
      | some fallbackSpec =>
        match validateCandidate normalizedInput (some (specToJson fallbackSpec)) with
        | .ok validatedFallback => some (.ok validatedFallback)
        | .error _ => none
    match fallbackOutcome with
    | some r => (r, calls)
    | none =>
      if isRecursiveAlgorithm normalizedInput.algorithm then
        match getCandidateStepCount lastCandidate with
        | some stepCount =>
          if MAX_TIMELINE_STEPS ≤ stepCount then (.error .stepBudgetExceeded, calls)
          else (.error lastValidationError, calls)
        | none => (.error lastValidationError, calls)
      else (.error lastValidationError, calls)

/-! ## Helper views on validation outcomes -/

/-- The accepted spec of a candidate, if any. -/
def acceptedSpecOf (candidate : Option JsonValue) : Option ArraysVizSpec :=
  match parseAndValidateArraysSpec candidate with
  | .ok s => some s
  | .error _ => none

/-- The error of a validation outcome, if any. -/
def errorOf : Except SpecError ArraysVizSpec → Option SpecError
  | .error e => some e
  | .ok _ => none

/-- How many frames of a `callId` group carry a given phase. -/
def groupPhaseCount (steps : List StepSpec) (callId : String)
    (phase : RecursionPhase) : ℕ :=
  (framesFor steps callId).countP fun f => f.phase = phase

/-! ## Concrete documents and inputs used to settle individual claims -/

/-- A recursion object for `doubleEnterDoc` (callId `c1`, depth 0). -/
def mkRecJson (phase : String) : JsonValue :=
  .obj [("callId", .str "c1"), ("fn", .str "qs"), ("depth", .num 0),
        ("phase", .str phase), ("args", .str "a")]

/-- A step of `doubleEnterDoc`: singleton array, one-frame stack, depth-0
recursion in the given phase, optional empty partition. -/
def mkStepJson (sid : String) (phase : String) (withPartition : Bool) : JsonValue :=
  .obj [("id", .str sid), ("caption", .str ("Step " ++ phase)),
        ("activeCodeLine", .num 1),
        ("state", .obj ([("array", .arr [.num 5]),
          ("stack", .arr [.str "f"]),
          ("recursion", mkRecJson phase)]
          ++ (if withPartition then
              [("partition", .obj [("pivotIndex", .num 0), ("less", .arr []),
                ("greater", .arr [])])]
             else [])))]

/-- A quicksort document whose single `callId` group carries the phases
`enter, divide, recurse-left, recurse-right, return, enter, return` — all
at depth 0, so every depth-delta rule is vacuous, and the lifecycle
checker (which only inspects the first frame and first-occurrence
indices) finds nothing wrong. -/
def doubleEnterDoc : JsonValue :=
  .obj [("version", .str "1.0"), ("algorithm", .str "quicksort"),
        ("title", .str "t"),
        ("code", .obj [("lines", .arr [.str "x"])]),
        ("scene", .obj [("components", .arr
          [.obj [("id", .str "st"), ("type", .str "StackView")],
           .obj [("id", .str "cb"), ("type", .str "CodeBlock")]])]),
        ("steps", .arr
          [mkStepJson "s0" "enter" false,
           mkStepJson "s1" "divide" true,
           mkStepJson "s2" "recurse-left" false,
           mkStepJson "s3" "recurse-right" false,
           mkStepJson "s4" "return" false,
           mkStepJson "s5" "enter" false,
           mkStepJson "s6" "return" false])]

/-- An otherwise well-formed linear-search document with two `ArrayView`
components and no `CodeBlock`. -/
def noCodeBlockDoc : JsonValue :=
  .obj [("version", .str "1.0"), ("algorithm", .str "linear-search"),
        ("title", .str "t"),
        ("code", .obj [("lines", .arr [.str "x"])]),
        ("scene", .obj [("components", .arr
          [.obj [("id", .str "a"), ("type", .str "ArrayView")],
           .obj [("id", .str "b"), ("type", .str "ArrayView")]])]),
        ("steps", .arr [.obj [("id", .str "s0"), ("caption", .str "c"),
          ("activeCodeLine", .num 1),
          ("state", .obj [("array", .arr [.num 1])])]])]

/-- A normalized quicksort input of 32 two-digit numbers: the rendered
title `Quicksort walkthrough for [10, 11, ..., 41]` has 154 characters,
past the schema's 140-character cap. -/
def wideTitleInput : NormalizedArraysInput :=
  ⟨.quicksort, (List.range 32).map fun k => ((k + 10 : ℕ) : ℚ), none⟩

/-- A JSON document that is just `{"steps": [null, ..., null]}` with 301
entries: structurally invalid, but with a parseable `steps` array at the
step-budget threshold. -/
def junkStepsDoc : JsonValue := .obj [("steps", .arr (List.replicate 301 .null))]

/-- A mergesort input (an algorithm with no deterministic fallback). -/
def mergesortPairInput : NormalizedArraysInput := ⟨.mergesort, [1, 2], none⟩

/-- A linear-search input matching `noCodeBlockDoc`. -/
def singletonSearchInput : NormalizedArraysInput := ⟨.linearSearch, [1], none⟩

/-- The literal input of the spec's concrete tracer example. -/
def sampleQuicksortInput : NormalizedArraysInput := ⟨.quicksort, [9, 3, 7, 1, 5], none⟩

/-- No string occurs twice. -/
def noDupKeys : List String → Bool
  | [] => true
  | k :: rest => !(rest.contains k) && noDupKeys rest

namespace JsonValue

mutual

/-- Every object inside the document has pairwise-distinct keys — an
invariant of every `JSON.parse` output. -/
def wfJson : JsonValue → Bool
  | .arr elems => wfList elems
  | .obj fields => noDupKeys (fields.map Prod.fst) && wfFields fields
  | _ => true

/-- `wfJson` over array elements. -/
def wfList : List JsonValue → Bool
  | [] => true
  | e :: rest => wfJson e && wfList rest

/-- `wfJson` over object values. -/
def wfFields : List (String × JsonValue) → Bool
  | [] => true
  | (_, v) :: rest => wfJson v && wfFields rest

end

end JsonValue

/-- Whether one raw component's `props` object has a value that is not a
string, finite number, or boolean. -/
def propsViolationOfComponent (c : JsonValue) : Bool :=
  match c with
  | .obj cfields =>
    match findField cfields "props" with
    | some (.obj pfields) => pfields.any fun p => !(isPrimitivePropValue p.2)
    | _ => false
  | _ => false

/-- `propsViolationOfComponent` over a raw components array. -/
def propsViolationOfComponents (v : JsonValue) : Bool :=
  match v with
  | .arr comps => comps.any propsViolationOfComponent
  | _ => false

/-- `propsViolationOfComponents` under a raw scene object. -/
def propsViolationOfScene (v : JsonValue) : Bool :=
  match v with
  | .obj sfields =>
    match findField sfields "components" with
    | some vc => propsViolationOfComponents vc
    | none => false
  | _ => false

/-- Whether some `scene.components[*].props` value of the raw document is
not a string, finite number, or boolean — read along the same
`findField` path the parser uses. -/
def scenePropsViolation (j : JsonValue) : Bool :=
  match j with
  | .obj fields =>
    match findField fields "scene" with
    | some vs => propsViolationOfScene vs
    | none => false
  | _ => false

/-- A default spec used only as the `Option.getD` fallback below. -/
def emptySpecDefault : ArraysVizSpec :=
  ⟨"", .linearSearch, "", [], [], []⟩

/-- The typed spec a document parses to (defaulting to
`emptySpecDefault` for rejected documents). -/
def parsedSpecOf (j : JsonValue) : ArraysVizSpec :=
  (acceptedSpecOf (some j)).getD emptySpecDefault

/-- An accepted linear-search document exercising every index-carrying
field: pointers, range, partition, merge write range and events. -/
def boundsDoc : JsonValue :=
  .obj [("version", .str "1.0"), ("algorithm", .str "linear-search"),
        ("title", .str "t"),
        ("code", .obj [("lines", .arr [.str "x"])]),
        ("scene", .obj [("components", .arr
          [.obj [("id", .str "a"), ("type", .str "ArrayView")]])]),
        ("steps", .arr [.obj [("id", .str "s0"), ("caption", .str "c"),
          ("activeCodeLine", .num 1),
          ("state", .obj [("array", .arr [.num 3, .num 1]),
            ("pointers", .obj [("i", .num 0), ("j", .num 1)]),
            ("range", .obj [("l", .num 0), ("r", .num 1)]),
            ("partition", .obj [("pivotIndex", .num 1), ("less", .arr []),
              ("greater", .arr [.num 3])]),
            ("merge", .obj [("left", .arr [.num 1]), ("right", .arr [.num 2]),
              ("merged", .arr [.num 1, .num 2]),
              ("writeRange", .obj [("l", .num 0), ("r", .num 1)])])]),
          ("events", .arr [.obj [("type", .str "swap"), ("i", .num 0), ("j", .num 1)],
            .obj [("type", .str "compare"), ("i", .num 0), ("j", .num 0),
              ("outcome", .str "lt")]])]])]

/-- A generator whose first output is the invalid `junkStepsDoc` and whose
repaired outputs are the valid `noCodeBlockDoc`. -/
def genC7 : ℕ → Option JsonValue :=
  fun k => if k = 0 then some junkStepsDoc else some noCodeBlockDoc

/-- All per-step facts needed for the fallback spec's validity. -/
def GoodStep (N : ℕ) (st : StepSpec) : Prop :=
  stepIssues st = [] ∧
  (∀ idx, recursiveStepIssues .quicksort idx st = []) ∧
  parseStep (stepToJson st) = some st ∧
  1 ≤ st.activeCodeLine ∧ st.activeCodeLine ≤ 6 ∧
  st.state.array.length = N

/-- Index-independent adjacent-step compatibility. -/
def AdjOk (prev cur : StepSpec) : Prop :=
  ∀ k, adjacentPairIssues k prev cur = []

/-- The phases of one `callId`'s frames within a step list, in order. -/
def phasesOf (sts : List StepSpec) (cid : String) : List RecursionPhase :=
  sts.filterMap fun st => st.state.recursion.bind fun r =>
    if r.callId = cid then some r.phase else none

/-- The step record appended by `pushQuicksortStep`. -/
def pushedStep (context : QuicksortTraceContext) (callId : String)
    (parentCallId : Option String) (depth : ℕ) (phase : RecursionPhase)
    (lo hi : ℤ) (stack : List String) (caption : String)
    (partition : Option PartitionState) (events : Option (List StepEvent)) :
    StepSpec :=
  { id := "s" ++ natToString context.nextStepId,
    caption := caption,
    activeCodeLine := getQuicksortCodeLineForPhase phase,
    state := {
      array := context.array,
      pointers :=
        (match phase, partition with
         | .divide, some p =>
           some (((createValidPointers context.array.length lo hi).getD []) ++
             [("pivot", p.pivotIndex)])
         | _, _ => createValidPointers context.array.length lo hi),
      range := createValidRange context.array.length lo hi,
      stack := some stack,
      recursion := some {
        callId := callId,
        parentCallId := parentCallId,
        fn := "quicksort",
        depth := (depth : ℤ),
        phase := phase,
        args := "lo=" ++ intToString lo ++ " hi=" ++ intToString hi },
      partition := partition,
      merge := none },
    events := match events with
      | some evs => if 0 < evs.length then some evs else none
      | none => none }

/-- The base-branch result of one `traceQuicksortCall` step. -/
def traceBase (ctx : QuicksortTraceContext) (lo hi : ℤ) (depth : ℕ)
    (parent : Option String) (stackBase : List String) :
    QuicksortTraceContext :=
  let callId := "q" ++ natToString ctx.nextCallId
  let ctx1 : QuicksortTraceContext := { ctx with nextCallId := ctx.nextCallId + 1 }
  let argsText := "lo=" ++ intToString lo ++ ", hi=" ++ intToString hi
  let stack := stackBase ++ [callId ++ "(" ++ argsText ++ ")"]
  let c2 := pushQuicksortStep ctx1 callId parent depth .enter lo hi stack
    ("Enter quicksort(" ++ argsText ++ ")") none none
  let c3 := pushQuicksortStep c2 callId parent depth .base lo hi stack
    ("Base case reached for quicksort(" ++ argsText ++ ")") none none
  pushQuicksortStep c3 callId parent depth .phaseReturn lo hi stack
    ("Return from quicksort(" ++ argsText ++ ")") none none

/-- The divide-branch result of one `traceQuicksortCall` step. -/
def traceDivide (fuel : ℕ) (ctx : QuicksortTraceContext) (lo hi : ℤ)
    (depth : ℕ) (parent : Option String) (stackBase : List String) :
    QuicksortTraceContext :=
  let callId := "q" ++ natToString ctx.nextCallId
  let ctx1 : QuicksortTraceContext := { ctx with nextCallId := ctx.nextCallId + 1 }
  let argsText := "lo=" ++ intToString lo ++ ", hi=" ++ intToString hi
  let stack := stackBase ++ [callId ++ "(" ++ argsText ++ ")"]
  let c2 := pushQuicksortStep ctx1 callId parent depth .enter lo hi stack
    ("Enter quicksort(" ++ argsText ++ ")") none none
  let part := partitionLomuto c2.array lo.toNat hi.toNat
  let newArray := part.1
  let pivotIndex := part.2.1
  let pivotValue := part.2.2
  let c2a : QuicksortTraceContext := { c2 with array := newArray }
  let partitionState : PartitionState := {
    pivotIndex := (pivotIndex : ℤ),
    less := (newArray.drop lo.toNat).take (pivotIndex - lo.toNat),
    greater := (newArray.drop (pivotIndex + 1)).take (hi.toNat - pivotIndex) }
  let divideEvents : List StepEvent :=
    [.compare hi hi (some .eq), .swap (pivotIndex : ℤ) hi]
  let c3 := pushQuicksortStep c2a callId parent depth .divide lo hi stack
    ("Partition [" ++ intToString lo ++ ", " ++ intToString hi ++
      "] with pivot " ++ renderRat pivotValue ++ " at index " ++
      natToString pivotIndex)
    (some partitionState) (some divideEvents)
  let c4 := pushQuicksortStep c3 callId parent depth .recurseLeft lo hi stack
    ("Recurse left: quicksort(lo=" ++ intToString lo ++ ", hi=" ++
      intToString ((pivotIndex : ℤ) - 1) ++ ")") none none
  let c5 := traceQuicksortCall fuel c4 lo ((pivotIndex : ℤ) - 1) (depth + 1)
    (some callId) stack
  let c6 := pushQuicksortStep c5 callId parent depth .recurseRight lo hi stack
    ("Recurse right: quicksort(lo=" ++ intToString ((pivotIndex : ℤ) + 1) ++
      ", hi=" ++ intToString hi ++ ")") none none
  let c7 := traceQuicksortCall fuel c6 ((pivotIndex : ℤ) + 1) hi (depth + 1)
    (some callId) stack
  pushQuicksortStep c7 callId parent depth .phaseReturn lo hi stack
    ("Return from quicksort(" ++ argsText ++ ")") none none

/-- The invariant carried by one tracer call: it appends a non-empty,
well-formed block of steps for a fresh range of `callId`s, preserves the
array length, and the block's first and last frames are the call's
`enter` and `return` at the given depth. -/
def TraceOut (ctx ctxOut : QuicksortTraceContext) (lo hi : ℤ)
    (depth : ℕ) : Prop :=
  ctxOut.array.length = ctx.array.length ∧
  ctx.nextCallId < ctxOut.nextCallId ∧
  ∃ new, ctxOut.steps = ctx.steps ++ new ∧
    new ≠ [] ∧
    new.length ≤ 8 * (hi + 1 - lo).toNat + 3 ∧
    (∀ st ∈ new, GoodStep ctx.array.length st) ∧
    List.Chain' AdjOk new ∧
    (∃ r0, (new.head?.bind fun st => st.state.recursion) = some r0 ∧
      r0.depth = (depth : ℤ) ∧ r0.phase = .enter) ∧
    (∃ r1, (new.getLast?.bind fun st => st.state.recursion) = some r1 ∧
      r1.depth = (depth : ℤ) ∧ r1.phase = .phaseReturn) ∧
    (∀ st ∈ new, ∃ r, st.state.recursion = some r ∧
      ∃ k, ctx.nextCallId ≤ k ∧ k < ctxOut.nextCallId ∧
        r.callId = "q" ++ natToString k) ∧
    (∀ k, ctx.nextCallId ≤ k → k < ctxOut.nextCallId →
      phasesOf new ("q" ++ natToString k) = [.enter, .base, .phaseReturn] ∨
      phasesOf new ("q" ++ natToString k) =
        [.enter, .divide, .recurseLeft, .recurseRight, .phaseReturn])

/-! ## Concrete-evaluation claims -/

/-- C9: running the deterministic quicksort tracer on `[9, 3, 7, 1, 5]`
yields a spec whose last step's array snapshot is `[1, 3, 5, 7, 9]`, whose
step count is 27 (low-double-digit), and whose first and last steps are
the root call at depth 0 in phases `enter` and `return`. -/
theorem C9_concrete_trace :
    ((buildDeterministicQuicksortSpec sampleQuicksortInput).steps.map fun st =>
        st.state.array).getLast? = some [1, 3, 5, 7, 9] ∧
    (buildDeterministicQuicksortSpec sampleQuicksortInput).steps.length = 27 ∧
    (((buildDeterministicQuicksortSpec sampleQuicksortInput).steps.head?.bind fun st =>
        st.state.recursion).map fun r => (r.depth, r.phase)) =
      some (0, .enter) ∧
    (((buildDeterministicQuicksortSpec sampleQuicksortInput).steps.getLast?.bind fun st =>
        st.state.recursion).map fun r => (r.depth, r.phase)) =
      some (0, .phaseReturn) :=
  ⟨by decide, by decide, by decide, by decide⟩

/-- C2 counterexample: this quicksort document is accepted by the
validator, yet its `callId` group `c1` contains two `enter` and two
`return` frames — refuting the claim that every group of an accepted spec
contains exactly one of each. -/
theorem C2_counterexample :
    ((acceptedSpecOf (some doubleEnterDoc)).map fun s =>
      (s.algorithm, groupPhaseCount s.steps "c1" .enter,
        groupPhaseCount s.steps "c1" .phaseReturn)) =
      some (.quicksort, 2, 2) := by decide

/-- C5 counterexample: this document has no `CodeBlock` component and two
components of the same type (`ArrayView`), yet `parseAndValidateArraysSpec`
accepts it — the validator enforces neither rule. -/
theorem C5_counterexample :
    ((acceptedSpecOf (some noCodeBlockDoc)).map fun s =>
      ((s.components.countP fun c => c.type = .codeBlock),
       (s.components.countP fun c => c.type = .arrayView))) = some (0, 2) := by
  decide

/-- C6 counterexample: for the quicksort input of 32 two-digit numbers the
deterministic fallback builds a title of 154 characters, so re-checking
the serialized spec fails the schema's 140-character title cap — the
fallback does not always pass validation. -/
theorem C6_counterexample :
    errorOf (parseAndValidateArraysSpec
      (some (specToJson (buildDeterministicQuicksortSpec wideTitleInput)))) =
      some .structuralFail ∧
    wideTitleInput.array.length = 32 ∧
    (buildDeterministicQuicksortSpec wideTitleInput).title.length = 154 :=
  ⟨by decide, by decide, by decide⟩

/-- C1 counterexample: mergesort has no deterministic fallback, and with
all four candidates equal to `junkStepsDoc` every validation fails with a
structural error; but because the last candidate's `steps` array has 301
entries, the orchestrator raises the step-budget diagnostic instead of the
last candidate's validation error. -/
theorem C1_counterexample :
    errorOf (generateValidatedSpec (fun _ => some junkStepsDoc)
        mergesortPairInput).1 = some .stepBudgetExceeded ∧
    errorOf (validateCandidate mergesortPairInput (some junkStepsDoc)) =
      some .structuralFail ∧
    (buildDeterministicFallbackSpec mergesortPairInput).isNone = true ∧
    SpecError.stepBudgetExceeded ≠ SpecError.structuralFail :=
  ⟨by decide, by decide, by decide, by decide⟩

/-! ## Lomuto partition correctness -/

theorem getD_set_self (l : List ℚ) (i : ℕ) (v : ℚ) (h : i < l.length) :
    (l.set i v).getD i 0 = v := by
  simp [List.getD_eq_getElem?_getD, List.getElem?_set_self, h]

theorem getD_set_ne (l : List ℚ) (i k : ℕ) (v : ℚ) (h : i ≠ k) :
    (l.set i v).getD k 0 = l.getD k 0 := by
  simp [List.getD_eq_getElem?_getD, List.getElem?_set_ne h]

theorem swapList_length (l : List ℚ) (i j : ℕ) :
    (swapList l i j).length = l.length := by
  simp [swapList]

theorem swapList_getD_fst (l : List ℚ) (i j : ℕ) (hi : i < l.length)
    (hj : j < l.length) : (swapList l i j).getD i 0 = l.getD j 0 := by
  unfold swapList
  rcases eq_or_ne j i with h | h
  · subst h
    rw [getD_set_self _ _ _ (by simpa using hj)]
  · rw [getD_set_ne _ _ _ _ h, getD_set_self _ _ _ hi]

theorem swapList_getD_snd (l : List ℚ) (i j : ℕ) (hi : i < l.length)
    (hj : j < l.length) : (swapList l i j).getD j 0 = l.getD i 0 := by
  unfold swapList
  rw [getD_set_self _ _ _ (by simpa using hj)]

theorem swapList_getD_other (l : List ℚ) (i j k : ℕ) (h1 : k ≠ i) (h2 : k ≠ j) :
    (swapList l i j).getD k 0 = l.getD k 0 := by
  unfold swapList
  rw [getD_set_ne _ _ _ _ (Ne.symm h2), getD_set_ne _ _ _ _ (Ne.symm h1)]

theorem multiset_set (l : List ℚ) (i : ℕ) (v : ℚ) (h : i < l.length) :
    (↑(l.set i v) : Multiset ℚ) + {l.getD i 0} = (↑l : Multiset ℚ) + {v} := by
  induction l generalizing i with
  | nil => simp at h
  | cons a tail ih =>
    cases i with
    | zero =>
      simp only [List.set, List.getD_cons_zero]
      have e1 : (↑(v :: tail) : Multiset ℚ) = {v} + ↑tail :=
        ((Multiset.singleton_add v ↑tail).trans (Multiset.cons_coe v tail)).symm
      have e2 : (↑(a :: tail) : Multiset ℚ) = {a} + ↑tail :=
        ((Multiset.singleton_add a ↑tail).trans (Multiset.cons_coe a tail)).symm
      rw [e1, e2]
      abel
    | succ n =>
      simp only [List.set]
      have hn : n < tail.length := by simpa using h
      have ihn := ih n hn
      have e1 : (↑(a :: tail.set n v) : Multiset ℚ) = a ::ₘ ↑(tail.set n v) := by simp
      have e2 : (↑(a :: tail) : Multiset ℚ) = a ::ₘ ↑tail := by simp
      rw [List.getD_cons_succ, e1, e2, Multiset.cons_add, Multiset.cons_add, ihn]

theorem multiset_swapList (l : List ℚ) (i j : ℕ) (hi : i < l.length)
    (hj : j < l.length) : (↑(swapList l i j) : Multiset ℚ) = (↑l : Multiset ℚ) := by
  unfold swapList
  have hj' : j < (l.set i (l.getD j 0)).length := by simpa using hj
  have h1 := multiset_set (l.set i (l.getD j 0)) j (l.getD i 0) hj'
  have h2 := multiset_set l i (l.getD j 0) hi
  have hgd : (l.set i (l.getD j 0)).getD j 0 = l.getD j 0 := by
    rcases eq_or_ne i j with h | h
    · subst h; exact getD_set_self _ _ _ hi
    · exact getD_set_ne _ _ _ _ h
  rw [hgd] at h1
  have key : (↑((l.set i (l.getD j 0)).set j (l.getD i 0)) : Multiset ℚ) + {l.getD j 0} =
      (↑l : Multiset ℚ) + {l.getD j 0} := by rw [h1, h2]
  exact add_right_cancel key

theorem lomutoScan_spec (pivot : ℚ) (lo : ℕ) :
    ∀ (fuel : ℕ) (values : List ℚ) (store scan hi : ℕ),
      fuel + scan = hi → lo ≤ store → store ≤ scan → hi < values.length →
      (∀ k, lo ≤ k → k < store → values.getD k 0 ≤ pivot) →
      (∀ k, store ≤ k → k < scan → pivot < values.getD k 0) →
      (lomutoScan pivot fuel values store scan hi).1.length = values.length ∧
      store ≤ (lomutoScan pivot fuel values store scan hi).2 ∧
      (lomutoScan pivot fuel values store scan hi).2 ≤ store + fuel ∧
      (↑(lomutoScan pivot fuel values store scan hi).1 : Multiset ℚ) = ↑values ∧
      (∀ k, k < lo ∨ hi ≤ k →
        (lomutoScan pivot fuel values store scan hi).1.getD k 0 = values.getD k 0) ∧
      (∀ k, lo ≤ k → k < (lomutoScan pivot fuel values store scan hi).2 →
        (lomutoScan pivot fuel values store scan hi).1.getD k 0 ≤ pivot) ∧
      (∀ k, (lomutoScan pivot fuel values store scan hi).2 ≤ k → k < hi →
        pivot < (lomutoScan pivot fuel values store scan hi).1.getD k 0) := by
  intro fuel
  induction fuel with
  | zero =>
    intro values store scan hi hfs hlos hss hlen hle hgt
    have hsh : scan = hi := by omega
    subst hsh
    exact ⟨rfl, le_refl _, Nat.le_add_right store 0, rfl, fun k _ => rfl,
      fun k hk1 hk2 => hle k hk1 hk2, fun k hk1 hk2 => hgt k hk1 hk2⟩
  | succ fuel ih =>
    intro values store scan hi hfs hlos hss hlen hle hgt
    have hsh : scan < hi := by omega
    simp only [lomutoScan, if_pos hsh]
    by_cases hcmp : values.getD scan 0 ≤ pivot
    · simp only [if_pos hcmp]
      have hslen : scan < values.length := by omega
      have hstlen : store < values.length := by omega
      have hswlen : (swapList values store scan).length = values.length :=
        swapList_length values store scan
      have hle' : ∀ k, lo ≤ k → k < store + 1 →
          (swapList values store scan).getD k 0 ≤ pivot := by
        intro k hk1 hk2
        rcases Nat.lt_or_ge k store with hk | hk
        · rw [swapList_getD_other values store scan k (by omega) (by omega)]
          exact hle k hk1 hk
        · have hks : k = store := by omega
          rw [hks, swapList_getD_fst values store scan hstlen hslen]
          exact hcmp
      have hgt' : ∀ k, store + 1 ≤ k → k < scan + 1 →
          pivot < (swapList values store scan).getD k 0 := by
        intro k hk1 hk2
        rcases Nat.lt_or_ge k scan with hk | hk
        · rw [swapList_getD_other values store scan k (by omega) (by omega)]
          exact hgt k (by omega) hk
        · have hks : k = scan := by omega
          rcases Nat.lt_or_ge store scan with hst | hst
          · rw [hks, swapList_getD_snd values store scan hstlen hslen]
            exact hgt store (le_refl _) hst
          · omega
      obtain ⟨c1, c2, c3, c4, c5, c6, c7⟩ := ih (swapList values store scan)
        (store + 1) (scan + 1) hi (by omega) (by omega) (by omega)
        (by omega) hle' hgt'
      refine ⟨by rw [c1, hswlen], by omega, by omega, ?_, ?_, c6, c7⟩
      · rw [c4, multiset_swapList values store scan hstlen hslen]
      · intro k hk
        rw [c5 k hk, swapList_getD_other values store scan k (by omega) (by omega)]
    · simp only [if_neg hcmp]
      have hgt' : ∀ k, store ≤ k → k < scan + 1 → pivot < values.getD k 0 := by
        intro k hk1 hk2
        rcases Nat.lt_or_ge k scan with hk | hk
        · exact hgt k hk1 hk
        · have hks : k = scan := by omega
          rw [hks]
          exact lt_of_not_le hcmp
      obtain ⟨c1, c2, c3, c4, c5, c6, c7⟩ := ih values store (scan + 1) hi
        (by omega) hlos (by omega) hlen hle hgt'
      exact ⟨c1, c2, by omega, c4, c5, c6, c7⟩

theorem partitionLomuto_spec (values : List ℚ) (lo hi : ℕ)
    (hlohi : lo ≤ hi) (hhi : hi < values.length) :
    (↑(partitionLomuto values lo hi).1 : Multiset ℚ) = ↑values ∧
    (partitionLomuto values lo hi).1.length = values.length ∧
    (∀ k, k < lo ∨ hi < k →
      (partitionLomuto values lo hi).1.getD k 0 = values.getD k 0) ∧
    (partitionLomuto values lo hi).2.2 = values.getD hi 0 ∧
    lo ≤ (partitionLomuto values lo hi).2.1 ∧
    (partitionLomuto values lo hi).2.1 ≤ hi ∧
    (partitionLomuto values lo hi).1.getD (partitionLomuto values lo hi).2.1 0 =
      (partitionLomuto values lo hi).2.2 ∧
    (∀ k, lo ≤ k → k < (partitionLomuto values lo hi).2.1 →
      (partitionLomuto values lo hi).1.getD k 0 ≤ (partitionLomuto values lo hi).2.2) ∧
    (∀ k, (partitionLomuto values lo hi).2.1 < k → k ≤ hi →
      (partitionLomuto values lo hi).2.2 < (partitionLomuto values lo hi).1.getD k 0) := by
  have hspec := lomutoScan_spec (values.getD hi 0) lo (hi - lo) values lo lo hi
    (by omega) (le_refl _) (le_refl _) hhi
    (fun k hk1 hk2 => absurd (lt_of_le_of_lt hk1 hk2) (lt_irrefl _))
    (fun k hk1 hk2 => absurd (lt_of_le_of_lt hk1 hk2) (lt_irrefl _))
  set scanned := lomutoScan (values.getD hi 0) (hi - lo) values lo lo hi with hscanned
  obtain ⟨c1, c2, c3, c4, c5, c6, c7⟩ := hspec
  have hs_le_hi : scanned.2 ≤ hi := by omega
  have hs_lt_len : scanned.2 < scanned.1.length := by omega
  have hhi_lt_len : hi < scanned.1.length := by omega
  have hpivot_at_hi : scanned.1.getD hi 0 = values.getD hi 0 := c5 hi (Or.inr (le_refl _))
  show (↑(swapList scanned.1 scanned.2 hi) : Multiset ℚ) = ↑values ∧
    (swapList scanned.1 scanned.2 hi).length = values.length ∧
    (∀ k, k < lo ∨ hi < k →
      (swapList scanned.1 scanned.2 hi).getD k 0 = values.getD k 0) ∧
    values.getD hi 0 = values.getD hi 0 ∧
    lo ≤ scanned.2 ∧ scanned.2 ≤ hi ∧
    (swapList scanned.1 scanned.2 hi).getD scanned.2 0 = values.getD hi 0 ∧
    (∀ k, lo ≤ k → k < scanned.2 →
      (swapList scanned.1 scanned.2 hi).getD k 0 ≤ values.getD hi 0) ∧
    (∀ k, scanned.2 < k → k ≤ hi →
      values.getD hi 0 < (swapList scanned.1 scanned.2 hi).getD k 0)
  refine ⟨?_, ?_, ?_, rfl, c2, hs_le_hi, ?_, ?_, ?_⟩
  · rw [multiset_swapList scanned.1 scanned.2 hi hs_lt_len hhi_lt_len, c4]
  · rw [swapList_length, c1]
  · intro k hk
    have hk_ne_s : k ≠ scanned.2 := by omega
    have hk_ne_hi : k ≠ hi := by omega
    rw [swapList_getD_other scanned.1 scanned.2 hi k hk_ne_s hk_ne_hi]
    exact c5 k (by omega)
  · rw [swapList_getD_fst scanned.1 scanned.2 hi hs_lt_len hhi_lt_len]
    exact hpivot_at_hi
  · intro k hk1 hk2
    have hk_ne_s : k ≠ scanned.2 := by omega
    have hk_ne_hi : k ≠ hi := by omega
    rw [swapList_getD_other scanned.1 scanned.2 hi k hk_ne_s hk_ne_hi]
    exact c6 k hk1 hk2
  · intro k hk1 hk2
    rcases Nat.lt_or_ge k hi with hk | hk
    · have hk_ne_s : k ≠ scanned.2 := by omega
      have hk_ne_hi : k ≠ hi := by omega
      rw [swapList_getD_other scanned.1 scanned.2 hi k hk_ne_s hk_ne_hi]
      exact c7 k (by omega) hk
    · have hk_eq : k = hi := by omega
      rw [hk_eq, swapList_getD_snd scanned.1 scanned.2 hi hs_lt_len hhi_lt_len]
      exact c7 scanned.2 (le_refl _) (by omega)

/-- C10: `partitionLomuto` permutes the values, leaves everything outside
`[lo, hi]` unmodified, returns the original `values[hi]` as `pivotValue`,
places it at `pivotIndex ∈ [lo, hi]`, and splits `[lo, hi]` into a prefix
of values `≤ pivotValue` and a suffix of values `> pivotValue`. -/
theorem C10_partitionLomuto_correct (values : List ℚ) (lo hi : ℕ)
    (hlohi : lo ≤ hi) (hhi : hi < values.length) :
    (↑(partitionLomuto values lo hi).1 : Multiset ℚ) = ↑values ∧
    (∀ k, k < lo ∨ hi < k →
      (partitionLomuto values lo hi).1.getD k 0 = values.getD k 0) ∧
    (partitionLomuto values lo hi).2.2 = values.getD hi 0 ∧
    lo ≤ (partitionLomuto values lo hi).2.1 ∧
    (partitionLomuto values lo hi).2.1 ≤ hi ∧
    (partitionLomuto values lo hi).1.getD (partitionLomuto values lo hi).2.1 0 =
      (partitionLomuto values lo hi).2.2 ∧
    (∀ k, lo ≤ k → k < (partitionLomuto values lo hi).2.1 →
      (partitionLomuto values lo hi).1.getD k 0 ≤
        (partitionLomuto values lo hi).2.2) ∧
    (∀ k, (partitionLomuto values lo hi).2.1 < k → k ≤ hi →
      (partitionLomuto values lo hi).2.2 <
        (partitionLomuto values lo hi).1.getD k 0) := by
  obtain ⟨c1, c2, c3, c4, c5, c6, c7, c8, c9⟩ := partitionLomuto_spec values lo hi hlohi hhi
  exact ⟨c1, c3, c4, c5, c6, c7, c8, c9⟩

/-- Witness for C10 at `values = [3, 1, 2]`, `lo = 0`, `hi = 2`. -/
theorem C10_partitionLomuto_correct_witness :
    (0 : ℕ) ≤ 2 ∧ 2 < [3, 1, 2].length ∧
    ((↑(partitionLomuto [3, 1, 2] 0 2).1 : Multiset ℚ) = ↑([3, 1, 2] : List ℚ) ∧
    (∀ k, k < 0 ∨ 2 < k →
      (partitionLomuto [3, 1, 2] 0 2).1.getD k 0 = [3, 1, 2].getD k 0) ∧
    (partitionLomuto [3, 1, 2] 0 2).2.2 = [3, 1, 2].getD 2 0 ∧
    0 ≤ (partitionLomuto [3, 1, 2] 0 2).2.1 ∧
    (partitionLomuto [3, 1, 2] 0 2).2.1 ≤ 2 ∧
    (partitionLomuto [3, 1, 2] 0 2).1.getD (partitionLomuto [3, 1, 2] 0 2).2.1 0 =
      (partitionLomuto [3, 1, 2] 0 2).2.2 ∧
    (∀ k, 0 ≤ k → k < (partitionLomuto [3, 1, 2] 0 2).2.1 →
      (partitionLomuto [3, 1, 2] 0 2).1.getD k 0 ≤
        (partitionLomuto [3, 1, 2] 0 2).2.2) ∧
    (∀ k, (partitionLomuto [3, 1, 2] 0 2).2.1 < k → k ≤ 2 →
      (partitionLomuto [3, 1, 2] 0 2).2.2 <
        (partitionLomuto [3, 1, 2] 0 2).1.getD k 0)) :=
  ⟨by decide, by decide,
    C10_partitionLomuto_correct [3, 1, 2] 0 2 (by decide) (by decide)⟩

/-! ## Acceptance facts -/

/-- Acceptance of a document is exactly: the structural parse succeeds and
no semantic issue is recorded. -/
theorem accepted_iff (j : JsonValue) (spec : ArraysVizSpec) :
    parseAndValidateArraysSpec (some j) = .ok spec ↔
      parseSpec j = some spec ∧ specIssues spec = [] := by
  constructor
  · intro h
    have h' : (match parseSpec j with
        | none => Except.error SpecError.structuralFail
        | some spec =>
          match specIssues spec with
          | [] => Except.ok spec
          | issues => Except.error (SpecError.semanticFail issues)) = Except.ok spec := h
    split at h'
    · cases h'
    · rename_i s hp
      split at h'
      · rename_i hiss
        cases h'
        exact ⟨hp, hiss⟩
      · cases h'
  · rintro ⟨h1, h2⟩
    show (match parseSpec j with
        | none => Except.error SpecError.structuralFail
        | some spec =>
          match specIssues spec with
          | [] => Except.ok spec
          | issues => Except.error (SpecError.semanticFail issues)) = Except.ok spec
    rw [h1]
    show (match specIssues spec with
        | [] => Except.ok spec
        | issues => Except.error (SpecError.semanticFail issues)) = Except.ok spec
    rw [h2]

/-- From `(if c then [x] else []) = []`, conclude `¬c`. -/
theorem if_singleton_eq_nil {α : Type} {c : Prop} [Decidable c] {x : α}
    (h : (if c then [x] else []) = []) : ¬c := by
  by_contra hc
  rw [if_pos hc] at h
  cases h

/-- The bounds facts encoded by an empty `stepIssues` list. -/
theorem stepIssues_nil (st : StepSpec) (h : stepIssues st = []) :
    (∀ ps, st.state.pointers = some ps →
      ∀ p ∈ ps, 0 ≤ p.2 ∧ p.2 < (st.state.array.length : ℤ)) ∧
    (∀ r, st.state.range = some r →
      0 ≤ r.l ∧ r.l ≤ r.r ∧ r.r < (st.state.array.length : ℤ)) ∧
    (∀ p, st.state.partition = some p →
      0 ≤ p.pivotIndex ∧ p.pivotIndex < (st.state.array.length : ℤ)) ∧
    (∀ m, st.state.merge = some m →
      m.merged.length ≤ m.left.length + m.right.length ∧
      ∀ w, m.writeRange = some w →
        0 ≤ w.l ∧ w.l ≤ w.r ∧ w.r < (st.state.array.length : ℤ)) ∧
    (∀ evs, st.events = some evs → ∀ ev ∈ evs,
      0 ≤ ev.i ∧ ev.i < (st.state.array.length : ℤ) ∧
      0 ≤ ev.j ∧ ev.j < (st.state.array.length : ℤ)) := by
  unfold stepIssues at h
  obtain ⟨h1234, h5⟩ := List.append_eq_nil.mp h
  obtain ⟨h123, h4⟩ := List.append_eq_nil.mp h1234
  obtain ⟨h12, h3⟩ := List.append_eq_nil.mp h123
  obtain ⟨h1, h2⟩ := List.append_eq_nil.mp h12
  refine ⟨?_, ?_, ?_, ?_, ?_⟩
  · intro ps hps p hp
    rw [hps] at h1
    have hnil : (if p.2 < 0 ∨ p.2 ≥ (st.state.array.length : ℤ) then
        [Issue.pointerOutOfBounds p.1 p.2] else []) = [] :=
      (List.flatMap_eq_nil_iff.mp h1) p hp
    have := if_singleton_eq_nil hnil
    omega
  · intro r hr
    rw [hr] at h2
    have hnil : (if r.l < 0 ∨ r.r < 0 ∨ r.l ≥ (st.state.array.length : ℤ) ∨
        r.r ≥ (st.state.array.length : ℤ) ∨ r.l > r.r then
        [Issue.rangeInvalid r.l r.r] else []) = [] := h2
    have := if_singleton_eq_nil hnil
    omega
  · intro p hp
    rw [hp] at h3
    have hnil : (if p.pivotIndex < 0 ∨ p.pivotIndex ≥ (st.state.array.length : ℤ) then
        [Issue.pivotIndexOutOfBounds p.pivotIndex] else []) = [] := h3
    have := if_singleton_eq_nil hnil
    omega
  · intro m hm
    rw [hm] at h4
    have h4' : ((if m.merged.length > m.left.length + m.right.length then
          [Issue.mergedTooLong] else [])
        ++ match m.writeRange with
           | none => []
           | some w =>
             if w.l < 0 ∨ w.r < 0 ∨ w.l ≥ (st.state.array.length : ℤ) ∨
                 w.r ≥ (st.state.array.length : ℤ) ∨ w.l > w.r then
               [Issue.writeRangeInvalid w.l w.r]
             else []) = [] := h4
    obtain ⟨h4a, h4b⟩ := List.append_eq_nil.mp h4'
    refine ⟨by have := if_singleton_eq_nil h4a; omega, ?_⟩
    intro w hw
    rw [hw] at h4b
    have hnil : (if w.l < 0 ∨ w.r < 0 ∨ w.l ≥ (st.state.array.length : ℤ) ∨
        w.r ≥ (st.state.array.length : ℤ) ∨ w.l > w.r then
        [Issue.writeRangeInvalid w.l w.r] else []) = [] := h4b
    have := if_singleton_eq_nil hnil
    omega
  · intro evs hevs ev hev
    rw [hevs] at h5
    obtain ⟨idx, hidx⟩ := List.mem_iff_get.mp hev
    have hmem : (idx.1, ev) ∈ evs.enum := by
      rw [← hidx]
      exact List.mem_enum_iff_getElem?.mpr (by simp)
    have hnil : (if ev.i < 0 ∨ ev.j < 0 ∨ ev.i ≥ (st.state.array.length : ℤ) ∨
        ev.j ≥ (st.state.array.length : ℤ) then
        [Issue.eventIndicesInvalid idx.1 ev.i ev.j] else []) = [] :=
      (List.flatMap_eq_nil_iff.mp h5) (idx.1, ev) hmem
    have := if_singleton_eq_nil hnil
    omega

/-- Splitting an empty `specIssues` list into its per-step and root
parts. -/
theorem specIssues_nil (spec : ArraysVizSpec) (h : specIssues spec = []) :
    (∀ st ∈ spec.steps, stepIssues st = []) ∧ rootIssues spec = [] := by
  unfold specIssues at h
  obtain ⟨h1, h2⟩ := List.append_eq_nil.mp h
  exact ⟨List.flatMap_eq_nil_iff.mp h1, h2⟩

/-- The facts encoded by an empty `rootIssues` list. -/
theorem rootIssues_nil (spec : ArraysVizSpec) (h : rootIssues spec = []) :
    (∀ p ∈ spec.steps.enum,
      1 ≤ p.2.activeCodeLine ∧ p.2.activeCodeLine ≤ (spec.codeLines.length : ℤ)) ∧
    (isRecursiveAlgorithm spec.algorithm = true →
      hasStackView spec.components = true ∧
      (∀ p ∈ spec.steps.enum, recursiveStepIssues spec.algorithm p.1 p.2 = []) ∧
      firstStepIssues spec.steps = [] ∧
      adjacentIssues spec.steps = [] ∧
      lastStepIssues spec.steps = [] ∧
      lifecycleIssues spec.algorithm spec.steps = []) := by
  unfold rootIssues at h
  obtain ⟨hLines, hRest⟩ := List.append_eq_nil.mp h
  constructor
  · intro p hp
    have hnil : (if p.2.activeCodeLine < 1 ∨
        p.2.activeCodeLine > (spec.codeLines.length : ℤ) then
        [Issue.activeCodeLineOutOfRange p.1 p.2.activeCodeLine] else []) = [] :=
      (List.flatMap_eq_nil_iff.mp hLines) p hp
    have := if_singleton_eq_nil hnil
    omega
  · intro hrec
    rw [if_neg (by simp [hrec])] at hRest
    obtain ⟨hABCDE, hLife⟩ := List.append_eq_nil.mp hRest
    obtain ⟨hABCD, hLast⟩ := List.append_eq_nil.mp hABCDE
    obtain ⟨hABC, hAdj⟩ := List.append_eq_nil.mp hABCD
    obtain ⟨hAB, hFirst⟩ := List.append_eq_nil.mp hABC
    obtain ⟨hA, hSteps⟩ := List.append_eq_nil.mp hAB
    refine ⟨?_, List.flatMap_eq_nil_iff.mp hSteps, hFirst, hAdj, hLast, hLife⟩
    by_contra hsv
    rw [if_pos (by simpa using hsv)] at hA
    cases hA

/-- The facts encoded by an empty `recursiveStepIssues` list for one
step. -/
theorem recursiveStepIssues_nil (alg : ArraysAlgorithm) (idx : ℕ)
    (st : StepSpec) (h : recursiveStepIssues alg idx st = []) :
    isGenericRecursionCaption st.caption = false ∧
    (∃ s, st.state.stack = some s ∧ 0 < s.length) ∧
    (∃ r, st.state.recursion = some r ∧
      r.depth = (match st.state.stack with
        | none => (0 : ℤ)
        | some s => (s.length : ℤ)) - 1 ∧
      (alg = .quicksort → r.phase = .divide → st.state.partition ≠ none) ∧
      (alg = .mergesort → r.phase = .combine → st.state.merge ≠ none)) := by
  unfold recursiveStepIssues at h
  obtain ⟨h12, h3⟩ := List.append_eq_nil.mp h
  obtain ⟨h1, h2⟩ := List.append_eq_nil.mp h12
  refine ⟨?_, ?_, ?_⟩
  · by_contra hg
    rw [if_pos (by simpa using hg)] at h1
    cases h1
  · cases hstack : st.state.stack with
    | none => rw [hstack] at h2; cases h2
    | some s =>
      rw [hstack] at h2
      have h2' : (if s.length = 0 then [Issue.missingStack idx] else []) = [] := h2
      have := if_singleton_eq_nil h2'
      exact ⟨s, rfl, by omega⟩
  · cases hr : st.state.recursion with
    | none => rw [hr] at h3; cases h3
    | some r =>
      rw [hr] at h3
      have h3' : (((if r.depth ≠ (((match st.state.stack with
              | none => (0 : ℤ)
              | some s => (s.length : ℤ)) : ℤ) - 1) then
            [Issue.depthStackMismatch idx] else [])
          ++ (if alg = .quicksort ∧ r.phase = .divide ∧ st.state.partition = none then
                [Issue.divideRequiresPartition idx] else []))
          ++ (if alg = .mergesort ∧ r.phase = .combine ∧ st.state.merge = none then
                [Issue.combineRequiresMerge idx] else [])) = [] := h3
      obtain ⟨hab, hc⟩ := List.append_eq_nil.mp h3'
      obtain ⟨ha, hb⟩ := List.append_eq_nil.mp hab
      refine ⟨r, rfl, ?_, ?_, ?_⟩
      · have := if_singleton_eq_nil ha
        by_contra hne
        exact this hne
      · intro halg hphase
        have := if_singleton_eq_nil hb
        intro hpart
        exact this ⟨halg, hphase, hpart⟩
      · intro halg hphase
        have := if_singleton_eq_nil hc
        intro hmerge
        exact this ⟨halg, hphase, hmerge⟩

/-! ## Null-freedom of accepted documents

`JSON.parse` never produces an object with duplicate keys (later
occurrences in the text overwrite earlier ones), so candidate documents
always satisfy `wfJson`; the schema's strictness then guarantees that all
values of an accepted document were visited by some null-rejecting
sub-parser. -/

open JsonValue in
/-- With distinct keys, membership determines the lookup result. -/
theorem findField_eq_of_mem (fields : List (String × JsonValue)) (k : String)
    (v : JsonValue) (hdup : noDupKeys (fields.map Prod.fst) = true)
    (hmem : (k, v) ∈ fields) : findField fields k = some v := by
  induction fields with
  | nil => cases hmem
  | cons f rest ih =>
    obtain ⟨k', v'⟩ := f
    simp only [noDupKeys, List.map_cons, Bool.and_eq_true] at hdup
    rcases List.mem_cons.mp hmem with heq | hmem'
    · cases heq
      simp [findField]
    · have hk : k' ≠ k := by
        intro hkk
        subst hkk
        have hin : k' ∈ rest.map Prod.fst := List.mem_map_of_mem _ hmem'
        have hcontains : (rest.map Prod.fst).contains k' = true := by
          rw [List.contains_eq_any_beq, List.any_eq_true]
          exact ⟨k', hin, by simp⟩
        rw [hcontains] at hdup
        simp at hdup
      simp only [findField, if_neg hk]
      exact ih hdup.2 hmem'

open JsonValue in
/-- Values of a well-formed object are themselves well-formed. -/
theorem wfFields_mem (fields : List (String × JsonValue))
    (h : wfFields fields = true) : ∀ f ∈ fields, wfJson f.2 = true := by
  induction fields with
  | nil => intro f hf; cases hf
  | cons g rest ih =>
    obtain ⟨k, v⟩ := g
    simp only [wfFields, Bool.and_eq_true] at h
    intro f hf
    rcases List.mem_cons.mp hf with heq | hmem
    · cases heq; exact h.1
    · exact ih h.2 f hmem

open JsonValue in
/-- Elements of a well-formed array are themselves well-formed. -/
theorem wfList_mem (elems : List JsonValue)
    (h : wfList elems = true) : ∀ e ∈ elems, wfJson e = true := by
  induction elems with
  | nil => intro e he; cases he
  | cons g rest ih =>
    simp only [wfList, Bool.and_eq_true] at h
    intro e he
    rcases List.mem_cons.mp he with heq | hmem
    · cases heq; exact h.1
    · exact ih h.2 e hmem

open JsonValue in
/-- `containsNullFields` is false when every member value is null-free. -/
theorem containsNullFields_eq_false (fields : List (String × JsonValue))
    (h : ∀ f ∈ fields, containsNull f.2 = false) :
    containsNullFields fields = false := by
  induction fields with
  | nil => rfl
  | cons g rest ih =>
    obtain ⟨k, v⟩ := g
    simp only [containsNullFields, Bool.or_eq_false_iff]
    exact ⟨h (k, v) (List.mem_cons_self _ _), ih fun f hf => h f (List.mem_cons_of_mem _ hf)⟩

open JsonValue in
/-- `containsNullList` is false when every element is null-free. -/
theorem containsNullList_eq_false (elems : List JsonValue)
    (h : ∀ e ∈ elems, containsNull e = false) :
    containsNullList elems = false := by
  induction elems with
  | nil => rfl
  | cons g rest ih =>
    simp only [containsNullList, Bool.or_eq_false_iff]
    exact ⟨h g (List.mem_cons_self _ _), ih fun e he => h e (List.mem_cons_of_mem _ he)⟩

open JsonValue in
/-- A strict object whose every present key's looked-up value is null-free
is null-free. -/
theorem obj_containsNull_eq_false (fields : List (String × JsonValue))
    (allowed : List String)
    (hsub : keysSubset fields allowed = true)
    (hdup : noDupKeys (fields.map Prod.fst) = true)
    (hcover : ∀ k ∈ allowed, ∀ v, findField fields k = some v →
      containsNull v = false) :
    containsNull (.obj fields) = false := by
  show containsNullFields fields = false
  apply containsNullFields_eq_false
  intro f hf
  have hk : f.1 ∈ allowed := by
    unfold keysSubset at hsub
    rw [List.all_eq_true] at hsub
    have := hsub f hf
    simpa [List.contains_eq_any_beq] using this
  exact hcover f.1 hk f.2 (findField_eq_of_mem fields f.1 f.2 hdup
    (by obtain ⟨a, b⟩ := f; exact hf))

/-- Inversion of `List.mapM` over `Option`: every input parses. -/
theorem mapM_some_forall {α β : Type} {g : α → Option β} :
    ∀ {l : List α} {res : List β}, l.mapM g = some res →
      ∀ a ∈ l, ∃ b, g a = some b := by
  intro l
  induction l with
  | nil => intro res h a ha; cases ha
  | cons x xs ih =>
    intro res h a ha
    rw [List.mapM_cons] at h
    obtain ⟨b, hb, hrest⟩ := Option.bind_eq_some.mp h
    obtain ⟨bs, hbs, _⟩ := Option.bind_eq_some.mp hrest
    rcases List.mem_cons.mp ha with rfl | hmem
    · exact ⟨b, hb⟩
    · exact ih hbs a hmem

/-- Inversion of `List.mapM` over `Option`: every output comes from some
input. -/
theorem mapM_some_forall_res {α β : Type} {g : α → Option β} :
    ∀ {l : List α} {res : List β}, l.mapM g = some res →
      ∀ b ∈ res, ∃ a ∈ l, g a = some b := by
  intro l
  induction l with
  | nil =>
    intro res h b hb
    simp only [List.mapM_nil, pure, Option.some.injEq] at h
    subst h
    cases hb
  | cons x xs ih =>
    intro res h b hb
    rw [List.mapM_cons] at h
    obtain ⟨c, hc, hrest⟩ := Option.bind_eq_some.mp h
    obtain ⟨bs, hbs, hpure⟩ := Option.bind_eq_some.mp hrest
    have hres : res = c :: bs := by
      simpa [pure] using hpure.symm
    subst hres
    rcases List.mem_cons.mp hb with rfl | hmem
    · exact ⟨x, List.mem_cons_self _ _, hc⟩
    · obtain ⟨a, ha, hga⟩ := ih hbs b hmem
      exact ⟨a, List.mem_cons_of_mem _ ha, hga⟩

/-- `List.mapM` over `Option` preserves length. -/
theorem mapM_some_length {α β : Type} {g : α → Option β} :
    ∀ {l : List α} {res : List β}, l.mapM g = some res →
      res.length = l.length := by
  intro l
  induction l with
  | nil =>
    intro res h
    simp only [List.mapM_nil, pure, Option.some.injEq] at h
    subst h
    rfl
  | cons x xs ih =>
    intro res h
    rw [List.mapM_cons] at h
    obtain ⟨c, _, hrest⟩ := Option.bind_eq_some.mp h
    obtain ⟨bs, hbs, hpure⟩ := Option.bind_eq_some.mp hrest
    have hres : res = c :: bs := by simpa [pure] using hpure.symm
    subst hres
    simp [ih hbs]

/-- Construction direction of `List.mapM`: serializing then parsing each
element succeeds elementwise. -/
theorem mapM_map_some {α β : Type} (g : β → Option α) (f : α → β) :
    ∀ (l : List α), (∀ a ∈ l, g (f a) = some a) → (l.map f).mapM g = some l := by
  intro l
  induction l with
  | nil => intro _; rfl
  | cons x xs ih =>
    intro h
    rw [List.map_cons, List.mapM_cons, h x (List.mem_cons_self _ _),
      ih fun a ha => h a (List.mem_cons_of_mem _ ha)]
    rfl

open JsonValue

/-- `parseStr` only accepts strings. -/
theorem parseStr_noNull (j : JsonValue) (s : String) (h : parseStr j = some s) :
    containsNull j = false := by
  cases j <;> simp_all [parseStr, containsNull]

/-- `parseStrMin1` only accepts strings. -/
theorem parseStrMin1_noNull (j : JsonValue) (s : String)
    (h : parseStrMin1 j = some s) : containsNull j = false := by
  cases j <;> simp_all [parseStrMin1, parseStr, containsNull]

/-- `parseFiniteNum` only accepts finite numbers. -/
theorem parseFiniteNum_noNull (j : JsonValue) (q : ℚ)
    (h : parseFiniteNum j = some q) : containsNull j = false := by
  cases j <;> simp_all [parseFiniteNum, containsNull]

/-- `parseIntNum` only accepts integral numbers. -/
theorem parseIntNum_noNull (j : JsonValue) (n : ℤ)
    (h : parseIntNum j = some n) : containsNull j = false := by
  cases j <;> simp_all [parseIntNum, parseFiniteNum, containsNull]

/-- `parseAlgorithm` only accepts strings. -/
theorem parseAlgorithm_noNull (j : JsonValue) (a : ArraysAlgorithm)
    (h : parseAlgorithm j = some a) : containsNull j = false := by
  cases j <;> simp_all [parseAlgorithm, parseStr, containsNull]

/-- `parsePhase` only accepts strings. -/
theorem parsePhase_noNull (j : JsonValue) (p : RecursionPhase)
    (h : parsePhase j = some p) : containsNull j = false := by
  cases j <;> simp_all [parsePhase, parseStr, containsNull]

/-- `parseComponentType` only accepts strings. -/
theorem parseComponentType_noNull (j : JsonValue) (t : RegistryComponentType)
    (h : parseComponentType j = some t) : containsNull j = false := by
  cases j <;> simp_all [parseComponentType, parseStr, containsNull]

/-- `parseOutcome` only accepts strings. -/
theorem parseOutcome_noNull (j : JsonValue) (o : CompareOutcome)
    (h : parseOutcome j = some o) : containsNull j = false := by
  cases j <;> simp_all [parseOutcome, parseStr, containsNull]

/-- Inversion of a required field. -/
theorem reqF_some {α : Type} {fields : List (String × JsonValue)} {k : String}
    {p : JsonValue → Option α} {a : α} (h : reqF fields k p = some a) :
    ∃ v, findField fields k = some v ∧ p v = some a :=
  Option.bind_eq_some.mp h

/-- Inversion of an optional field. -/
theorem optF_some {α : Type} {fields : List (String × JsonValue)} {k : String}
    {p : JsonValue → Option α} {oa : Option α} (h : optF fields k p = some oa) :
    (findField fields k = none ∧ oa = none) ∨
    (∃ v a, findField fields k = some v ∧ p v = some a ∧ oa = some a) := by
  unfold optF at h
  cases hf : findField fields k with
  | none =>
    rw [hf] at h
    exact Or.inl ⟨rfl, by simpa using h.symm⟩
  | some v =>
    rw [hf] at h
    obtain ⟨a, ha, hoa⟩ := Option.map_eq_some'.mp h
    exact Or.inr ⟨v, a, rfl, ha, hoa.symm⟩

/-- Inversion of a guarded sub-parser. -/
theorem if_opt_some {α : Type} {c : Prop} [Decidable c] {x : Option α} {a : α}
    (h : (if c then x else none) = some a) : c ∧ x = some a := by
  by_cases hc : c
  · rw [if_pos hc] at h; exact ⟨hc, h⟩
  · rw [if_neg hc] at h; cases h

/-- `parseIntRecord` only accepts objects of integral numbers. -/
theorem parseIntRecord_noNull (j : JsonValue) (l : List (String × ℤ))
    (h : parseIntRecord j = some l) : containsNull j = false := by
  cases j <;> simp only [parseIntRecord, asObj] at h <;> try cases h
  case obj fields =>
    obtain ⟨fs, hfs, hmapM⟩ := Option.bind_eq_some.mp h
    cases hfs
    show containsNullFields fields = false
    apply containsNullFields_eq_false
    intro f hf
    obtain ⟨b, hb⟩ := mapM_some_forall hmapM f hf
    obtain ⟨n, hn, _⟩ := Option.map_eq_some'.mp hb
    exact parseIntNum_noNull f.2 n hn

/-- `parseNumberArray` only accepts arrays of finite numbers. -/
theorem parseNumberArray_noNull (j : JsonValue) (l : List ℚ)
    (h : parseNumberArray j = some l) : containsNull j = false := by
  cases j <;> simp only [parseNumberArray] at h <;> try cases h
  case arr elems =>
    obtain ⟨ns, hns, _⟩ := Option.bind_eq_some.mp h
    show containsNullList elems = false
    apply containsNullList_eq_false
    intro e he
    obtain ⟨q, hq⟩ := mapM_some_forall hns e he
    exact parseFiniteNum_noNull e q hq

/-- `parseFiniteNumList` only accepts arrays of finite numbers. -/
theorem parseFiniteNumList_noNull (j : JsonValue) (l : List ℚ)
    (h : parseFiniteNumList j = some l) : containsNull j = false := by
  cases j <;> simp only [parseFiniteNumList] at h <;> try cases h
  case arr elems =>
    show containsNullList elems = false
    apply containsNullList_eq_false
    intro e he
    obtain ⟨q, hq⟩ := mapM_some_forall h e he
    exact parseFiniteNum_noNull e q hq

/-- `parseFiniteNumListMax` only accepts arrays of finite numbers. -/
theorem parseFiniteNumListMax_noNull (j : JsonValue) (l : List ℚ)
    (h : parseFiniteNumListMax j = some l) : containsNull j = false := by
  unfold parseFiniteNumListMax at h
  obtain ⟨ns, hns, _⟩ := Option.bind_eq_some.mp h
  exact parseFiniteNumList_noNull j ns hns

/-- `parseStack` only accepts arrays of strings. -/
theorem parseStack_noNull (j : JsonValue) (l : List String)
    (h : parseStack j = some l) : containsNull j = false := by
  cases j <;> simp only [parseStack] at h <;> try cases h
  case arr elems =>
    obtain ⟨ss, hss, _⟩ := Option.bind_eq_some.mp h
    show containsNullList elems = false
    apply containsNullList_eq_false
    intro e he
    obtain ⟨s, hs⟩ := mapM_some_forall hss e he
    exact parseStr_noNull e s hs

/-- `parseRange` only accepts null-free objects (given distinct keys). -/
theorem parseRange_noNull (j : JsonValue) (r : RangeSpec)
    (hwf : wfJson j = true) (h : parseRange j = some r) :
    containsNull j = false := by
  cases j <;> simp only [parseRange, asObj] at h <;> try cases h
  case obj fields =>
    obtain ⟨fs, hfs, hbody⟩ := Option.bind_eq_some.mp h
    cases hfs
    obtain ⟨hsub, hbody⟩ := if_opt_some hbody
    obtain ⟨l, hl, hbody⟩ := Option.bind_eq_some.mp hbody
    obtain ⟨rr, hr, _⟩ := Option.bind_eq_some.mp hbody
    obtain ⟨vl, hvl, hvl2⟩ := reqF_some hl
    obtain ⟨vr, hvr, hvr2⟩ := reqF_some hr
    have hdup : noDupKeys (fields.map Prod.fst) = true := by
      simp only [wfJson, Bool.and_eq_true] at hwf
      exact hwf.1
    apply obj_containsNull_eq_false fields ["l", "r"] (by simpa using hsub) hdup
    intro k hk v hfind
    rcases (by simpa using hk : k = "l" ∨ k = "r") with rfl | rfl
    · rw [hfind] at hvl
      cases hvl
      exact parseIntNum_noNull _ _ hvl2
    · rw [hfind] at hvr
      cases hvr
      exact parseIntNum_noNull _ _ hvr2

/-- A successful lookup is a membership. -/
theorem findField_mem {fields : List (String × JsonValue)} {k : String}
    {v : JsonValue} (h : findField fields k = some v) : (k, v) ∈ fields := by
  induction fields with
  | nil => cases h
  | cons f rest ih =>
    obtain ⟨k', v'⟩ := f
    by_cases hk : k' = k
    · subst hk
      have h' : some v' = some v := by simpa [findField] using h
      cases h'
      exact List.mem_cons_self _ _
    · simp only [findField, if_neg hk] at h
      exact List.mem_cons_of_mem _ (ih h)

/-- `parseRecursion` only accepts null-free objects. -/
theorem parseRecursion_noNull (j : JsonValue) (r : RecursionState)
    (hwf : wfJson j = true) (h : parseRecursion j = some r) :
    containsNull j = false := by
  cases j <;> simp only [parseRecursion, asObj] at h <;> try cases h
  case obj fields =>
    obtain ⟨fs, hfs, hbody⟩ := Option.bind_eq_some.mp h
    cases hfs
    obtain ⟨hsub, hbody⟩ := if_opt_some hbody
    obtain ⟨callId, hcid, hbody⟩ := Option.bind_eq_some.mp hbody
    obtain ⟨parent, hpar, hbody⟩ := Option.bind_eq_some.mp hbody
    obtain ⟨fn, hfn, hbody⟩ := Option.bind_eq_some.mp hbody
    obtain ⟨depth, hdep, hbody⟩ := Option.bind_eq_some.mp hbody
    obtain ⟨hdpos, hbody⟩ := if_opt_some hbody
    obtain ⟨phase, hph, hbody⟩ := Option.bind_eq_some.mp hbody
    obtain ⟨args, hargs, _⟩ := Option.bind_eq_some.mp hbody
    have hdup : noDupKeys (fields.map Prod.fst) = true := by
      simp only [wfJson, Bool.and_eq_true] at hwf
      exact hwf.1
    apply obj_containsNull_eq_false fields
      ["callId", "parentCallId", "fn", "depth", "phase", "args"]
      (by simpa using hsub) hdup
    intro k hk v hfind
    have hk' : k = "callId" ∨ k = "parentCallId" ∨ k = "fn" ∨ k = "depth" ∨
        k = "phase" ∨ k = "args" := by simpa using hk
    rcases hk' with rfl | rfl | rfl | rfl | rfl | rfl
    · obtain ⟨v', hv', hp⟩ := reqF_some hcid
      rw [hfind] at hv'; cases hv'
      exact parseStrMin1_noNull _ _ hp
    · rcases optF_some hpar with ⟨hnone, _⟩ | ⟨v', a, hv', hp, _⟩
      · rw [hfind] at hnone; cases hnone
      · rw [hfind] at hv'; cases hv'
        exact parseStrMin1_noNull _ _ hp
    · obtain ⟨v', hv', hp⟩ := reqF_some hfn
      rw [hfind] at hv'; cases hv'
      exact parseStrMin1_noNull _ _ hp
    · obtain ⟨v', hv', hp⟩ := reqF_some hdep
      rw [hfind] at hv'; cases hv'
      exact parseIntNum_noNull _ _ hp
    · obtain ⟨v', hv', hp⟩ := reqF_some hph
      rw [hfind] at hv'; cases hv'
      exact parsePhase_noNull _ _ hp
    · obtain ⟨v', hv', hp⟩ := reqF_some hargs
      rw [hfind] at hv'; cases hv'
      exact parseStrMin1_noNull _ _ hp

/-- `parsePartitionState` only accepts null-free objects. -/
theorem parsePartitionState_noNull (j : JsonValue) (p : PartitionState)
    (hwf : wfJson j = true) (h : parsePartitionState j = some p) :
    containsNull j = false := by
  cases j <;> simp only [parsePartitionState, asObj] at h <;> try cases h
  case obj fields =>
    obtain ⟨fs, hfs, hbody⟩ := Option.bind_eq_some.mp h
    cases hfs
    obtain ⟨hsub, hbody⟩ := if_opt_some hbody
    obtain ⟨pivotIndex, hpiv, hbody⟩ := Option.bind_eq_some.mp hbody
    obtain ⟨less, hless, hbody⟩ := Option.bind_eq_some.mp hbody
    obtain ⟨greater, hgr, _⟩ := Option.bind_eq_some.mp hbody
    have hdup : noDupKeys (fields.map Prod.fst) = true := by
      simp only [wfJson, Bool.and_eq_true] at hwf
      exact hwf.1
    apply obj_containsNull_eq_false fields ["pivotIndex", "less", "greater"]
      (by simpa using hsub) hdup
    intro k hk v hfind
    have hk' : k = "pivotIndex" ∨ k = "less" ∨ k = "greater" := by simpa using hk
    rcases hk' with rfl | rfl | rfl
    · obtain ⟨v', hv', hp⟩ := reqF_some hpiv
      rw [hfind] at hv'; cases hv'
      exact parseIntNum_noNull _ _ hp
    · obtain ⟨v', hv', hp⟩ := reqF_some hless
      rw [hfind] at hv'; cases hv'
      exact parseFiniteNumList_noNull _ _ hp
    · obtain ⟨v', hv', hp⟩ := reqF_some hgr
      rw [hfind] at hv'; cases hv'
      exact parseFiniteNumList_noNull _ _ hp

/-- `parseMergeState` only accepts null-free objects. -/
theorem parseMergeState_noNull (j : JsonValue) (m : MergeState)
    (hwf : wfJson j = true) (h : parseMergeState j = some m) :
    containsNull j = false := by
  cases j <;> simp only [parseMergeState, asObj] at h <;> try cases h
  case obj fields =>
    obtain ⟨fs, hfs, hbody⟩ := Option.bind_eq_some.mp h
    cases hfs
    obtain ⟨hsub, hbody⟩ := if_opt_some hbody
    obtain ⟨left, hleft, hbody⟩ := Option.bind_eq_some.mp hbody
    obtain ⟨right, hright, hbody⟩ := Option.bind_eq_some.mp hbody
    obtain ⟨merged, hmerged, hbody⟩ := Option.bind_eq_some.mp hbody
    obtain ⟨writeRange, hwr, _⟩ := Option.bind_eq_some.mp hbody
    simp only [wfJson, Bool.and_eq_true] at hwf
    apply obj_containsNull_eq_false fields ["left", "right", "merged", "writeRange"]
      (by simpa using hsub) hwf.1
    intro k hk v hfind
    have hk' : k = "left" ∨ k = "right" ∨ k = "merged" ∨ k = "writeRange" := by
      simpa using hk
    rcases hk' with rfl | rfl | rfl | rfl
    · obtain ⟨v', hv', hp⟩ := reqF_some hleft
      rw [hfind] at hv'; cases hv'
      exact parseFiniteNumListMax_noNull _ _ hp
    · obtain ⟨v', hv', hp⟩ := reqF_some hright
      rw [hfind] at hv'; cases hv'
      exact parseFiniteNumListMax_noNull _ _ hp
    · obtain ⟨v', hv', hp⟩ := reqF_some hmerged
      rw [hfind] at hv'; cases hv'
      exact parseFiniteNumListMax_noNull _ _ hp
    · rcases optF_some hwr with ⟨hnone, _⟩ | ⟨v', a, hv', hp, _⟩
      · rw [hfind] at hnone; cases hnone
      · rw [hfind] at hv'; cases hv'
        exact parseRange_noNull _ _ (wfFields_mem fields hwf.2 _ (findField_mem hfind)) hp

/-- `parseStepState` only accepts null-free objects. -/
theorem parseStepState_noNull (j : JsonValue) (st : StepState)
    (hwf : wfJson j = true) (h : parseStepState j = some st) :
    containsNull j = false := by
  cases j <;> simp only [parseStepState, asObj] at h <;> try cases h
  case obj fields =>
    obtain ⟨fs, hfs, hbody⟩ := Option.bind_eq_some.mp h
    cases hfs
    obtain ⟨hsub, hbody⟩ := if_opt_some hbody
    obtain ⟨array, harr, hbody⟩ := Option.bind_eq_some.mp hbody
    obtain ⟨pointers, hptr, hbody⟩ := Option.bind_eq_some.mp hbody
    obtain ⟨range, hrange, hbody⟩ := Option.bind_eq_some.mp hbody
    obtain ⟨stack, hstack, hbody⟩ := Option.bind_eq_some.mp hbody
    obtain ⟨recursion, hrec, hbody⟩ := Option.bind_eq_some.mp hbody
    obtain ⟨partition, hpart, hbody⟩ := Option.bind_eq_some.mp hbody
    obtain ⟨merge, hmerge, _⟩ := Option.bind_eq_some.mp hbody
    simp only [wfJson, Bool.and_eq_true] at hwf
    apply obj_containsNull_eq_false fields
      ["array", "pointers", "range", "stack", "recursion", "partition", "merge"]
      (by simpa using hsub) hwf.1
    intro k hk v hfind
    have hwfv : wfJson v = true := wfFields_mem fields hwf.2 _ (findField_mem hfind)
    have hk' : k = "array" ∨ k = "pointers" ∨ k = "range" ∨ k = "stack" ∨
        k = "recursion" ∨ k = "partition" ∨ k = "merge" := by simpa using hk
    rcases hk' with rfl | rfl | rfl | rfl | rfl | rfl | rfl
    · obtain ⟨v', hv', hp⟩ := reqF_some harr
      rw [hfind] at hv'; cases hv'
      exact parseNumberArray_noNull _ _ hp
    · rcases optF_some hptr with ⟨hnone, _⟩ | ⟨v', a, hv', hp, _⟩
      · rw [hfind] at hnone; cases hnone
      · rw [hfind] at hv'; cases hv'
        exact parseIntRecord_noNull _ _ hp
    · rcases optF_some hrange with ⟨hnone, _⟩ | ⟨v', a, hv', hp, _⟩
      · rw [hfind] at hnone; cases hnone
      · rw [hfind] at hv'; cases hv'
        exact parseRange_noNull _ _ hwfv hp
    · rcases optF_some hstack with ⟨hnone, _⟩ | ⟨v', a, hv', hp, _⟩
      · rw [hfind] at hnone; cases hnone
      · rw [hfind] at hv'; cases hv'
        exact parseStack_noNull _ _ hp
    · rcases optF_some hrec with ⟨hnone, _⟩ | ⟨v', a, hv', hp, _⟩
      · rw [hfind] at hnone; cases hnone
      · rw [hfind] at hv'; cases hv'
        exact parseRecursion_noNull _ _ hwfv hp
    · rcases optF_some hpart with ⟨hnone, _⟩ | ⟨v', a, hv', hp, _⟩
      · rw [hfind] at hnone; cases hnone
      · rw [hfind] at hv'; cases hv'
        exact parsePartitionState_noNull _ _ hwfv hp
    · rcases optF_some hmerge with ⟨hnone, _⟩ | ⟨v', a, hv', hp, _⟩
      · rw [hfind] at hnone; cases hnone
      · rw [hfind] at hv'; cases hv'
        exact parseMergeState_noNull _ _ hwfv hp

/-- `parseEvent` only accepts null-free objects. -/
theorem parseEvent_noNull (j : JsonValue) (ev : StepEvent)
    (hwf : wfJson j = true) (h : parseEvent j = some ev) :
    containsNull j = false := by
  cases j <;> simp only [parseEvent, asObj] at h <;> try cases h
  case obj fields =>
    obtain ⟨fs, hfs, hbody⟩ := Option.bind_eq_some.mp h
    cases hfs
    obtain ⟨t, ht, hmatch⟩ := Option.bind_eq_some.mp hbody
    simp only [wfJson, Bool.and_eq_true] at hwf
    obtain ⟨vt, hvt, hvt2⟩ := reqF_some ht
    split at hmatch
    · obtain ⟨hsub, hbody2⟩ := if_opt_some hmatch
      obtain ⟨i, hi, hbody2⟩ := Option.bind_eq_some.mp hbody2
      obtain ⟨jj, hj, _⟩ := Option.bind_eq_some.mp hbody2
      apply obj_containsNull_eq_false fields ["type", "i", "j"]
        (by simpa using hsub) hwf.1
      intro k hk v hfind
      have hk' : k = "type" ∨ k = "i" ∨ k = "j" := by simpa using hk
      rcases hk' with rfl | rfl | rfl
      · rw [hfind] at hvt; cases hvt
        exact parseStr_noNull _ _ hvt2
      · obtain ⟨v', hv', hp⟩ := reqF_some hi
        rw [hfind] at hv'; cases hv'
        exact parseIntNum_noNull _ _ hp
      · obtain ⟨v', hv', hp⟩ := reqF_some hj
        rw [hfind] at hv'; cases hv'
        exact parseIntNum_noNull _ _ hp
    · obtain ⟨hsub, hbody2⟩ := if_opt_some hmatch
      obtain ⟨i, hi, hbody2⟩ := Option.bind_eq_some.mp hbody2
      obtain ⟨jj, hj, hbody2⟩ := Option.bind_eq_some.mp hbody2
      obtain ⟨outcome, hout, _⟩ := Option.bind_eq_some.mp hbody2
      apply obj_containsNull_eq_false fields ["type", "i", "j", "outcome"]
        (by simpa using hsub) hwf.1
      intro k hk v hfind
      have hk' : k = "type" ∨ k = "i" ∨ k = "j" ∨ k = "outcome" := by simpa using hk
      rcases hk' with rfl | rfl | rfl | rfl
      · rw [hfind] at hvt; cases hvt
        exact parseStr_noNull _ _ hvt2
      · obtain ⟨v', hv', hp⟩ := reqF_some hi
        rw [hfind] at hv'; cases hv'
        exact parseIntNum_noNull _ _ hp
      · obtain ⟨v', hv', hp⟩ := reqF_some hj
        rw [hfind] at hv'; cases hv'
        exact parseIntNum_noNull _ _ hp
      · rcases optF_some hout with ⟨hnone, _⟩ | ⟨v', a, hv', hp, _⟩
        · rw [hfind] at hnone; cases hnone
        · rw [hfind] at hv'; cases hv'
          exact parseOutcome_noNull _ _ hp
    · cases hmatch

/-- `parseEvents` only accepts null-free arrays. -/
theorem parseEvents_noNull (j : JsonValue) (evs : List StepEvent)
    (hwf : wfJson j = true) (h : parseEvents j = some evs) :
    containsNull j = false := by
  cases j <;> simp only [parseEvents] at h <;> try cases h
  case arr elems =>
    obtain ⟨es, hes, _⟩ := Option.bind_eq_some.mp h
    show containsNullList elems = false
    apply containsNullList_eq_false
    intro e he
    obtain ⟨ev, hev⟩ := mapM_some_forall hes e he
    exact parseEvent_noNull e ev (wfList_mem elems (by simpa [wfJson] using hwf) e he) hev

/-- `parseStep` only accepts null-free objects. -/
theorem parseStep_noNull (j : JsonValue) (st : StepSpec)
    (hwf : wfJson j = true) (h : parseStep j = some st) :
    containsNull j = false := by
  cases j <;> simp only [parseStep, asObj] at h <;> try cases h
  case obj fields =>
    obtain ⟨fs, hfs, hbody⟩ := Option.bind_eq_some.mp h
    cases hfs
    obtain ⟨hsub, hbody⟩ := if_opt_some hbody
    obtain ⟨id, hid, hbody⟩ := Option.bind_eq_some.mp hbody
    obtain ⟨caption, hcap, hbody⟩ := Option.bind_eq_some.mp hbody
    obtain ⟨line, hline, hbody⟩ := Option.bind_eq_some.mp hbody
    obtain ⟨hpos, hbody⟩ := if_opt_some hbody
    obtain ⟨state, hstate, hbody⟩ := Option.bind_eq_some.mp hbody
    obtain ⟨events, hevents, _⟩ := Option.bind_eq_some.mp hbody
    simp only [wfJson, Bool.and_eq_true] at hwf
    apply obj_containsNull_eq_false fields
      ["id", "caption", "activeCodeLine", "state", "events"]
      (by simpa using hsub) hwf.1
    intro k hk v hfind
    have hwfv : wfJson v = true := wfFields_mem fields hwf.2 _ (findField_mem hfind)
    have hk' : k = "id" ∨ k = "caption" ∨ k = "activeCodeLine" ∨ k = "state" ∨
        k = "events" := by simpa using hk
    rcases hk' with rfl | rfl | rfl | rfl | rfl
    · obtain ⟨v', hv', hp⟩ := reqF_some hid
      rw [hfind] at hv'; cases hv'
      exact parseStrMin1_noNull _ _ hp
    · obtain ⟨v', hv', hp⟩ := reqF_some hcap
      rw [hfind] at hv'; cases hv'
      exact parseStrMin1_noNull _ _ hp
    · obtain ⟨v', hv', hp⟩ := reqF_some hline
      rw [hfind] at hv'; cases hv'
      exact parseIntNum_noNull _ _ hp
    · obtain ⟨v', hv', hp⟩ := reqF_some hstate
      rw [hfind] at hv'; cases hv'
      exact parseStepState_noNull _ _ hwfv hp
    · rcases optF_some hevents with ⟨hnone, _⟩ | ⟨v', a, hv', hp, _⟩
      · rw [hfind] at hnone; cases hnone
      · rw [hfind] at hv'; cases hv'
        exact parseEvents_noNull _ _ hwfv hp

/-- Primitive props values are null-free. -/
theorem isPrimitivePropValue_noNull (v : JsonValue)
    (h : isPrimitivePropValue v = true) : containsNull v = false := by
  cases v with
  | str _ => rfl
  | bool _ => rfl
  | num _ => rfl
  | null => cases h
  | numInf _ => cases h
  | arr _ => cases h
  | obj _ => cases h

/-- `parseComponent` only accepts null-free objects. -/
theorem parseComponent_noNull (j : JsonValue) (c : RegistryComponentRef)
    (hwf : wfJson j = true) (h : parseComponent j = some c) :
    containsNull j = false := by
  cases j <;> simp only [parseComponent, asObj] at h <;> try cases h
  case obj fields =>
    obtain ⟨fs, hfs, hbody⟩ := Option.bind_eq_some.mp h
    cases hfs
    obtain ⟨hsub, hbody⟩ := if_opt_some hbody
    obtain ⟨id, hid, hbody⟩ := Option.bind_eq_some.mp hbody
    obtain ⟨t, ht, hbody⟩ := Option.bind_eq_some.mp hbody
    obtain ⟨props, hprops, _⟩ := Option.bind_eq_some.mp hbody
    simp only [wfJson, Bool.and_eq_true] at hwf
    apply obj_containsNull_eq_false fields ["id", "type", "props"]
      (by simpa using hsub) hwf.1
    intro k hk v hfind
    have hk' : k = "id" ∨ k = "type" ∨ k = "props" := by simpa using hk
    rcases hk' with rfl | rfl | rfl
    · obtain ⟨v', hv', hp⟩ := reqF_some hid
      rw [hfind] at hv'; cases hv'
      exact parseStrMin1_noNull _ _ hp
    · obtain ⟨v', hv', hp⟩ := reqF_some ht
      rw [hfind] at hv'; cases hv'
      exact parseComponentType_noNull _ _ hp
    · rcases optF_some hprops with ⟨hnone, _⟩ | ⟨v', a, hv', hp, _⟩
      · rw [hfind] at hnone; cases hnone
      · rw [hfind] at hv'; cases hv'
        obtain ⟨pfields, hpf, hpbody⟩ := Option.bind_eq_some.mp hp
        have hv'' : v = .obj pfields := by
          cases v <;> simp only [asObj] at hpf <;> try cases hpf
          rfl
        subst hv''
        obtain ⟨hall, _⟩ := if_opt_some hpbody
        show containsNullFields pfields = false
        apply containsNullFields_eq_false
        intro f hf
        exact isPrimitivePropValue_noNull f.2 ((List.all_eq_true.mp hall) f hf)

/-- `parseCodeLines` only accepts null-free objects. -/
theorem parseCodeLines_noNull (j : JsonValue) (lines : List String)
    (hwf : wfJson j = true) (h : parseCodeLines j = some lines) :
    containsNull j = false := by
  cases j <;> simp only [parseCodeLines, asObj] at h <;> try cases h
  case obj fields =>
    obtain ⟨fs, hfs, hbody⟩ := Option.bind_eq_some.mp h
    cases hfs
    obtain ⟨hsub, hbody⟩ := if_opt_some hbody
    obtain ⟨linesJson, hlj, hmatch⟩ := Option.bind_eq_some.mp hbody
    simp only [wfJson, Bool.and_eq_true] at hwf
    apply obj_containsNull_eq_false fields ["lines"] (by simpa using hsub) hwf.1
    intro k hk v hfind
    have hk' : k = "lines" := by simpa using hk
    subst hk'
    obtain ⟨v', hv', hp⟩ := reqF_some hlj
    rw [hfind] at hv'; cases hv'
    simp only [pure, Option.some.injEq] at hp
    subst hp
    split at hmatch
    · rename_i elems
      obtain ⟨ss, hss, _⟩ := Option.bind_eq_some.mp hmatch
      show containsNullList elems = false
      apply containsNullList_eq_false
      intro e he
      obtain ⟨s, hs⟩ := mapM_some_forall hss e he
      exact parseStrMin1_noNull e s hs
    · cases hmatch

/-- `parseScene` only accepts null-free objects. -/
theorem parseScene_noNull (j : JsonValue) (comps : List RegistryComponentRef)
    (hwf : wfJson j = true) (h : parseScene j = some comps) :
    containsNull j = false := by
  cases j <;> simp only [parseScene, asObj] at h <;> try cases h
  case obj fields =>
    obtain ⟨fs, hfs, hbody⟩ := Option.bind_eq_some.mp h
    cases hfs
    obtain ⟨hsub, hbody⟩ := if_opt_some hbody
    obtain ⟨compsJson, hcj, hmatch⟩ := Option.bind_eq_some.mp hbody
    simp only [wfJson, Bool.and_eq_true] at hwf
    apply obj_containsNull_eq_false fields ["components"] (by simpa using hsub) hwf.1
    intro k hk v hfind
    have hk' : k = "components" := by simpa using hk
    subst hk'
    obtain ⟨v', hv', hp⟩ := reqF_some hcj
    rw [hfind] at hv'; cases hv'
    simp only [pure, Option.some.injEq] at hp
    subst hp
    have hwfv : wfJson v = true := wfFields_mem fields hwf.2 _ (findField_mem hfind)
    split at hmatch
    · rename_i elems
      obtain ⟨cs, hcs, _⟩ := Option.bind_eq_some.mp hmatch
      show containsNullList elems = false
      apply containsNullList_eq_false
      intro e he
      obtain ⟨c, hc⟩ := mapM_some_forall hcs e he
      exact parseComponent_noNull e c
        (wfList_mem elems (by simpa [wfJson] using hwfv) e he) hc
    · cases hmatch

/-- An accepted document is null-free: the structural schema visits every
value of a well-formed document with a null-rejecting parser. -/
theorem parseSpec_noNull (j : JsonValue) (spec : ArraysVizSpec)
    (hwf : wfJson j = true) (h : parseSpec j = some spec) :
    containsNull j = false := by
  cases j <;> simp only [parseSpec, asObj] at h <;> try cases h
  case obj fields =>
    obtain ⟨fs, hfs, hbody⟩ := Option.bind_eq_some.mp h
    cases hfs
    obtain ⟨hsub, hbody⟩ := if_opt_some hbody
    obtain ⟨version, hver, hbody⟩ := Option.bind_eq_some.mp hbody
    obtain ⟨hv10, hbody⟩ := if_opt_some hbody
    obtain ⟨algorithm, halg, hbody⟩ := Option.bind_eq_some.mp hbody
    obtain ⟨title, htitle, hbody⟩ := Option.bind_eq_some.mp hbody
    obtain ⟨htlen, hbody⟩ := if_opt_some hbody
    obtain ⟨codeLines, hcode, hbody⟩ := Option.bind_eq_some.mp hbody
    obtain ⟨components, hscene, hbody⟩ := Option.bind_eq_some.mp hbody
    obtain ⟨stepsJson, hsj, hmatch⟩ := Option.bind_eq_some.mp hbody
    simp only [wfJson, Bool.and_eq_true] at hwf
    apply obj_containsNull_eq_false fields
      ["version", "algorithm", "title", "code", "scene", "steps"]
      (by simpa using hsub) hwf.1
    intro k hk v hfind
    have hwfv : wfJson v = true := wfFields_mem fields hwf.2 _ (findField_mem hfind)
    have hk' : k = "version" ∨ k = "algorithm" ∨ k = "title" ∨ k = "code" ∨
        k = "scene" ∨ k = "steps" := by simpa using hk
    rcases hk' with rfl | rfl | rfl | rfl | rfl | rfl
    · obtain ⟨v', hv', hp⟩ := reqF_some hver
      rw [hfind] at hv'; cases hv'
      exact parseStr_noNull _ _ hp
    · obtain ⟨v', hv', hp⟩ := reqF_some halg
      rw [hfind] at hv'; cases hv'
      exact parseAlgorithm_noNull _ _ hp
    · obtain ⟨v', hv', hp⟩ := reqF_some htitle
      rw [hfind] at hv'; cases hv'
      exact parseStr_noNull _ _ hp
    · obtain ⟨v', hv', hp⟩ := reqF_some hcode
      rw [hfind] at hv'; cases hv'
      exact parseCodeLines_noNull _ _ hwfv hp
    · obtain ⟨v', hv', hp⟩ := reqF_some hscene
      rw [hfind] at hv'; cases hv'
      exact parseScene_noNull _ _ hwfv hp
    · obtain ⟨v', hv', hp⟩ := reqF_some hsj
      rw [hfind] at hv'; cases hv'
      simp only [pure, Option.some.injEq] at hp
      subst hp
      split at hmatch
      · rename_i elems
        obtain ⟨sts, hsts, _⟩ := Option.bind_eq_some.mp hmatch
        show containsNullList elems = false
        apply containsNullList_eq_false
        intro e he
        obtain ⟨st, hst⟩ := mapM_some_forall hsts e he
        exact parseStep_noNull e st
          (wfList_mem elems (by simpa [wfJson] using hwfv) e he) hst
      · cases hmatch

/-- A structurally accepted document has only primitive props values. -/
theorem parseSpec_propsPrimitive (j : JsonValue) (spec : ArraysVizSpec)
    (h : parseSpec j = some spec) : scenePropsViolation j = false := by
  cases j <;> try rfl
  case obj fields =>
    simp only [parseSpec, asObj] at h
    obtain ⟨fs, hfs, hbody⟩ := Option.bind_eq_some.mp h
    cases hfs
    obtain ⟨hsub, hbody⟩ := if_opt_some hbody
    obtain ⟨version, hver, hbody⟩ := Option.bind_eq_some.mp hbody
    obtain ⟨hv10, hbody⟩ := if_opt_some hbody
    obtain ⟨algorithm, halg, hbody⟩ := Option.bind_eq_some.mp hbody
    obtain ⟨title, htitle, hbody⟩ := Option.bind_eq_some.mp hbody
    obtain ⟨htlen, hbody⟩ := if_opt_some hbody
    obtain ⟨codeLines, hcode, hbody⟩ := Option.bind_eq_some.mp hbody
    obtain ⟨components, hscene, hbody⟩ := Option.bind_eq_some.mp hbody
    obtain ⟨vs, hvs, hps⟩ := reqF_some hscene
    simp only [scenePropsViolation]
    rw [hvs]
    show propsViolationOfScene vs = false
    cases vs <;> simp only [parseScene, asObj] at hps <;> try rfl
    case obj sfields =>
      obtain ⟨sfs, hsfs, hsbody⟩ := Option.bind_eq_some.mp hps
      cases hsfs
      obtain ⟨hssub, hsbody⟩ := if_opt_some hsbody
      obtain ⟨vcomps, hvcomps, hsmatch⟩ := Option.bind_eq_some.mp hsbody
      obtain ⟨vc, hvc, hvc2⟩ := reqF_some hvcomps
      have hvceq : vcomps = vc := by simpa [pure] using hvc2.symm
      subst hvceq
      simp only [propsViolationOfScene]
      rw [hvc]
      show propsViolationOfComponents vcomps = false
      cases vcomps <;> try rfl
      case arr comps =>
        simp only at hsmatch
        obtain ⟨cs, hcs, _⟩ := Option.bind_eq_some.mp hsmatch
        show comps.any propsViolationOfComponent = false
        rw [List.any_eq_false]
        intro c hc
        obtain ⟨cref, hcref⟩ := mapM_some_forall hcs c hc
        suffices hfalse : propsViolationOfComponent c = false by simp [hfalse]
        cases c <;> simp only [parseComponent, asObj] at hcref <;> try rfl
        case obj cfields =>
          obtain ⟨cfs, hcfs, hcbody⟩ := Option.bind_eq_some.mp hcref
          cases hcfs
          obtain ⟨hcsub, hcbody⟩ := if_opt_some hcbody
          obtain ⟨cid, hcid, hcbody⟩ := Option.bind_eq_some.mp hcbody
          obtain ⟨ct, hct, hcbody⟩ := Option.bind_eq_some.mp hcbody
          obtain ⟨cprops, hcprops, _⟩ := Option.bind_eq_some.mp hcbody
          simp only [propsViolationOfComponent]
          rcases optF_some hcprops with ⟨hnone, _⟩ | ⟨v', a, hv', hp, _⟩
          · rw [hnone]
          · rw [hv']
            obtain ⟨pfields, hpf, hpbody⟩ := Option.bind_eq_some.mp hp
            have hv'' : v' = .obj pfields := by
              cases v' <;> simp only [asObj] at hpf <;> try cases hpf
              rfl
            subst hv''
            obtain ⟨hall, _⟩ := if_opt_some hpbody
            rw [List.any_eq_false]
            intro p hpmem
            have := (List.all_eq_true.mp hall) p hpmem
            simp [this]

/-- C8: a candidate document (necessarily with distinct object keys, as
every `JSON.parse` output has) that contains the JSON value `null`
anywhere, or whose `scene.components[*].props` has a value that is not a
string, finite number, or boolean, is rejected by
`parseAndValidateArraysSpec`. -/
theorem C8_null_and_props_rejected (j : JsonValue)
    (hwf : JsonValue.wfJson j = true)
    (hbad : JsonValue.containsNull j = true ∨ scenePropsViolation j = true) :
    (parseAndValidateArraysSpec (some j)).isOk = false := by
  cases hok : (parseAndValidateArraysSpec (some j)).isOk
  · rfl
  · exfalso
    have hex : ∃ spec, parseAndValidateArraysSpec (some j) = .ok spec := by
      cases hres : parseAndValidateArraysSpec (some j) with
      | ok s => exact ⟨s, rfl⟩
      | error e => rw [hres] at hok; cases hok
    obtain ⟨spec, hspec⟩ := hex
    obtain ⟨hp, _⟩ := (accepted_iff j spec).mp hspec
    rcases hbad with hnull | hprops
    · rw [parseSpec_noNull j spec hwf hp] at hnull
      cases hnull
    · rw [parseSpec_propsPrimitive j spec hp] at hprops
      cases hprops

/-- Witness for C8: `{"version": null}` has distinct keys and contains
`null`, so it is rejected. -/
theorem C8_null_and_props_rejected_witness :
    JsonValue.wfJson (.obj [("version", .null)]) = true ∧
    (JsonValue.containsNull (.obj [("version", .null)]) = true ∨
      scenePropsViolation (.obj [("version", .null)]) = true) ∧
    (parseAndValidateArraysSpec (some (.obj [("version", .null)]))).isOk = false :=
  ⟨by decide, by decide,
    C8_null_and_props_rejected (.obj [("version", .null)]) (by decide) (by decide)⟩

/-- `parseStrMin1` enforces non-emptiness. -/
theorem parseStrMin1_length (j : JsonValue) (s : String)
    (h : parseStrMin1 j = some s) : 1 ≤ s.length := by
  unfold parseStrMin1 at h
  obtain ⟨s', hs', hbody⟩ := Option.bind_eq_some.mp h
  obtain ⟨hlen, heq⟩ := if_opt_some hbody
  have : s' = s := by simpa [pure] using heq
  subst this
  exact hlen

/-- What `parseComponent` guarantees about its output. -/
theorem parseComponent_facts (cj : JsonValue) (c : RegistryComponentRef)
    (h : parseComponent cj = some c) :
    1 ≤ c.id.length ∧
    ∀ ps, c.props = some ps → ∀ p ∈ ps, isPrimitivePropValue p.2 = true := by
  cases cj <;> simp only [parseComponent, asObj] at h <;> try cases h
  case obj cfields =>
    obtain ⟨cfs, hcfs, hbody⟩ := Option.bind_eq_some.mp h
    cases hcfs
    obtain ⟨hsub, hbody⟩ := if_opt_some hbody
    obtain ⟨id, hid, hbody⟩ := Option.bind_eq_some.mp hbody
    obtain ⟨t, ht, hbody⟩ := Option.bind_eq_some.mp hbody
    obtain ⟨props, hprops, hpure⟩ := Option.bind_eq_some.mp hbody
    have hc : c = ⟨id, t, props⟩ := by simpa [pure] using hpure.symm
    subst hc
    obtain ⟨v', hv', hp⟩ := reqF_some hid
    refine ⟨parseStrMin1_length v' id hp, ?_⟩
    intro ps hps p hpmem
    rcases optF_some hprops with ⟨_, hnone⟩ | ⟨v'', a, _, hpv, hsome⟩
    · rw [hnone] at hps; cases hps
    · rw [hsome] at hps
      cases hps
      obtain ⟨pfields, hpf, hpbody⟩ := Option.bind_eq_some.mp hpv
      obtain ⟨hall, hpure2⟩ := if_opt_some hpbody
      have : pfields = ps := by simpa [pure] using hpure2
      subst this
      exact (List.all_eq_true.mp hall) p hpmem

/-- What `parseScene` guarantees about its output. -/
theorem parseScene_facts (v : JsonValue) (comps : List RegistryComponentRef)
    (h : parseScene v = some comps) :
    1 ≤ comps.length ∧ comps.length ≤ 32 ∧
    ∀ c ∈ comps, ∃ cj, parseComponent cj = some c := by
  cases v <;> simp only [parseScene, asObj] at h <;> try cases h
  case obj sfields =>
    obtain ⟨sfs, hsfs, hbody⟩ := Option.bind_eq_some.mp h
    cases hsfs
    obtain ⟨hsub, hbody⟩ := if_opt_some hbody
    obtain ⟨vc, hvc, hmatch⟩ := Option.bind_eq_some.mp hbody
    split at hmatch
    · rename_i elems
      obtain ⟨cs, hcs, hif⟩ := Option.bind_eq_some.mp hmatch
      obtain ⟨hlen, heq⟩ := if_opt_some hif
      have : cs = comps := by simpa [pure] using heq
      subst this
      exact ⟨hlen.1, hlen.2, fun c hc => by
        obtain ⟨cj, _, hcj⟩ := mapM_some_forall_res hcs c hc
        exact ⟨cj, hcj⟩⟩
    · cases hmatch

/-- What `parseCodeLines` guarantees about its output. -/
theorem parseCodeLines_facts (v : JsonValue) (lines : List String)
    (h : parseCodeLines v = some lines) :
    1 ≤ lines.length ∧ lines.length ≤ MAX_CODE_LINES ∧
    ∀ s ∈ lines, 1 ≤ s.length := by
  cases v <;> simp only [parseCodeLines, asObj] at h <;> try cases h
  case obj fields =>
    obtain ⟨fs, hfs, hbody⟩ := Option.bind_eq_some.mp h
    cases hfs
    obtain ⟨hsub, hbody⟩ := if_opt_some hbody
    obtain ⟨vl, hvl, hmatch⟩ := Option.bind_eq_some.mp hbody
    split at hmatch
    · rename_i elems
      obtain ⟨ss, hss, hif⟩ := Option.bind_eq_some.mp hmatch
      obtain ⟨hlen, heq⟩ := if_opt_some hif
      have : ss = lines := by simpa [pure] using heq
      subst this
      exact ⟨hlen.1, hlen.2, fun s hs => by
        obtain ⟨sj, _, hsj⟩ := mapM_some_forall_res hss s hs
        exact parseStrMin1_length sj s hsj⟩
    · cases hmatch

/-- The structural facts `parseSpec` guarantees about an accepted
document. -/
theorem parseSpec_facts (j : JsonValue) (spec : ArraysVizSpec)
    (h : parseSpec j = some spec) :
    spec.version = "1.0" ∧
    1 ≤ spec.title.length ∧ spec.title.length ≤ 140 ∧
    1 ≤ spec.codeLines.length ∧ spec.codeLines.length ≤ MAX_CODE_LINES ∧
    1 ≤ spec.components.length ∧ spec.components.length ≤ 32 ∧
    1 ≤ spec.steps.length ∧ spec.steps.length ≤ MAX_TIMELINE_STEPS ∧
    (∀ c ∈ spec.components, 1 ≤ c.id.length ∧
      ∀ ps, c.props = some ps → ∀ p ∈ ps, isPrimitivePropValue p.2 = true) := by
  cases j <;> simp only [parseSpec, asObj] at h <;> try cases h
  case obj fields =>
    obtain ⟨fs, hfs, hbody⟩ := Option.bind_eq_some.mp h
    cases hfs
    obtain ⟨hsub, hbody⟩ := if_opt_some hbody
    obtain ⟨version, hver, hbody⟩ := Option.bind_eq_some.mp hbody
    obtain ⟨hv10, hbody⟩ := if_opt_some hbody
    obtain ⟨algorithm, halg, hbody⟩ := Option.bind_eq_some.mp hbody
    obtain ⟨title, htitle, hbody⟩ := Option.bind_eq_some.mp hbody
    obtain ⟨htlen, hbody⟩ := if_opt_some hbody
    obtain ⟨codeLines, hcode, hbody⟩ := Option.bind_eq_some.mp hbody
    obtain ⟨components, hscene, hbody⟩ := Option.bind_eq_some.mp hbody
    obtain ⟨stepsJson, hsj, hmatch⟩ := Option.bind_eq_some.mp hbody
    split at hmatch
    · rename_i elems
      obtain ⟨steps, hsteps, hif⟩ := Option.bind_eq_some.mp hmatch
      obtain ⟨hslen, heq⟩ := if_opt_some hif
      have hspec : spec = ⟨version, algorithm, title, codeLines, components, steps⟩ := by
        simpa [pure] using heq.symm
      subst hspec
      obtain ⟨vc, _, hpc⟩ := reqF_some hcode
      obtain ⟨vs, _, hpsc⟩ := reqF_some hscene
      obtain ⟨hc1, hc2, _⟩ := parseCodeLines_facts vc codeLines hpc
      obtain ⟨hs1, hs2, hs3⟩ := parseScene_facts vs components hpsc
      refine ⟨hv10, htlen.1, htlen.2, hc1, hc2, hs1, hs2, hslen.1, hslen.2, ?_⟩
      intro c hc
      obtain ⟨cj, hcj⟩ := hs3 c hc
      exact parseComponent_facts cj c hcj
    · cases hmatch

/-- C4: in every accepted spec, every pointer value, range bound, pivot
index, merge write-range bound and event index of every step lies in
`[0, array.length)`, with `l ≤ r` for ranges and write ranges.  By
contraposition, a document violating any of these bounds is never
accepted. -/
theorem C4_index_bounds (j : JsonValue) (spec : ArraysVizSpec)
    (h : parseAndValidateArraysSpec (some j) = .ok spec) :
    ∀ st ∈ spec.steps,
      (∀ ps, st.state.pointers = some ps →
        ∀ p ∈ ps, 0 ≤ p.2 ∧ p.2 < (st.state.array.length : ℤ)) ∧
      (∀ r, st.state.range = some r →
        0 ≤ r.l ∧ r.l ≤ r.r ∧ r.r < (st.state.array.length : ℤ)) ∧
      (∀ p, st.state.partition = some p →
        0 ≤ p.pivotIndex ∧ p.pivotIndex < (st.state.array.length : ℤ)) ∧
      (∀ m, st.state.merge = some m → ∀ w, m.writeRange = some w →
        0 ≤ w.l ∧ w.l ≤ w.r ∧ w.r < (st.state.array.length : ℤ)) ∧
      (∀ evs, st.events = some evs → ∀ ev ∈ evs,
        0 ≤ ev.i ∧ ev.i < (st.state.array.length : ℤ) ∧
        0 ≤ ev.j ∧ ev.j < (st.state.array.length : ℤ)) := by
  obtain ⟨_, hiss⟩ := (accepted_iff j spec).mp h
  obtain ⟨hsteps, _⟩ := specIssues_nil spec hiss
  intro st hst
  obtain ⟨b1, b2, b3, b4, b5⟩ := stepIssues_nil st (hsteps st hst)
  exact ⟨b1, b2, b3, fun m hm w hw => (b4 m hm).2 w hw, b5⟩

/-- C5 (amended): what the validator actually enforces about
`scene.components`: 1 to 32 entries, non-empty ids, primitive props
values (each entry's `type` is drawn from the twelve-name vocabulary by
construction of the component union).  Presence of `CodeBlock` and
type-uniqueness are not checked, as the accepted document without a
CodeBlock and with a duplicated type shows. -/
theorem C5_components_amended (j : JsonValue) (spec : ArraysVizSpec)
    (h : parseAndValidateArraysSpec (some j) = .ok spec) :
    1 ≤ spec.components.length ∧ spec.components.length ≤ 32 ∧
    ∀ c ∈ spec.components, 1 ≤ c.id.length ∧
      ∀ ps, c.props = some ps → ∀ p ∈ ps, isPrimitivePropValue p.2 = true := by
  obtain ⟨hp, _⟩ := (accepted_iff j spec).mp h
  obtain ⟨_, _, _, _, _, hs1, hs2, _, _, hcomp⟩ := parseSpec_facts j spec hp
  exact ⟨hs1, hs2, hcomp⟩

/-- The first-step rule, extracted. -/
theorem firstStep_nil {steps : List StepSpec} {st : StepSpec} {r : RecursionState}
    (h : firstStepIssues steps = []) (h1 : steps.head? = some st)
    (h2 : st.state.recursion = some r) : r.depth = 0 ∧ r.phase = .enter := by
  unfold firstStepIssues at h
  rw [h1] at h
  have h' : (match st.state.recursion with
      | none => ([] : List Issue)
      | some r =>
        if r.depth ≠ 0 ∨ r.phase ≠ .enter then [Issue.firstStepNotRootEnter]
        else []) = [] := h
  rw [h2] at h'
  have h'' : (if r.depth ≠ 0 ∨ r.phase ≠ RecursionPhase.enter then
      [Issue.firstStepNotRootEnter] else []) = [] := h'
  have := if_singleton_eq_nil h''
  push_neg at this
  exact this

/-- The last-step rule, extracted. -/
theorem lastStep_nil {steps : List StepSpec} {st : StepSpec} {r : RecursionState}
    (h : lastStepIssues steps = []) (h1 : steps.getLast? = some st)
    (h2 : st.state.recursion = some r) :
    r.depth = 0 ∧ r.phase = .phaseReturn := by
  unfold lastStepIssues at h
  rw [h1] at h
  have h' : (match st.state.recursion with
      | none => ([] : List Issue)
      | some r =>
        if r.depth ≠ 0 ∨ r.phase ≠ .phaseReturn then [Issue.lastStepNotRootReturn]
        else []) = [] := h
  rw [h2] at h'
  have h'' : (if r.depth ≠ 0 ∨ r.phase ≠ RecursionPhase.phaseReturn then
      [Issue.lastStepNotRootReturn] else []) = [] := h'
  have := if_singleton_eq_nil h''
  push_neg at this
  exact this

/-- The adjacent-pair rule, extracted. -/
theorem adjacentPairIssues_nil {idx : ℕ} {prev cur : StepSpec}
    {rp rc : RecursionState} (hp : prev.state.recursion = some rp)
    (hc : cur.state.recursion = some rc)
    (h : adjacentPairIssues idx prev cur = []) :
    (-1 ≤ rc.depth - rp.depth ∧ rc.depth - rp.depth ≤ 1) ∧
    (rc.depth - rp.depth = 1 →
      (rp.phase = .recurseLeft ∨ rp.phase = .recurseRight) ∧ rc.phase = .enter) ∧
    (rc.depth - rp.depth = -1 → rp.phase = .phaseReturn) := by
  unfold adjacentPairIssues at h
  rw [hp, hc] at h
  have h' : (if rc.depth - rp.depth < -1 ∨ rc.depth - rp.depth > 1 then
      [Issue.depthJump idx]
    else
      (if rc.depth - rp.depth = 1 then
          (if rp.phase ≠ RecursionPhase.recurseLeft ∧
              rp.phase ≠ RecursionPhase.recurseRight then
            [Issue.depthIncreaseBadPrevPhase (idx - 1)]
          else []) ++
          (if rc.phase ≠ RecursionPhase.enter then
            [Issue.depthIncreaseBadCurrentPhase idx]
          else [])
        else []) ++
        (if rc.depth - rp.depth = -1 ∧ rp.phase ≠ RecursionPhase.phaseReturn then
          [Issue.depthDecreaseBadPrevPhase (idx - 1)]
        else [])) = [] := h
  clear h
  by_cases hjump : rc.depth - rp.depth < -1 ∨ rc.depth - rp.depth > 1
  · rw [if_pos hjump] at h'
    cases h'
  · rw [if_neg hjump] at h'
    obtain ⟨hone, hneg⟩ := List.append_eq_nil.mp h' 
    refine ⟨by omega, ?_, ?_⟩
    · intro hdelta
      rw [if_pos hdelta] at hone
      obtain ⟨ha, hb⟩ := List.append_eq_nil.mp hone
      constructor
      · by_contra hph
        push_neg at hph
        rw [if_pos (by tauto)] at ha
        cases ha
      · by_contra hph
        rw [if_pos hph] at hb
        cases hb
    · intro hdelta
      by_contra hph
      rw [if_pos ⟨hdelta, hph⟩] at hneg
      cases hneg

/-- Each adjacent pair of the step list appears in the zip the validator
iterates over. -/
theorem adjacent_pair_mem (steps : List StepSpec) (i : ℕ)
    (hi : i + 1 < steps.length) :
    (i, (steps.get ⟨i, by omega⟩, steps.get ⟨i + 1, hi⟩)) ∈
      (steps.zip steps.tail).enum := by
  rw [List.mem_enum_iff_getElem?]
  have hlen : i < (steps.zip steps.tail).length := by
    rw [List.length_zip, List.length_tail]
    omega
  rw [List.getElem?_eq_getElem hlen]
  congr 1
  rw [List.getElem_zip]
  congr 1
  · simp [List.getElem_tail]

/-- Membership in a list lifts to membership in its `enum`. -/
theorem mem_enum_of_mem {α : Type} {l : List α} {a : α} (h : a ∈ l) :
    ∃ i, (i, a) ∈ l.enum := by
  obtain ⟨i, hi⟩ := List.mem_iff_get.mp h
  refine ⟨i.1, ?_⟩
  rw [List.mem_enum_iff_getElem?, ← hi]
  simp

/-- C3: in every accepted spec for a recursive algorithm, adjacent steps
change recursion depth by at most one, a `+1` change happens only from a
`recurse-left`/`recurse-right` step into an `enter` step, a `-1` change
happens only after a `return` step, and the first and last steps are the
root call at depth 0 in phases `enter` and `return`. -/
theorem C3_depth_transitions (j : JsonValue) (spec : ArraysVizSpec)
    (hok : parseAndValidateArraysSpec (some j) = .ok spec)
    (hrec : isRecursiveAlgorithm spec.algorithm = true) :
    (∀ (i : ℕ) (hi : i + 1 < spec.steps.length) (rp rc : RecursionState),
      (spec.steps.get ⟨i, by omega⟩).state.recursion = some rp →
      (spec.steps.get ⟨i + 1, hi⟩).state.recursion = some rc →
      (-1 ≤ rc.depth - rp.depth ∧ rc.depth - rp.depth ≤ 1) ∧
      (rc.depth - rp.depth = 1 →
        (rp.phase = .recurseLeft ∨ rp.phase = .recurseRight) ∧
          rc.phase = .enter) ∧
      (rc.depth - rp.depth = -1 → rp.phase = .phaseReturn)) ∧
    (∀ st, spec.steps.head? = some st →
      ∃ r, st.state.recursion = some r ∧ r.depth = 0 ∧ r.phase = .enter) ∧
    (∀ st, spec.steps.getLast? = some st →
      ∃ r, st.state.recursion = some r ∧ r.depth = 0 ∧ r.phase = .phaseReturn) := by
  obtain ⟨hp, hiss⟩ := (accepted_iff j spec).mp hok
  obtain ⟨_, hroot⟩ := specIssues_nil spec hiss
  obtain ⟨_, hrecpart⟩ := rootIssues_nil spec hroot
  obtain ⟨_, hstepsrec, hfirst, hadj, hlast, _⟩ := hrecpart hrec
  have hasRec : ∀ st ∈ spec.steps, ∃ r, st.state.recursion = some r := by
    intro st hst
    obtain ⟨i, hi⟩ := mem_enum_of_mem hst
    obtain ⟨_, _, r, hr, _⟩ := recursiveStepIssues_nil spec.algorithm i st
      (hstepsrec (i, st) hi)
    exact ⟨r, hr⟩
  refine ⟨?_, ?_, ?_⟩
  · intro i hi rp rc hrp hrc
    have hmem := adjacent_pair_mem spec.steps i hi
    have hnil : adjacentPairIssues (i + 1)
        (spec.steps.get ⟨i, by omega⟩) (spec.steps.get ⟨i + 1, hi⟩) = [] := by
      have := List.flatMap_eq_nil_iff.mp (by exact hadj)
        (i, (spec.steps.get ⟨i, by omega⟩, spec.steps.get ⟨i + 1, hi⟩)) hmem
      simpa using this
    exact adjacentPairIssues_nil hrp hrc hnil
  · intro st hst
    obtain ⟨r, hr⟩ := hasRec st (List.mem_of_mem_head? hst)
    obtain ⟨hd, hph⟩ := firstStep_nil hfirst hst hr
    exact ⟨r, hr, hd, hph⟩
  · intro st hst
    have hstmem : st ∈ spec.steps := by
      obtain ⟨hne, heq⟩ := List.mem_getLast?_eq_getLast (by rw [hst]; exact rfl)
      rw [heq]
      exact List.getLast_mem hne
    obtain ⟨r, hr⟩ := hasRec st hstmem
    obtain ⟨hd, hph⟩ := lastStep_nil hlast hst hr
    exact ⟨r, hr, hd, hph⟩

/-- Witness for C4 at `boundsDoc`. -/
theorem C4_index_bounds_witness :
    parseAndValidateArraysSpec (some boundsDoc) = .ok (parsedSpecOf boundsDoc) ∧
    (∀ st ∈ (parsedSpecOf boundsDoc).steps,
      (∀ ps, st.state.pointers = some ps →
        ∀ p ∈ ps, 0 ≤ p.2 ∧ p.2 < (st.state.array.length : ℤ)) ∧
      (∀ r, st.state.range = some r →
        0 ≤ r.l ∧ r.l ≤ r.r ∧ r.r < (st.state.array.length : ℤ)) ∧
      (∀ p, st.state.partition = some p →
        0 ≤ p.pivotIndex ∧ p.pivotIndex < (st.state.array.length : ℤ)) ∧
      (∀ m, st.state.merge = some m → ∀ w, m.writeRange = some w →
        0 ≤ w.l ∧ w.l ≤ w.r ∧ w.r < (st.state.array.length : ℤ)) ∧
      (∀ evs, st.events = some evs → ∀ ev ∈ evs,
        0 ≤ ev.i ∧ ev.i < (st.state.array.length : ℤ) ∧
        0 ≤ ev.j ∧ ev.j < (st.state.array.length : ℤ))) :=
  ⟨by rfl, C4_index_bounds boundsDoc (parsedSpecOf boundsDoc) (by rfl)⟩

/-- Witness for C5's amended claim at `noCodeBlockDoc`. -/
theorem C5_components_amended_witness :
    parseAndValidateArraysSpec (some noCodeBlockDoc) =
      .ok (parsedSpecOf noCodeBlockDoc) ∧
    (1 ≤ (parsedSpecOf noCodeBlockDoc).components.length ∧
      (parsedSpecOf noCodeBlockDoc).components.length ≤ 32 ∧
      ∀ c ∈ (parsedSpecOf noCodeBlockDoc).components, 1 ≤ c.id.length ∧
        ∀ ps, c.props = some ps → ∀ p ∈ ps, isPrimitivePropValue p.2 = true) :=
  ⟨by rfl, C5_components_amended noCodeBlockDoc (parsedSpecOf noCodeBlockDoc) (by rfl)⟩

/-- Witness for C3 at `doubleEnterDoc` (an accepted quicksort spec). -/
theorem C3_depth_transitions_witness :
    parseAndValidateArraysSpec (some doubleEnterDoc) =
      .ok (parsedSpecOf doubleEnterDoc) ∧
    isRecursiveAlgorithm (parsedSpecOf doubleEnterDoc).algorithm = true ∧
    ((∀ (i : ℕ) (hi : i + 1 < (parsedSpecOf doubleEnterDoc).steps.length)
        (rp rc : RecursionState),
      ((parsedSpecOf doubleEnterDoc).steps.get ⟨i, by omega⟩).state.recursion =
        some rp →
      ((parsedSpecOf doubleEnterDoc).steps.get ⟨i + 1, hi⟩).state.recursion =
        some rc →
      (-1 ≤ rc.depth - rp.depth ∧ rc.depth - rp.depth ≤ 1) ∧
      (rc.depth - rp.depth = 1 →
        (rp.phase = .recurseLeft ∨ rp.phase = .recurseRight) ∧
          rc.phase = .enter) ∧
      (rc.depth - rp.depth = -1 → rp.phase = .phaseReturn)) ∧
    (∀ st, (parsedSpecOf doubleEnterDoc).steps.head? = some st →
      ∃ r, st.state.recursion = some r ∧ r.depth = 0 ∧ r.phase = .enter) ∧
    (∀ st, (parsedSpecOf doubleEnterDoc).steps.getLast? = some st →
      ∃ r, st.state.recursion = some r ∧ r.depth = 0 ∧
        r.phase = .phaseReturn)) :=
  ⟨by rfl, by rfl,
    C3_depth_transitions doubleEnterDoc (parsedSpecOf doubleEnterDoc)
      (by rfl) (by rfl)⟩

/-- The issue accumulator of the required-phases fold only grows. -/
theorem phaseFold_grows (frames : List RecursionTraceFrame) (callId : String) :
    ∀ (req : List RecursionPhase) (acc : List Issue) (last : ℤ),
      ∃ tailIssues,
        (req.foldl
          (fun (acc : List Issue × ℤ) phase =>
            let phaseIndex := findPhaseIndex frames phase
            if phaseIndex < 0 then (acc.1 ++ [.callMissingPhase callId phase], acc.2)
            else if phaseIndex < acc.2 then
              (acc.1 ++ [.callPhaseOutOfOrder callId phase], acc.2)
            else (acc.1, phaseIndex))
          (acc, last)).1 = acc ++ tailIssues := by
  intro req
  induction req with
  | nil => intro acc last; exact ⟨[], by simp⟩
  | cons p rest ih =>
    intro acc last
    simp only [List.foldl_cons]
    by_cases h1 : findPhaseIndex frames p < 0
    · rw [if_pos h1]
      obtain ⟨t, ht⟩ := ih (acc ++ [.callMissingPhase callId p]) last
      exact ⟨[.callMissingPhase callId p] ++ t, by rw [ht, List.append_assoc]⟩
    · rw [if_neg h1]
      by_cases h2 : findPhaseIndex frames p < last
      · rw [if_pos h2]
        obtain ⟨t, ht⟩ := ih (acc ++ [.callPhaseOutOfOrder callId p]) last
        exact ⟨[.callPhaseOutOfOrder callId p] ++ t, by rw [ht, List.append_assoc]⟩
      · rw [if_neg h2]
        exact ih acc (findPhaseIndex frames p)

/-- An issue-free required-phases fold means: every required phase occurs,
and their first-occurrence indices are non-decreasing starting from the
running index. -/
theorem phaseFold_nil (frames : List RecursionTraceFrame) (callId : String) :
    ∀ (req : List RecursionPhase) (last : ℤ),
      (req.foldl
        (fun (acc : List Issue × ℤ) phase =>
          let phaseIndex := findPhaseIndex frames phase
          if phaseIndex < 0 then (acc.1 ++ [.callMissingPhase callId phase], acc.2)
          else if phaseIndex < acc.2 then
            (acc.1 ++ [.callPhaseOutOfOrder callId phase], acc.2)
          else (acc.1, phaseIndex))
        ([], last)).1 = [] →
      (∀ p ∈ req, 0 ≤ findPhaseIndex frames p) ∧
      List.Chain' (· ≤ ·) (last :: req.map (findPhaseIndex frames)) := by
  intro req
  induction req with
  | nil => intro last _; exact ⟨fun p hp => absurd hp (List.not_mem_nil p), by simp⟩
  | cons p rest ih =>
    intro last h
    simp only [List.foldl_cons] at h
    by_cases h1 : findPhaseIndex frames p < 0
    · rw [if_pos h1] at h
      obtain ⟨t, ht⟩ := phaseFold_grows frames callId rest
        ([] ++ [.callMissingPhase callId p]) last
      rw [ht] at h
      cases h
    · rw [if_neg h1] at h
      by_cases h2 : findPhaseIndex frames p < last
      · rw [if_pos h2] at h
        obtain ⟨t, ht⟩ := phaseFold_grows frames callId rest
          ([] ++ [.callPhaseOutOfOrder callId p]) last
        rw [ht] at h
        cases h
      · rw [if_neg h2] at h
        obtain ⟨hall, hchain⟩ := ih (findPhaseIndex frames p) h
        refine ⟨?_, ?_⟩
        · intro q hq
          rcases List.mem_cons.mp hq with rfl | hmem
          · omega
          · exact hall q hmem
        · rw [List.map_cons]
          exact List.Chain'.cons (by omega) hchain

/-- The facts encoded by an issue-free `validateCallLifecycle` run. -/
theorem validateCallLifecycle_nil (alg : ArraysAlgorithm) (callId : String)
    (first : RecursionTraceFrame) (rest : List RecursionTraceFrame)
    (h : validateCallLifecycle alg callId (first :: rest) = []) :
    first.phase = .enter ∧
    (first :: rest).any (fun f => f.phase == .phaseReturn) = true ∧
    ((first :: rest).any (fun f => f.phase == .base) = true →
      (∀ f ∈ first :: rest, f.phase ≠ .divide ∧ f.phase ≠ .recurseLeft ∧
        f.phase ≠ .recurseRight ∧ f.phase ≠ .combine) ∧
      0 ≤ findPhaseIndex (first :: rest) .base ∧
      findPhaseIndex (first :: rest) .base <
        findPhaseIndex (first :: rest) .phaseReturn) ∧
    ((first :: rest).any (fun f => f.phase == .base) = false →
      (∀ p ∈ requiredPhases alg, 0 ≤ findPhaseIndex (first :: rest) p) ∧
      List.Chain' (· ≤ ·)
        ((requiredPhases alg).map (findPhaseIndex (first :: rest)))) := by
  unfold validateCallLifecycle at h
  have h' : (if ((first :: rest).any fun f => f.phase == RecursionPhase.base) = true then
      (if first.phase ≠ RecursionPhase.enter then
        [Issue.callMustBeginWithEnter callId] else []) ++
      (if ¬((first :: rest).any fun f => f.phase == RecursionPhase.phaseReturn) = true then
        [Issue.callMissingReturn callId] else []) ++
      (if findPhaseIndex (first :: rest) RecursionPhase.base < 0 ∨
          findPhaseIndex (first :: rest) RecursionPhase.phaseReturn < 0 ∨
          findPhaseIndex (first :: rest) RecursionPhase.base >
            findPhaseIndex (first :: rest) RecursionPhase.phaseReturn then
        [Issue.callBadBaseLifecycle callId] else []) ++
      (if ((first :: rest).any fun f =>
          decide ((f.phase == RecursionPhase.divide) = true ∨
            (f.phase == RecursionPhase.recurseLeft) = true ∨
            (f.phase == RecursionPhase.recurseRight) = true ∨
            (f.phase == RecursionPhase.combine) = true)) = true then
        [Issue.callMixesBaseAndRecursive callId] else [])
    else
      (if first.phase ≠ RecursionPhase.enter then
        [Issue.callMustBeginWithEnter callId] else []) ++
      (if ¬((first :: rest).any fun f => f.phase == RecursionPhase.phaseReturn) = true then
        [Issue.callMissingReturn callId] else []) ++
      ((requiredPhases alg).foldl
        (fun (acc : List Issue × ℤ) phase =>
          let phaseIndex := findPhaseIndex (first :: rest) phase
          if phaseIndex < 0 then
            (acc.1 ++ [.callMissingPhase callId phase], acc.2)
          else if phaseIndex < acc.2 then
            (acc.1 ++ [.callPhaseOutOfOrder callId phase], acc.2)
          else (acc.1, phaseIndex))
        ([], -1)).1) = [] := h
  clear h
  by_cases hbase : ((first :: rest).any fun f => f.phase == RecursionPhase.base) = true
  · rw [if_pos hbase] at h'
    obtain ⟨habc, hmix⟩ := List.append_eq_nil.mp h'
    obtain ⟨hab, horder⟩ := List.append_eq_nil.mp habc
    obtain ⟨hbegin, hret⟩ := List.append_eq_nil.mp hab
    have henter : first.phase = .enter := by
      by_contra hne
      rw [if_pos hne] at hbegin
      cases hbegin
    have hhasret : (first :: rest).any (fun f => f.phase == .phaseReturn) = true := by
      by_contra hnr
      rw [if_pos hnr] at hret
      cases hret
    refine ⟨henter, hhasret, ?_,
      fun hfalse => by rw [hbase] at hfalse; cases hfalse⟩
    intro _
    constructor
    · intro f hf
      have hnot := if_singleton_eq_nil hmix
      simp only [Bool.not_eq_true] at hnot
      rw [List.any_eq_false] at hnot
      have := hnot f hf
      simp only [decide_eq_true_eq, beq_iff_eq] at this
      push_neg at this
      tauto
    · have hbidx : 0 ≤ findPhaseIndex (first :: rest) RecursionPhase.base ∧
          0 ≤ findPhaseIndex (first :: rest) RecursionPhase.phaseReturn ∧
          findPhaseIndex (first :: rest) RecursionPhase.base ≤
            findPhaseIndex (first :: rest) RecursionPhase.phaseReturn := by
        have := if_singleton_eq_nil horder
        push_neg at this
        omega
      obtain ⟨hb0, hr0, hbr⟩ := hbidx
      refine ⟨hb0, lt_of_le_of_ne hbr ?_⟩
      intro heq
      unfold findPhaseIndex at hb0 hr0 heq
      rcases hfb : (first :: rest).findIdx? (fun f => f.phase == RecursionPhase.base)
        with _ | ib'
      · rw [hfb] at hb0
        have hb0' : (0 : ℤ) ≤ -1 := hb0
        omega
      · rcases hfr : (first :: rest).findIdx?
            (fun f => f.phase == RecursionPhase.phaseReturn) with _ | ir'
        · rw [hfr] at hr0
          have hr0' : (0 : ℤ) ≤ -1 := hr0
          omega
        · rw [hfb, hfr] at heq
          have heq' : (ib' : ℤ) = (ir' : ℤ) := heq
          have hii : ib' = ir' := by exact_mod_cast heq'
          subst hii
          obtain ⟨hlt1, hp1, -⟩ := List.findIdx?_eq_some_iff_getElem.mp hfb
          obtain ⟨hlt2, hp2, -⟩ := List.findIdx?_eq_some_iff_getElem.mp hfr
          simp only [beq_iff_eq] at hp1 hp2
          cases hp1.symm.trans hp2
  · rw [if_neg hbase] at h'
    obtain ⟨hab, hfold⟩ := List.append_eq_nil.mp h'
    obtain ⟨hbegin, hret⟩ := List.append_eq_nil.mp hab
    have henter : first.phase = .enter := by
      by_contra hne
      rw [if_pos hne] at hbegin
      cases hbegin
    have hhasret : (first :: rest).any (fun f => f.phase == .phaseReturn) = true := by
      by_contra hnr
      rw [if_pos hnr] at hret
      cases hret
    refine ⟨henter, hhasret,
      fun htrue => by rw [htrue] at hbase; exact absurd rfl hbase, ?_⟩
    intro _
    have := phaseFold_nil (first :: rest) callId (requiredPhases alg) (-1) hfold
    obtain ⟨hall, hchain⟩ := this
    exact ⟨hall, (List.chain'_cons'.mp hchain).2⟩

/-- The first-occurrence fold over `callIdsInOrder` collects exactly the
`callId`s that occur. -/
theorem mem_foldl_firstOccur (l : List String) :
    ∀ (acc : List String) (x : String),
      (x ∈ l.foldl (fun acc c => if c ∈ acc then acc else acc ++ [c]) acc) ↔
        x ∈ acc ∨ x ∈ l := by
  induction l with
  | nil => intro acc x; simp
  | cons c rest ih =>
    intro acc x
    simp only [List.foldl_cons]
    by_cases hc : c ∈ acc
    · rw [if_pos hc, ih]
      constructor
      · rintro (h | h)
        · exact Or.inl h
        · exact Or.inr (List.mem_cons_of_mem _ h)
      · rintro (h | h)
        · exact Or.inl h
        · rcases List.mem_cons.mp h with rfl | h
          · exact Or.inl hc
          · exact Or.inr h
    · rw [if_neg hc, ih]
      constructor
      · rintro (h | h)
        · rcases List.mem_append.mp h with h | h
          · exact Or.inl h
          · simp only [List.mem_singleton] at h
            exact Or.inr (h ▸ List.mem_cons_self _ _)
        · exact Or.inr (List.mem_cons_of_mem _ h)
      · rintro (h | h)
        · exact Or.inl (List.mem_append.mpr (Or.inl h))
        · rcases List.mem_cons.mp h with rfl | h
          · exact Or.inl (List.mem_append.mpr (Or.inr (by simp)))
          · exact Or.inr h

/-- A `callId` in the validator's group map has a non-empty group. -/
theorem framesFor_ne_nil (steps : List StepSpec) (cid : String)
    (h : cid ∈ callIdsInOrder steps) : framesFor steps cid ≠ [] := by
  unfold callIdsInOrder at h
  rw [mem_foldl_firstOccur] at h
  rcases h with h | h
  · cases h
  · obtain ⟨f, hf, hcid⟩ := List.mem_map.mp h
    unfold framesFor
    intro hnil
    have : f ∈ (recFrames steps).filter fun g => g.callId == cid :=
      List.mem_filter.mpr ⟨hf, by simp [hcid]⟩
    rw [hnil] at this
    cases this

/-- C2 (amended): in every accepted spec for a recursive algorithm, every
distinct `callId` group of recursion frames starts with phase `enter` and
contains at least one `return`; a group containing `base` contains none of
`divide`, `recurse-left`, `recurse-right` or `combine` and its first `base`
frame precedes its first `return` frame; any other group contains the
algorithm's required phases with each required phase's first-occurrence
index non-decreasing across that order. -/
theorem C2_lifecycle_amended (j : JsonValue) (spec : ArraysVizSpec)
    (hok : parseAndValidateArraysSpec (some j) = .ok spec)
    (hrec : isRecursiveAlgorithm spec.algorithm = true) :
    ∀ cid ∈ callIdsInOrder spec.steps,
      ∃ first rest, framesFor spec.steps cid = first :: rest ∧
        first.phase = .enter ∧
        (first :: rest).any (fun f => f.phase == .phaseReturn) = true ∧
        ((first :: rest).any (fun f => f.phase == .base) = true →
          (∀ f ∈ first :: rest, f.phase ≠ .divide ∧ f.phase ≠ .recurseLeft ∧
            f.phase ≠ .recurseRight ∧ f.phase ≠ .combine) ∧
          0 ≤ findPhaseIndex (first :: rest) .base ∧
          findPhaseIndex (first :: rest) .base <
            findPhaseIndex (first :: rest) .phaseReturn) ∧
        ((first :: rest).any (fun f => f.phase == .base) = false →
          (∀ p ∈ requiredPhases spec.algorithm,
            0 ≤ findPhaseIndex (first :: rest) p) ∧
          List.Chain' (· ≤ ·)
            ((requiredPhases spec.algorithm).map
              (findPhaseIndex (first :: rest)))) := by
  intro cid hcid
  obtain ⟨-, hiss⟩ := (accepted_iff j spec).mp hok
  obtain ⟨-, hroot⟩ := specIssues_nil spec hiss
  obtain ⟨-, himp⟩ := rootIssues_nil spec hroot
  obtain ⟨-, -, -, -, -, hlife⟩ := himp hrec
  have hne := framesFor_ne_nil spec.steps cid hcid
  rcases hframes : framesFor spec.steps cid with _ | ⟨first, rest⟩
  · exact absurd hframes hne
  · unfold lifecycleIssues at hlife
    have hv := (List.flatMap_eq_nil_iff.mp hlife) cid hcid
    rw [hframes] at hv
    exact ⟨first, rest, rfl,
      validateCallLifecycle_nil spec.algorithm cid first rest hv⟩

/-- Witness for C2's amended claim at `doubleEnterDoc`. -/
theorem C2_lifecycle_amended_witness :
    parseAndValidateArraysSpec (some doubleEnterDoc) =
      .ok (parsedSpecOf doubleEnterDoc) ∧
    isRecursiveAlgorithm (parsedSpecOf doubleEnterDoc).algorithm = true ∧
    (∀ cid ∈ callIdsInOrder (parsedSpecOf doubleEnterDoc).steps,
      ∃ first rest,
        framesFor (parsedSpecOf doubleEnterDoc).steps cid = first :: rest ∧
        first.phase = .enter ∧
        (first :: rest).any (fun f => f.phase == .phaseReturn) = true ∧
        ((first :: rest).any (fun f => f.phase == .base) = true →
          (∀ f ∈ first :: rest, f.phase ≠ .divide ∧ f.phase ≠ .recurseLeft ∧
            f.phase ≠ .recurseRight ∧ f.phase ≠ .combine) ∧
          0 ≤ findPhaseIndex (first :: rest) .base ∧
          findPhaseIndex (first :: rest) .base <
            findPhaseIndex (first :: rest) .phaseReturn) ∧
        ((first :: rest).any (fun f => f.phase == .base) = false →
          (∀ p ∈ requiredPhases (parsedSpecOf doubleEnterDoc).algorithm,
            0 ≤ findPhaseIndex (first :: rest) p) ∧
          List.Chain' (· ≤ ·)
            ((requiredPhases (parsedSpecOf doubleEnterDoc).algorithm).map
              (findPhaseIndex (first :: rest))))) :=
  ⟨by rfl, by rfl,
    C2_lifecycle_amended doubleEnterDoc (parsedSpecOf doubleEnterDoc)
      (by rfl) (by rfl)⟩

/-- Unfolding `specAttemptLoop` when the current candidate validates. -/
theorem specAttemptLoop_ok_step (gen : ℕ → Option JsonValue)
    (ni : NormalizedArraysInput) (r : ℕ) (cand : Option JsonValue)
    (calls : ℕ) (spec : ArraysVizSpec)
    (h : validateCandidate ni cand = .ok spec) :
    specAttemptLoop gen ni r cand calls = (.ok spec, cand, calls) := by
  cases r with
  | zero =>
    have e : specAttemptLoop gen ni 0 cand calls =
        (match validateCandidate ni cand with
          | .ok spec => (Except.ok spec, cand, calls)
          | .error err => (Except.error err, cand, calls)) := rfl
    rw [e, h]
  | succ r =>
    have e : specAttemptLoop gen ni (r + 1) cand calls =
        (match validateCandidate ni cand with
          | .ok spec => (Except.ok spec, cand, calls)
          | .error _ => specAttemptLoop gen ni r (gen calls) (calls + 1)) := rfl
    rw [e, h]

/-- Unfolding `specAttemptLoop` when the candidate fails and repair budget
remains: one more generation call is made. -/
theorem specAttemptLoop_error_step (gen : ℕ → Option JsonValue)
    (ni : NormalizedArraysInput) (r : ℕ) (cand : Option JsonValue)
    (calls : ℕ) (e : SpecError)
    (h : validateCandidate ni cand = .error e) :
    specAttemptLoop gen ni (r + 1) cand calls =
      specAttemptLoop gen ni r (gen calls) (calls + 1) := by
  have heq : specAttemptLoop gen ni (r + 1) cand calls =
      (match validateCandidate ni cand with
        | .ok spec => (Except.ok spec, cand, calls)
        | .error _ => specAttemptLoop gen ni r (gen calls) (calls + 1)) := rfl
  rw [heq, h]

/-- Unfolding `specAttemptLoop` when the candidate fails with no repair
budget left: the loop stops with the last error and candidate. -/
theorem specAttemptLoop_error_zero (gen : ℕ → Option JsonValue)
    (ni : NormalizedArraysInput) (cand : Option JsonValue)
    (calls : ℕ) (e : SpecError)
    (h : validateCandidate ni cand = .error e) :
    specAttemptLoop gen ni 0 cand calls = (.error e, cand, calls) := by
  have heq : specAttemptLoop gen ni 0 cand calls =
      (match validateCandidate ni cand with
        | .ok spec => (Except.ok spec, cand, calls)
        | .error err => (Except.error err, cand, calls)) := rfl
  rw [heq, h]

/-- The loop issues at most `remainingRepairs` further generation calls. -/
theorem specAttemptLoop_calls_le (gen : ℕ → Option JsonValue)
    (ni : NormalizedArraysInput) :
    ∀ (r : ℕ) (cand : Option JsonValue) (calls : ℕ),
      (specAttemptLoop gen ni r cand calls).2.2 ≤ calls + r := by
  intro r
  induction r with
  | zero =>
    intro cand calls
    rcases h : validateCandidate ni cand with e | spec
    · rw [specAttemptLoop_error_zero gen ni cand calls e h]; simp
    · rw [specAttemptLoop_ok_step gen ni 0 cand calls spec h]; simp
  | succ r ih =>
    intro cand calls
    rcases h : validateCandidate ni cand with e | spec
    · rw [specAttemptLoop_error_step gen ni r cand calls e h]
      have := ih (gen calls) (calls + 1)
      omega
    · rw [specAttemptLoop_ok_step gen ni (r + 1) cand calls spec h]
      simp

/-- All branches of `generateValidatedSpec` report the loop's generation
call count. -/
theorem generateValidatedSpec_snd (gen : ℕ → Option JsonValue)
    (ni : NormalizedArraysInput) :
    (generateValidatedSpec gen ni).2 =
      (specAttemptLoop gen ni SPEC_MAX_REPAIR_ATTEMPTS (gen 0) 1).2.2 := by
  have key : ∀ (res : Except SpecError ArraysVizSpec) (cand : Option JsonValue)
      (calls : ℕ),
      ((match res with
        | .ok spec => (Except.ok spec, calls)
        | .error lastValidationError =>
          match (match buildDeterministicFallbackSpec ni with
            | none => none
            | some fallbackSpec =>
              match validateCandidate ni (some (specToJson fallbackSpec)) with
              | .ok validatedFallback => some (Except.ok validatedFallback)
              | .error _ => none) with
          | some r => (r, calls)
          | none =>
            if isRecursiveAlgorithm ni.algorithm then
              match getCandidateStepCount cand with
              | some stepCount =>
                if MAX_TIMELINE_STEPS ≤ stepCount then
                  (Except.error SpecError.stepBudgetExceeded, calls)
                else (Except.error lastValidationError, calls)
              | none => (Except.error lastValidationError, calls)
            else (Except.error lastValidationError, calls) :
          Except SpecError ArraysVizSpec × ℕ)).2 = calls := by
    intro res cand calls
    rcases res with e | spec
    · rcases hfb : buildDeterministicFallbackSpec ni with _ | fb <;> dsimp only
      · split
        · split
          · split <;> rfl
          · rfl
        · rfl
      · rcases hvc : validateCandidate ni (some (specToJson fb)) with e2 | v <;>
          dsimp only
        · split
          · split
            · split <;> rfl
            · rfl
          · rfl
    · rfl
  exact key (specAttemptLoop gen ni SPEC_MAX_REPAIR_ATTEMPTS (gen 0) 1).1
    (specAttemptLoop gen ni SPEC_MAX_REPAIR_ATTEMPTS (gen 0) 1).2.1
    (specAttemptLoop gen ni SPEC_MAX_REPAIR_ATTEMPTS (gen 0) 1).2.2

/-- When the repair loop succeeds, `generateValidatedSpec` returns the
loop's spec and call count unchanged. -/
theorem generateValidatedSpec_of_loop_ok (gen : ℕ → Option JsonValue)
    (ni : NormalizedArraysInput) (spec : ArraysVizSpec)
    (cand : Option JsonValue) (calls : ℕ)
    (h : specAttemptLoop gen ni SPEC_MAX_REPAIR_ATTEMPTS (gen 0) 1 =
      (.ok spec, cand, calls)) :
    generateValidatedSpec gen ni = (.ok spec, calls) := by
  have key : ∀ (lr : Except SpecError ArraysVizSpec × Option JsonValue × ℕ),
      lr = (Except.ok spec, cand, calls) →
      (match lr.1 with
       | .ok s => (Except.ok s, lr.2.2)
       | .error lastValidationError =>
         match (match buildDeterministicFallbackSpec ni with
           | none => none
           | some fallbackSpec =>
             match validateCandidate ni (some (specToJson fallbackSpec)) with
             | .ok validatedFallback => some (Except.ok validatedFallback)
             | .error _ => none) with
         | some r => (r, lr.2.2)
         | none =>
           if isRecursiveAlgorithm ni.algorithm then
             match getCandidateStepCount lr.2.1 with
             | some stepCount =>
               if MAX_TIMELINE_STEPS ≤ stepCount then
                 (Except.error SpecError.stepBudgetExceeded, lr.2.2)
               else (Except.error lastValidationError, lr.2.2)
             | none => (Except.error lastValidationError, lr.2.2)
           else (Except.error lastValidationError, lr.2.2) :
         Except SpecError ArraysVizSpec × ℕ) = (Except.ok spec, calls) := by
    rintro lr rfl
    rfl
  exact key (specAttemptLoop gen ni SPEC_MAX_REPAIR_ATTEMPTS (gen 0) 1) h

/-- C7: the repair loop issues at most 4 generation calls in total (one
initial try plus at most `SPEC_MAX_REPAIR_ATTEMPTS = 3` repairs); and when
the first candidate fails validation while the second passes, the
orchestrator returns the second candidate's spec after exactly 2
generation calls, without consuming the rest of the budget. -/
theorem C7_repair_budget (gen : ℕ → Option JsonValue)
    (ni : NormalizedArraysInput) :
    (generateValidatedSpec gen ni).2 ≤ 4 ∧
    (∀ (e : SpecError) (spec : ArraysVizSpec),
      validateCandidate ni (gen 0) = .error e →
      validateCandidate ni (gen 1) = .ok spec →
      generateValidatedSpec gen ni = (.ok spec, 2)) := by
  constructor
  · rw [generateValidatedSpec_snd]
    have := specAttemptLoop_calls_le gen ni SPEC_MAX_REPAIR_ATTEMPTS (gen 0) 1
    simpa [SPEC_MAX_REPAIR_ATTEMPTS] using this
  · intro e spec h0 h1
    have hloop : specAttemptLoop gen ni SPEC_MAX_REPAIR_ATTEMPTS (gen 0) 1 =
        (.ok spec, gen 1, 2) := by
      have h3 : SPEC_MAX_REPAIR_ATTEMPTS = 2 + 1 := rfl
      rw [h3, specAttemptLoop_error_step gen ni 2 (gen 0) 1 e h0]
      exact specAttemptLoop_ok_step gen ni 2 (gen 1) 2 spec h1
    exact generateValidatedSpec_of_loop_ok gen ni spec (gen 1) 2 hloop

/-- Witness for C7: with this generator the first candidate fails, the
second passes, and the orchestrator returns the second candidate's spec
after exactly 2 generation calls. -/
theorem C7_repair_budget_witness :
    validateCandidate singletonSearchInput (genC7 0) = .error .structuralFail ∧
    validateCandidate singletonSearchInput (genC7 1) =
      .ok (parsedSpecOf noCodeBlockDoc) ∧
    (generateValidatedSpec genC7 singletonSearchInput).2 ≤ 4 ∧
    generateValidatedSpec genC7 singletonSearchInput =
      (.ok (parsedSpecOf noCodeBlockDoc), 2) :=
  ⟨by rfl, by rfl, (C7_repair_budget genC7 singletonSearchInput).1,
    (C7_repair_budget genC7 singletonSearchInput).2 .structuralFail
      (parsedSpecOf noCodeBlockDoc) (by rfl) (by rfl)⟩

/-- `generateValidatedSpec` in terms of an explicit loop outcome. -/
theorem generateValidatedSpec_eq (gen : ℕ → Option JsonValue)
    (ni : NormalizedArraysInput) (res : Except SpecError ArraysVizSpec)
    (cand : Option JsonValue) (calls : ℕ)
    (h : specAttemptLoop gen ni SPEC_MAX_REPAIR_ATTEMPTS (gen 0) 1 =
      (res, cand, calls)) :
    generateValidatedSpec gen ni =
      (match res with
       | .ok spec => (Except.ok spec, calls)
       | .error lastValidationError =>
         match (match buildDeterministicFallbackSpec ni with
           | none => none
           | some fallbackSpec =>
             match validateCandidate ni (some (specToJson fallbackSpec)) with
             | .ok validatedFallback => some (Except.ok validatedFallback)
             | .error _ => none) with
         | some r => (r, calls)
         | none =>
           if isRecursiveAlgorithm ni.algorithm then
             match getCandidateStepCount cand with
             | some stepCount =>
               if MAX_TIMELINE_STEPS ≤ stepCount then
                 (Except.error SpecError.stepBudgetExceeded, calls)
               else (Except.error lastValidationError, calls)
             | none => (Except.error lastValidationError, calls)
           else (Except.error lastValidationError, calls)) := by
  have key : ∀ (lr : Except SpecError ArraysVizSpec × Option JsonValue × ℕ),
      lr = (res, cand, calls) →
      (match lr.1 with
       | .ok s => (Except.ok s, lr.2.2)
       | .error lastValidationError =>
         match (match buildDeterministicFallbackSpec ni with
           | none => none
           | some fallbackSpec =>
             match validateCandidate ni (some (specToJson fallbackSpec)) with
             | .ok validatedFallback => some (Except.ok validatedFallback)
             | .error _ => none) with
         | some r => (r, lr.2.2)
         | none =>
           if isRecursiveAlgorithm ni.algorithm then
             match getCandidateStepCount lr.2.1 with
             | some stepCount =>
               if MAX_TIMELINE_STEPS ≤ stepCount then
                 (Except.error SpecError.stepBudgetExceeded, lr.2.2)
               else (Except.error lastValidationError, lr.2.2)
             | none => (Except.error lastValidationError, lr.2.2)
           else (Except.error lastValidationError, lr.2.2) :
         Except SpecError ArraysVizSpec × ℕ) =
      (match res with
       | .ok spec => (Except.ok spec, calls)
       | .error lastValidationError =>
         match (match buildDeterministicFallbackSpec ni with
           | none => none
           | some fallbackSpec =>
             match validateCandidate ni (some (specToJson fallbackSpec)) with
             | .ok validatedFallback => some (Except.ok validatedFallback)
             | .error _ => none) with
         | some r => (r, calls)
         | none =>
           if isRecursiveAlgorithm ni.algorithm then
             match getCandidateStepCount cand with
             | some stepCount =>
               if MAX_TIMELINE_STEPS ≤ stepCount then
                 (Except.error SpecError.stepBudgetExceeded, calls)
               else (Except.error lastValidationError, calls)
             | none => (Except.error lastValidationError, calls)
           else (Except.error lastValidationError, calls)) := by
    rintro lr rfl
    rcases res with e | s <;> rfl
  exact key (specAttemptLoop gen ni SPEC_MAX_REPAIR_ATTEMPTS (gen 0) 1) h

/-- An accepted candidate passed the full validation and matches the
requested algorithm. -/
theorem exceptBind_ok_inv {α β : Type} {x : Except SpecError α}
    {f : α → Except SpecError β} {b : β} (h : x >>= f = .ok b) :
    ∃ a, x = .ok a ∧ f a = .ok b := by
  rcases x with e | a
  · rw [show (Except.error e >>= f : Except SpecError β) =
        Except.error e from rfl] at h
    cases h
  · refine ⟨a, rfl, ?_⟩
    rw [show (Except.ok a >>= f : Except SpecError β) = f a from rfl] at h
    exact h

theorem validateCandidate_ok (ni : NormalizedArraysInput)
    (cand : Option JsonValue) (spec : ArraysVizSpec)
    (h : validateCandidate ni cand = .ok spec) :
    specIssues spec = [] ∧ spec.algorithm = ni.algorithm := by
  unfold validateCandidate at h
  obtain ⟨s, hp, hrest⟩ := exceptBind_ok_inv h
  obtain ⟨u, hm, hpure⟩ := exceptBind_ok_inv hrest
  have hpure' : Except.ok s = Except.ok spec := hpure
  cases hpure'
  have halg : spec.algorithm = ni.algorithm := by
    have hm' : (if spec.algorithm ≠ ni.algorithm then
        Except.error (SpecError.algorithmMismatch ni.algorithm spec.algorithm)
      else Except.ok ()) = Except.ok u := hm
    by_contra hne
    rw [if_pos hne] at hm'
    cases hm'
  refine ⟨?_, halg⟩
  rcases cand with _ | j
  · rw [show parseAndValidateArraysSpec none = .error .notJson from rfl] at hp
    cases hp
  · exact ((accepted_iff j spec).mp hp).2

/-- If the repair loop succeeds, its final candidate validated to the
returned spec. -/
theorem specAttemptLoop_ok_inv (gen : ℕ → Option JsonValue)
    (ni : NormalizedArraysInput) :
    ∀ (r : ℕ) (cand : Option JsonValue) (calls : ℕ)
      (spec : ArraysVizSpec) (candOut : Option JsonValue) (callsOut : ℕ),
      specAttemptLoop gen ni r cand calls = (.ok spec, candOut, callsOut) →
      validateCandidate ni candOut = .ok spec := by
  intro r
  induction r with
  | zero =>
    intro cand calls spec candOut callsOut h
    rcases hv : validateCandidate ni cand with e | s
    · rw [specAttemptLoop_error_zero gen ni cand calls e hv] at h
      cases h
    · rw [specAttemptLoop_ok_step gen ni 0 cand calls s hv] at h
      injection h with h1 h23
      injection h23 with h2 h3
      injection h1 with hs
      subst hs h2
      exact hv
  | succ r ih =>
    intro cand calls spec candOut callsOut h
    rcases hv : validateCandidate ni cand with e | s
    · rw [specAttemptLoop_error_step gen ni r cand calls e hv] at h
      exact ih (gen calls) (calls + 1) spec candOut callsOut h
    · rw [specAttemptLoop_ok_step gen ni (r + 1) cand calls s hv] at h
      injection h with h1 h23
      injection h23 with h2 h3
      injection h1 with hs
      subst hs h2
      exact hv

/-- The error tail of `generateValidatedSpec` never produces an `ok`
outcome. -/
theorem errTail_ne_ok (ni : NormalizedArraysInput) (candL : Option JsonValue)
    (callsL : ℕ) (e : SpecError) (spec : ArraysVizSpec) (calls : ℕ) :
    (if isRecursiveAlgorithm ni.algorithm then
       match getCandidateStepCount candL with
       | some stepCount =>
         if MAX_TIMELINE_STEPS ≤ stepCount then
           (Except.error SpecError.stepBudgetExceeded, callsL)
         else (Except.error e, callsL)
       | none => (Except.error e, callsL)
     else (Except.error e, callsL) : Except SpecError ArraysVizSpec × ℕ) ≠
      (Except.ok spec, calls) := by
  intro hok
  split at hok
  · split at hok
    · split at hok <;> exact Except.noConfusion (congrArg Prod.fst hok)
    · exact Except.noConfusion (congrArg Prod.fst hok)
  · exact Except.noConfusion (congrArg Prod.fst hok)

/-- C1 (amended): the orchestrator never returns a spec that failed
validation — every returned spec has an empty issue list and the requested
algorithm; and after four consecutive invalid candidates for an algorithm
with no deterministic fallback it raises the last candidate's validation
error, unless the algorithm is recursive and the last candidate parses
with a `steps` array of at least `MAX_TIMELINE_STEPS` entries, in which
case the step-budget diagnostic replaces that error. -/
theorem C1_orchestrator_amended (gen : ℕ → Option JsonValue)
    (ni : NormalizedArraysInput) :
    (∀ spec calls, generateValidatedSpec gen ni = (.ok spec, calls) →
      specIssues spec = [] ∧ spec.algorithm = ni.algorithm) ∧
    (∀ (e0 e1 e2 e3 : SpecError),
      validateCandidate ni (gen 0) = .error e0 →
      validateCandidate ni (gen 1) = .error e1 →
      validateCandidate ni (gen 2) = .error e2 →
      validateCandidate ni (gen 3) = .error e3 →
      buildDeterministicFallbackSpec ni = none →
      ((isRecursiveAlgorithm ni.algorithm = true ∧
        ∃ sc, getCandidateStepCount (gen 3) = some sc ∧
          MAX_TIMELINE_STEPS ≤ sc) →
        generateValidatedSpec gen ni = (.error .stepBudgetExceeded, 4)) ∧
      (¬(isRecursiveAlgorithm ni.algorithm = true ∧
        ∃ sc, getCandidateStepCount (gen 3) = some sc ∧
          MAX_TIMELINE_STEPS ≤ sc) →
        generateValidatedSpec gen ni = (.error e3, 4))) := by
  constructor
  · rcases hres : specAttemptLoop gen ni SPEC_MAX_REPAIR_ATTEMPTS (gen 0) 1
      with ⟨res, candL, callsL⟩
    have heq := generateValidatedSpec_eq gen ni res candL callsL hres
    intro spec calls hok
    rw [heq] at hok
    rcases res with e | s
    · dsimp only at hok
      rcases hfb : buildDeterministicFallbackSpec ni with _ | fb
      · rw [hfb] at hok
        dsimp only at hok
        exact absurd hok (errTail_ne_ok ni candL callsL e spec calls)
      · rw [hfb] at hok
        dsimp only at hok
        rcases hvc : validateCandidate ni (some (specToJson fb)) with e2 | v
        · rw [hvc] at hok
          dsimp only at hok
          exact absurd hok (errTail_ne_ok ni candL callsL e spec calls)
        · rw [hvc] at hok
          dsimp only at hok
          have hv : v = spec := Except.ok.inj (congrArg Prod.fst hok)
          subst hv
          exact validateCandidate_ok ni (some (specToJson fb)) v hvc
    · have hs : s = spec := Except.ok.inj (congrArg Prod.fst hok)
      subst hs
      exact validateCandidate_ok ni candL s
        (specAttemptLoop_ok_inv gen ni SPEC_MAX_REPAIR_ATTEMPTS (gen 0) 1
          s candL callsL hres)
  · intro e0 e1 e2 e3 h0 h1 h2 h3 hfb
    have s1 := specAttemptLoop_error_step gen ni 2 (gen 0) 1 e0 h0
    have s2 := specAttemptLoop_error_step gen ni 1 (gen 1) 2 e1 h1
    have s3 := specAttemptLoop_error_step gen ni 0 (gen 2) 3 e2 h2
    have s4 := specAttemptLoop_error_zero gen ni (gen 3) 4 e3 h3
    have hloop : specAttemptLoop gen ni SPEC_MAX_REPAIR_ATTEMPTS (gen 0) 1 =
        (.error e3, gen 3, 4) := by
      calc specAttemptLoop gen ni SPEC_MAX_REPAIR_ATTEMPTS (gen 0) 1
          = specAttemptLoop gen ni 2 (gen 1) 2 := s1
        _ = specAttemptLoop gen ni 1 (gen 2) 3 := s2
        _ = specAttemptLoop gen ni 0 (gen 3) 4 := s3
        _ = (.error e3, gen 3, 4) := s4
    have heq := generateValidatedSpec_eq gen ni (.error e3) (gen 3) 4 hloop
    rw [hfb] at heq
    have heq2 : generateValidatedSpec gen ni =
        (if isRecursiveAlgorithm ni.algorithm then
           match getCandidateStepCount (gen 3) with
           | some stepCount =>
             if MAX_TIMELINE_STEPS ≤ stepCount then
               (Except.error SpecError.stepBudgetExceeded, 4)
             else (Except.error e3, 4)
           | none => (Except.error e3, 4)
         else (Except.error e3, 4)) := heq
    constructor
    · rintro ⟨hrec, sc, hsc, hle⟩
      rw [heq2, if_pos hrec, hsc]
      dsimp only
      rw [if_pos hle]
    · intro hneg
      rw [heq2]
      by_cases hrec : isRecursiveAlgorithm ni.algorithm = true
      · rw [if_pos hrec]
        rcases hsc : getCandidateStepCount (gen 3) with _ | sc
        · rfl
        · have hlt : ¬MAX_TIMELINE_STEPS ≤ sc := fun hle =>
            hneg ⟨hrec, sc, hsc, hle⟩
          dsimp only
          rw [if_neg hlt]
      · rw [if_neg hrec]

/-- Witness for C1's amended claim: a first-try success (the returned spec
validated and matches the algorithm) and a budget exhaustion for mergesort
(no fallback) where the 301-step last candidate triggers the step-budget
diagnostic. -/
theorem C1_orchestrator_amended_witness :
    (generateValidatedSpec (fun _ => some noCodeBlockDoc) singletonSearchInput =
        (.ok (parsedSpecOf noCodeBlockDoc), 1) ∧
      specIssues (parsedSpecOf noCodeBlockDoc) = [] ∧
      (parsedSpecOf noCodeBlockDoc).algorithm = singletonSearchInput.algorithm) ∧
    (validateCandidate mergesortPairInput (some junkStepsDoc) =
        .error .structuralFail ∧
      buildDeterministicFallbackSpec mergesortPairInput = none ∧
      isRecursiveAlgorithm mergesortPairInput.algorithm = true ∧
      getCandidateStepCount (some junkStepsDoc) = some 301 ∧
      MAX_TIMELINE_STEPS ≤ 301 ∧
      generateValidatedSpec (fun _ => some junkStepsDoc) mergesortPairInput =
        (.error .stepBudgetExceeded, 4)) := by
  refine ⟨⟨by rfl, ?_⟩, by rfl, by rfl, by rfl, by rfl, by decide, ?_⟩
  · exact (C1_orchestrator_amended (fun _ => some noCodeBlockDoc)
      singletonSearchInput).1 (parsedSpecOf noCodeBlockDoc) 1 (by rfl)
  · exact ((C1_orchestrator_amended (fun _ => some junkStepsDoc)
      mergesortPairInput).2 .structuralFail .structuralFail .structuralFail
      .structuralFail (by rfl) (by rfl) (by rfl) (by rfl) (by rfl)).1
      ⟨by rfl, 301, by rfl, by decide⟩

/-! ## Serialization/parse roundtrips (used for the fallback validity) -/

/-- `parseIntNum` inverts `jint`. -/
theorem parseIntNum_jint (i : ℤ) : parseIntNum (jint i) = some i := by
  show (some ((i : ℚ)) >>= fun q =>
    if q.den = 1 then pure q.num else none) = some i
  simp [Rat.den_intCast, Rat.num_intCast]

/-- `parseFiniteNum` inverts `jnum`. -/
theorem parseFiniteNum_jnum (q : ℚ) : parseFiniteNum (jnum q) = some q := rfl

/-- `parseStrMin1` inverts `.str` on non-empty strings. -/
theorem parseStrMin1_str (s : String) (h : 1 ≤ s.length) :
    parseStrMin1 (.str s) = some s := by
  show (some s >>= fun s => if 1 ≤ s.length then pure s else none) = some s
  simp [h]

/-- `parsePhase` inverts `phaseToStr`. -/
theorem parsePhase_toStr (p : RecursionPhase) :
    parsePhase (.str (phaseToStr p)) = some p := by
  cases p <;> rfl

/-- `parseOutcome` inverts `outcomeToStr`. -/
theorem parseOutcome_toStr (oc : CompareOutcome) :
    parseOutcome (.str (outcomeToStr oc)) = some oc := by
  cases oc <;> rfl

/-- `parseAlgorithm` inverts `algorithmToStr`. -/
theorem parseAlgorithm_toStr (a : ArraysAlgorithm) :
    parseAlgorithm (.str (algorithmToStr a)) = some a := by
  cases a <;> rfl

/-- `parseComponentType` inverts `componentTypeToStr`. -/
theorem parseComponentType_toStr (t : RegistryComponentType) :
    parseComponentType (.str (componentTypeToStr t)) = some t := by
  cases t <;> rfl

/-- `parseRange` inverts `rangeToJson`. -/
theorem parseRange_toJson (r : RangeSpec) :
    parseRange (rangeToJson r) = some r := by
  show (if keysSubset [("l", jint r.l), ("r", jint r.r)] ["l", "r"] then do
      let l ← reqF [("l", jint r.l), ("r", jint r.r)] "l" parseIntNum
      let rr ← reqF [("l", jint r.l), ("r", jint r.r)] "r" parseIntNum
      pure (⟨l, rr⟩ : RangeSpec)
    else none) = some r
  rw [if_pos (by rfl)]
  show (parseIntNum (jint r.l) >>= fun l =>
    parseIntNum (jint r.r) >>= fun rr => pure (⟨l, rr⟩ : RangeSpec)) = some r
  rw [parseIntNum_jint, parseIntNum_jint]
  rfl

/-- `parseFiniteNumList` inverts elementwise `jnum`. -/
theorem parseFiniteNumList_map (xs : List ℚ) :
    parseFiniteNumList (.arr (xs.map jnum)) = some xs := by
  show (xs.map jnum).mapM parseFiniteNum = some xs
  exact mapM_map_some parseFiniteNum jnum xs fun a _ => rfl

/-- `parseIntRecord` inverts the pointers serialization. -/
theorem parseIntRecord_map (ps : List (String × ℤ)) :
    parseIntRecord (.obj (ps.map fun p => (p.1, jint p.2))) = some ps := by
  show ((ps.map fun p => (p.1, jint p.2)).mapM fun f =>
    (parseIntNum f.2).map fun n => (f.1, n)) = some ps
  refine mapM_map_some _ _ ps fun p _ => ?_
  show (parseIntNum (jint p.2)).map (fun n => (p.1, n)) = some p
  rw [parseIntNum_jint]
  rfl

/-- `parseStack` inverts the stack serialization for stacks of at most 128
entries. -/
theorem parseStack_map (s : List String) (h : s.length ≤ 128) :
    parseStack (.arr (s.map .str)) = some s := by
  show ((s.map JsonValue.str).mapM parseStr >>= fun ss =>
    if ss.length ≤ 128 then pure ss else none) = some s
  rw [mapM_map_some parseStr JsonValue.str s fun a _ => rfl]
  simp [h]

/-- `parseNumberArray` inverts the array serialization for 1 to 32
entries. -/
theorem parseNumberArray_map (xs : List ℚ) (h1 : 1 ≤ xs.length)
    (h2 : xs.length ≤ MAX_ARRAY_LENGTH) :
    parseNumberArray (.arr (xs.map jnum)) = some xs := by
  show ((xs.map jnum).mapM parseFiniteNum >>= fun ns =>
    if 1 ≤ ns.length ∧ ns.length ≤ MAX_ARRAY_LENGTH then pure ns else none) =
    some xs
  rw [mapM_map_some parseFiniteNum jnum xs fun a _ => rfl]
  simp [h1, h2]

/-- `parsePartitionState` inverts `partitionToJson`. -/
theorem parsePartitionState_toJson (p : PartitionState) :
    parsePartitionState (partitionToJson p) = some p := by
  show (if keysSubset [("pivotIndex", jint p.pivotIndex),
        ("less", .arr (p.less.map jnum)), ("greater", .arr (p.greater.map jnum))]
        ["pivotIndex", "less", "greater"] then do
      let pivotIndex ← parseIntNum (jint p.pivotIndex)
      let less ← parseFiniteNumList (.arr (p.less.map jnum))
      let greater ← parseFiniteNumList (.arr (p.greater.map jnum))
      pure (⟨pivotIndex, less, greater⟩ : PartitionState)
    else none) = some p
  rw [if_pos (by rfl), parseIntNum_jint]
  show (parseFiniteNumList (.arr (p.less.map jnum)) >>= fun less =>
    parseFiniteNumList (.arr (p.greater.map jnum)) >>= fun greater =>
      pure (⟨p.pivotIndex, less, greater⟩ : PartitionState)) = some p
  rw [parseFiniteNumList_map, parseFiniteNumList_map]
  rfl

/-- `findField` over an appended field list: first list wins. -/
theorem findField_append (l1 l2 : List (String × JsonValue)) (key : String) :
    findField (l1 ++ l2) key =
      (findField l1 key).or (findField l2 key) := by
  induction l1 with
  | nil => rfl
  | cons f rest ih =>
    rcases f with ⟨k, v⟩
    by_cases hk : k = key
    · simp [findField, hk]
    · simp [findField, hk, ih]

/-- `findField` of an `optField` at its own key. -/
theorem findField_optField_self (key : String) (ov : Option JsonValue) :
    findField (optField key ov) key = ov := by
  cases ov <;> simp [optField, findField]

/-- `findField` of an `optField` at a different key. -/
theorem findField_optField_ne (key key' : String) (ov : Option JsonValue)
    (h : key ≠ key') : findField (optField key' ov) key = none := by
  cases ov with
  | none => rfl
  | some v =>
    simp only [optField, findField]
    rw [if_neg fun hh : key' = key => h hh.symm]

/-- `keysSubset` over an appended field list. -/
theorem keysSubset_append (l1 l2 : List (String × JsonValue))
    (allowed : List String) :
    keysSubset (l1 ++ l2) allowed =
      (keysSubset l1 allowed && keysSubset l2 allowed) := by
  simp [keysSubset, List.all_append]

/-- `keysSubset` of an `optField` whose key is allowed. -/
theorem keysSubset_optField (key : String) (ov : Option JsonValue)
    (allowed : List String) (h : allowed.contains key = true) :
    keysSubset (optField key ov) allowed = true := by
  cases ov <;> simp_all [optField, keysSubset]

/-- `optF` inverts an optional serialized field. -/
theorem optF_map_inv {α : Type} (key : String) (ov : Option α)
    (ser : α → JsonValue) (p : JsonValue → Option α)
    (fields : List (String × JsonValue))
    (hff : findField fields key = ov.map ser)
    (hp : ∀ a, ov = some a → p (ser a) = some a) :
    optF fields key p = some ov := by
  cases ov with
  | none => simp [optF, hff]
  | some a => simp [optF, hff, hp a rfl]

/-- `parseEvent` inverts `eventToJson`. -/
theorem parseEvent_toJson (ev : StepEvent) :
    parseEvent (eventToJson ev) = some ev := by
  rcases ev with ⟨i, j⟩ | ⟨i, j, oc⟩
  · show (if keysSubset [("type", .str "swap"), ("i", jint i), ("j", jint j)]
        ["type", "i", "j"] then do
        let i' ← parseIntNum (jint i)
        let j' ← parseIntNum (jint j)
        pure (StepEvent.swap i' j')
      else none) = some (StepEvent.swap i j)
    rw [if_pos (by rfl), parseIntNum_jint]
    show (parseIntNum (jint j) >>= fun j' => pure (StepEvent.swap i j')) =
      some (StepEvent.swap i j)
    rw [parseIntNum_jint]
    rfl
  · rcases oc with _ | o
    · show (if keysSubset [("type", .str "compare"), ("i", jint i), ("j", jint j)]
          ["type", "i", "j", "outcome"] then do
          let i' ← parseIntNum (jint i)
          let j' ← parseIntNum (jint j)
          let oc' ← optF [("type", .str "compare"), ("i", jint i), ("j", jint j)]
            "outcome" parseOutcome
          pure (StepEvent.compare i' j' oc')
        else none) = some (StepEvent.compare i j none)
      rw [if_pos (by rfl), parseIntNum_jint]
      show (parseIntNum (jint j) >>= fun j' =>
        (some none : Option (Option CompareOutcome)) >>= fun oc' =>
          pure (StepEvent.compare i j' oc')) = some (StepEvent.compare i j none)
      rw [parseIntNum_jint]
      rfl
    · show (if keysSubset [("type", .str "compare"), ("i", jint i), ("j", jint j),
            ("outcome", .str (outcomeToStr o))]
          ["type", "i", "j", "outcome"] then do
          let i' ← parseIntNum (jint i)
          let j' ← parseIntNum (jint j)
          let oc' ← optF [("type", .str "compare"), ("i", jint i), ("j", jint j),
            ("outcome", .str (outcomeToStr o))] "outcome" parseOutcome
          pure (StepEvent.compare i' j' oc')
        else none) = some (StepEvent.compare i j (some o))
      rw [if_pos (by rfl), parseIntNum_jint]
      show (parseIntNum (jint j) >>= fun j' =>
        ((parseOutcome (.str (outcomeToStr o))).map some :
          Option (Option CompareOutcome)) >>= fun oc' =>
          pure (StepEvent.compare i j' oc')) = some (StepEvent.compare i j (some o))
      rw [parseIntNum_jint, parseOutcome_toStr]
      rfl

/-- `parseEvents` inverts the events serialization for at most 48
events. -/
theorem parseEvents_map (evs : List StepEvent) (h : evs.length ≤ 48) :
    parseEvents (.arr (evs.map eventToJson)) = some evs := by
  show ((evs.map eventToJson).mapM parseEvent >>= fun es =>
    if es.length ≤ 48 then pure es else none) = some evs
  rw [mapM_map_some parseEvent eventToJson evs fun a _ => parseEvent_toJson a]
  simp [h]

/-- `parseRecursion` inverts `recursionToJson` for well-formed recursion
objects. -/
theorem parseRecursion_toJson (r : RecursionState)
    (hc : 1 ≤ r.callId.length) (hf : 1 ≤ r.fn.length) (ha : 1 ≤ r.args.length)
    (hp : ∀ p, r.parentCallId = some p → 1 ≤ p.length)
    (hd : 0 ≤ r.depth) :
    parseRecursion (recursionToJson r) = some r := by
  rcases r with ⟨cid, pc, fn, depth, ph, args⟩
  dsimp only at hc hf ha hd hp
  rcases pc with _ | p
  · simp [parseRecursion, recursionToJson, asObj, reqF, optF, findField,
      keysSubset, optField, parseStrMin1, parseStr, parseIntNum_jint,
      parsePhase_toStr, hc, hf, ha, hd]
  · have hp' := hp p rfl
    simp [parseRecursion, recursionToJson, asObj, reqF, optF, findField,
      keysSubset, optField, parseStrMin1, parseStr, parseIntNum_jint,
      parsePhase_toStr, hc, hf, ha, hd, hp']

/-- A scrutinee-preserving `Option` match. -/
theorem option_match_id {α : Type} (o : Option α) :
    (match o with | some v => some v | none => none) = o := by
  cases o <;> rfl

/-- `parseStepState` on an object whose fields parse as required. -/
theorem parseStepState_fields (fields : List (String × JsonValue)) (st : StepState)
    (hks : keysSubset fields
      ["array", "pointers", "range", "stack", "recursion", "partition", "merge"] =
      true)
    (hA : findField fields "array" = some (.arr (st.array.map jnum)))
    (h1 : 1 ≤ st.array.length) (h2 : st.array.length ≤ MAX_ARRAY_LENGTH)
    (hP : optF fields "pointers" parseIntRecord = some st.pointers)
    (hR : optF fields "range" parseRange = some st.range)
    (hS : optF fields "stack" parseStack = some st.stack)
    (hRec : optF fields "recursion" parseRecursion = some st.recursion)
    (hPrt : optF fields "partition" parsePartitionState = some st.partition)
    (hM : optF fields "merge" parseMergeState = some st.merge) :
    parseStepState (.obj fields) = some st := by
  simp [parseStepState, asObj, reqF, hA, hP, hR, hS, hRec, hPrt, hM, hks,
    parseNumberArray_map _ h1 h2]

/-- `parseStepState` inverts `stepStateToJson` for well-formed step
states. -/
theorem parseStepState_toJson (st : StepState)
    (h1 : 1 ≤ st.array.length) (h2 : st.array.length ≤ MAX_ARRAY_LENGTH)
    (hs : ∀ s, st.stack = some s → s.length ≤ 128)
    (hr : ∀ r, st.recursion = some r →
      parseRecursion (recursionToJson r) = some r)
    (hm : ∀ m, st.merge = some m →
      parseMergeState (mergeToJson m) = some m) :
    parseStepState (stepStateToJson st) = some st := by
  obtain ⟨arr, ptr, rng, stk, rcn, prt, mrg⟩ := st
  dsimp only at h1 h2 hs hr hm ⊢
  refine parseStepState_fields _ ⟨arr, ptr, rng, stk, rcn, prt, mrg⟩ ?_
    (by simp [findField_append, findField_optField_self, findField_optField_ne,
      findField, option_match_id])
    h1 h2 ?_ ?_ ?_ ?_ ?_ ?_
  · rw [show ∀ l1 l2 l3 l4 l5 l6 l7 : List (String × JsonValue),
        l1 ++ l2 ++ l3 ++ l4 ++ l5 ++ l6 ++ l7 =
        l1 ++ (l2 ++ (l3 ++ (l4 ++ (l5 ++ (l6 ++ l7)))))
      from fun _ _ _ _ _ _ _ => by simp]
    rw [keysSubset_append, keysSubset_append, keysSubset_append,
      keysSubset_append, keysSubset_append, keysSubset_append]
    rw [keysSubset_optField _ _ _ (by rfl), keysSubset_optField _ _ _ (by rfl),
      keysSubset_optField _ _ _ (by rfl), keysSubset_optField _ _ _ (by rfl),
      keysSubset_optField _ _ _ (by rfl), keysSubset_optField _ _ _ (by rfl)]
    rfl
  · exact optF_map_inv _ _ _ _ _
      (by simp [findField_append, findField_optField_self, findField_optField_ne,
        findField, option_match_id])
      (fun a _ => parseIntRecord_map a)
  · exact optF_map_inv _ _ _ _ _
      (by simp [findField_append, findField_optField_self, findField_optField_ne,
        findField, option_match_id])
      (fun a _ => parseRange_toJson a)
  · exact optF_map_inv _ _ _ _ _
      (by simp [findField_append, findField_optField_self, findField_optField_ne,
        findField, option_match_id])
      (fun a ha => parseStack_map a (hs a ha))
  · exact optF_map_inv _ _ _ _ _
      (by simp [findField_append, findField_optField_self, findField_optField_ne,
        findField, option_match_id])
      (fun a ha => hr a ha)
  · exact optF_map_inv _ _ _ _ _
      (by simp [findField_append, findField_optField_self, findField_optField_ne,
        findField, option_match_id])
      (fun a _ => parsePartitionState_toJson a)
  · exact optF_map_inv _ _ _ _ _
      (by simp [findField_append, findField_optField_self, findField_optField_ne,
        findField, option_match_id])
      (fun a ha => hm a ha)

/-- `parseStep` inverts `stepToJson` for well-formed steps. -/
theorem parseStep_toJson (st : StepSpec)
    (hid : 1 ≤ st.id.length) (hcap : 1 ≤ st.caption.length)
    (hacl : 1 ≤ st.activeCodeLine)
    (hstate : parseStepState (stepStateToJson st.state) = some st.state)
    (hev : ∀ evs, st.events = some evs → evs.length ≤ 48) :
    parseStep (stepToJson st) = some st := by
  obtain ⟨sid, cap, acl, state, evs⟩ := st
  dsimp only at hid hcap hacl hstate hev ⊢
  rcases evs with _ | es
  · simp [parseStep, stepToJson, asObj, reqF, optF, findField, keysSubset,
      optField, parseStrMin1, parseStr, parseIntNum_jint, hid, hcap, hacl,
      hstate]
  · have h48 := hev es rfl
    simp [parseStep, stepToJson, asObj, reqF, optF, findField, keysSubset,
      optField, parseStrMin1, parseStr, parseIntNum_jint, hid, hcap, hacl,
      hstate, parseEvents_map es h48]

/-- `parseComponent` inverts `componentToJson` for well-formed
components. -/
theorem parseComponent_toJson (c : RegistryComponentRef)
    (hid : 1 ≤ c.id.length)
    (hprops : ∀ ps, c.props = some ps →
      (ps.all fun f => isPrimitivePropValue f.2) = true) :
    parseComponent (componentToJson c) = some c := by
  obtain ⟨cid, ty, props⟩ := c
  dsimp only at hid hprops ⊢
  rcases props with _ | ps
  · simp [parseComponent, componentToJson, asObj, reqF, optF, findField,
      keysSubset, optField, parseStrMin1, parseStr, parseComponentType_toStr,
      hid]
  · have hp := hprops ps rfl
    simp [parseComponent, componentToJson, asObj, reqF, optF, findField,
      keysSubset, optField, parseStrMin1, parseStr, parseComponentType_toStr,
      hid, hp]

/-- `parseCodeLines` inverts the code serialization. -/
theorem parseCodeLines_map (lines : List String)
    (h1 : 1 ≤ lines.length) (h2 : lines.length ≤ MAX_CODE_LINES)
    (hmin : ∀ s ∈ lines, 1 ≤ s.length) :
    parseCodeLines (.obj [("lines", .arr (lines.map .str))]) = some lines := by
  show ((lines.map JsonValue.str).mapM parseStrMin1 >>= fun ls =>
    if 1 ≤ ls.length ∧ ls.length ≤ MAX_CODE_LINES then pure ls else none) =
    some lines
  rw [mapM_map_some parseStrMin1 JsonValue.str lines
    (fun a ha => parseStrMin1_str a (hmin a ha))]
  simp [h1, h2]

/-- `parseScene` inverts the scene serialization. -/
theorem parseScene_map (comps : List RegistryComponentRef)
    (h1 : 1 ≤ comps.length) (h2 : comps.length ≤ 32)
    (hc : ∀ c ∈ comps, parseComponent (componentToJson c) = some c) :
    parseScene (.obj [("components", .arr (comps.map componentToJson))]) =
      some comps := by
  show ((comps.map componentToJson).mapM parseComponent >>= fun cs =>
    if 1 ≤ cs.length ∧ cs.length ≤ 32 then pure cs else none) = some comps
  rw [mapM_map_some parseComponent componentToJson comps hc]
  simp [h1, h2]

/-- `parseSpec` inverts `specToJson` for well-formed specs. -/
theorem parseSpec_toJson (spec : ArraysVizSpec)
    (hv : spec.version = "1.0")
    (ht1 : 1 ≤ spec.title.length) (ht2 : spec.title.length ≤ 140)
    (hcode : parseCodeLines (.obj [("lines", .arr (spec.codeLines.map .str))]) =
      some spec.codeLines)
    (hscene : parseScene
      (.obj [("components", .arr (spec.components.map componentToJson))]) =
      some spec.components)
    (hsteps : ∀ st ∈ spec.steps, parseStep (stepToJson st) = some st)
    (hn1 : 1 ≤ spec.steps.length) (hn2 : spec.steps.length ≤ MAX_TIMELINE_STEPS) :
    parseSpec (specToJson spec) = some spec := by
  obtain ⟨v, alg, title, lines, comps, steps⟩ := spec
  dsimp only at hv ht1 ht2 hcode hscene hsteps hn1 hn2 ⊢
  subst hv
  show (parseAlgorithm (.str (algorithmToStr alg)) >>= fun a =>
    if 1 ≤ title.length ∧ title.length ≤ 140 then
      parseCodeLines (.obj [("lines", .arr (lines.map .str))]) >>= fun cls =>
      parseScene (.obj [("components", .arr (comps.map componentToJson))]) >>=
        fun cs =>
      (steps.map stepToJson).mapM parseStep >>= fun sts =>
      if 1 ≤ sts.length ∧ sts.length ≤ MAX_TIMELINE_STEPS then
        pure (⟨"1.0", a, title, cls, cs, sts⟩ : ArraysVizSpec)
      else none
    else none) = some ⟨"1.0", alg, title, lines, comps, steps⟩
  rw [parseAlgorithm_toStr]
  show (if 1 ≤ title.length ∧ title.length ≤ 140 then
      parseCodeLines (.obj [("lines", .arr (lines.map .str))]) >>= fun cls =>
      parseScene (.obj [("components", .arr (comps.map componentToJson))]) >>=
        fun cs =>
      (steps.map stepToJson).mapM parseStep >>= fun sts =>
      if 1 ≤ sts.length ∧ sts.length ≤ MAX_TIMELINE_STEPS then
        pure (⟨"1.0", alg, title, cls, cs, sts⟩ : ArraysVizSpec)
      else none
    else none) = some ⟨"1.0", alg, title, lines, comps, steps⟩
  rw [if_pos ⟨ht1, ht2⟩, hcode]
  show (parseScene (.obj [("components", .arr (comps.map componentToJson))]) >>=
      fun cs =>
    (steps.map stepToJson).mapM parseStep >>= fun sts =>
    if 1 ≤ sts.length ∧ sts.length ≤ MAX_TIMELINE_STEPS then
      pure (⟨"1.0", alg, title, lines, cs, sts⟩ : ArraysVizSpec)
    else none) = some ⟨"1.0", alg, title, lines, comps, steps⟩
  rw [hscene]
  show ((steps.map stepToJson).mapM parseStep >>= fun sts =>
    if 1 ≤ sts.length ∧ sts.length ≤ MAX_TIMELINE_STEPS then
      pure (⟨"1.0", alg, title, lines, comps, sts⟩ : ArraysVizSpec)
    else none) = some ⟨"1.0", alg, title, lines, comps, steps⟩
  rw [mapM_map_some parseStep stepToJson steps hsteps]
  simp [hn1, hn2]

/-! ## Decimal rendering facts -/

/-- Decoding a digit character. -/
theorem digitChar_toNat (n : ℕ) (h : n < 10) :
    (Nat.digitChar n).toNat - 48 = n := by
  interval_cases n <;> rfl

/-- Folding the decimal decoder over rendered digits recovers the
number. -/
theorem natToCharsAux_val :
    ∀ (fuel n : ℕ), n < fuel → ∀ acc,
      (natToCharsAux fuel n).foldl (fun a c => a * 10 + (c.toNat - 48)) acc =
        acc * 10 ^ (natToCharsAux fuel n).length + n := by
  intro fuel
  induction fuel with
  | zero => intro n h; omega
  | succ fuel ih =>
    intro n h acc
    by_cases h10 : n < 10
    · have hrw : natToCharsAux (fuel + 1) n = [Nat.digitChar n] := by
        show (if n < 10 then [Nat.digitChar n]
          else natToCharsAux fuel (n / 10) ++ [Nat.digitChar (n % 10)]) = _
        rw [if_pos h10]
      rw [hrw]
      simp [List.foldl, digitChar_toNat n h10]
    · have hrw : natToCharsAux (fuel + 1) n =
          natToCharsAux fuel (n / 10) ++ [Nat.digitChar (n % 10)] := by
        show (if n < 10 then [Nat.digitChar n]
          else natToCharsAux fuel (n / 10) ++ [Nat.digitChar (n % 10)]) = _
        rw [if_neg h10]
      rw [hrw, List.foldl_append, List.length_append]
      have hdiv : n / 10 < fuel := by omega
      rw [ih (n / 10) hdiv acc]
      simp [List.foldl, digitChar_toNat (n % 10) (by omega), pow_succ]
      ring_nf
      omega

/-- `natToChars` is injective. -/
theorem natToChars_injective (n m : ℕ) (h : natToChars n = natToChars m) :
    n = m := by
  have hn := natToCharsAux_val (n + 1) n (by omega) 0
  have hm := natToCharsAux_val (m + 1) m (by omega) 0
  unfold natToChars at h
  rw [h] at hn
  omega

/-- Distinct generated `callId`s are distinct strings. -/
theorem qid_injective (n m : ℕ)
    (h : "q" ++ natToString n = "q" ++ natToString m) : n = m := by
  have hd := congrArg String.data h
  rw [String.data_append, String.data_append] at hd
  have : natToString n = natToString m := by
    apply congrArg String.mk
    have := List.append_cancel_left hd
    exact this
  exact natToChars_injective n m (congrArg String.data this)

/-! ## Caption facts: the tracer's captions are never the banned generic
`"recursion"` string. -/

/-- If a caption does not start with whitespace and differs (after
lowercasing) from `"recursion"` at some position below 9, it is not the
banned generic caption: trimming removes nothing at the front, so the
trimmed string is a prefix of the original and the mismatch survives. -/
theorem isGenericRecursionCaption_eq_false (caption : String) (i : ℕ)
    (hhead : ∀ c, caption.data.head? = some c → isJsWhitespace c = false)
    (hi : i < 9) (hlen : i < caption.data.length)
    (hmis : jsLowerChar (caption.data.getD i 'a') ≠
      "recursion".data.getD i 'a') :
    isGenericRecursionCaption caption = false := by
  unfold isGenericRecursionCaption
  rw [decide_eq_false_iff_not]
  intro hg
  unfold jsTrimLower at hg
  have hdw : caption.data.dropWhile isJsWhitespace = caption.data := by
    cases hc : caption.data with
    | nil => rfl
    | cons c cs =>
      have := hhead c (by rw [hc]; rfl)
      rw [List.dropWhile_cons, this]
      simp
  unfold jsTrimChars at hg
  rw [hdw] at hg
  set r := (caption.data.reverse.dropWhile isJsWhitespace).reverse with hr
  have hsplit : r ++ (caption.data.reverse.takeWhile isJsWhitespace).reverse =
      caption.data := by
    rw [hr, ← List.reverse_append, List.takeWhile_append_dropWhile,
      List.reverse_reverse]
  have hlen9 : r.length = 9 := by
    have hh := congrArg List.length hg
    rw [List.length_map] at hh
    rw [hh]
    rfl
  have hri : i < r.length := by omega
  have h1 : caption.data.getD i 'a' = r.getD i 'a' := by
    rw [← hsplit]
    exact List.getD_append _ _ _ _ hri
  apply hmis
  rw [h1]
  have ha : jsLowerChar 'a' = 'a' := by decide
  calc jsLowerChar (r.getD i 'a')
      = (r.map jsLowerChar).getD i (jsLowerChar 'a') :=
        (List.getD_map r 'a' jsLowerChar).symm
    _ = ("recursion".data).getD i (jsLowerChar 'a') := by rw [hg]
    _ = ("recursion".data).getD i 'a' := by rw [ha]

/-- The tracer's `Enter ...` captions are not the generic caption. -/
theorem not_generic_enter (s t : String) :
    isGenericRecursionCaption ("Enter quicksort(" ++ s ++ t) = false := by
  have hdata : ("Enter quicksort(" ++ s ++ t).data =
      'E' :: ("nter quicksort(".data ++ s.data ++ t.data) := by
    rw [String.data_append, String.data_append]
    rfl
  refine isGenericRecursionCaption_eq_false _ 0 ?_ (by omega) ?_ ?_
  · intro c hc
    rw [hdata] at hc
    injection hc with h
    rw [← h]
    decide
  · rw [hdata]
    simp
  · rw [hdata]
    exact (by decide : jsLowerChar 'E' ≠ 'r')

/-- The tracer's `Base case ...` captions are not the generic caption. -/
theorem not_generic_base (s t : String) :
    isGenericRecursionCaption ("Base case reached for quicksort(" ++ s ++ t) =
      false := by
  have hdata : ("Base case reached for quicksort(" ++ s ++ t).data =
      'B' :: ("ase case reached for quicksort(".data ++ s.data ++ t.data) := by
    rw [String.data_append, String.data_append]
    rfl
  refine isGenericRecursionCaption_eq_false _ 0 ?_ (by omega) ?_ ?_
  · intro c hc
    rw [hdata] at hc
    injection hc with h
    rw [← h]
    decide
  · rw [hdata]
    simp
  · rw [hdata]
    exact (by decide : jsLowerChar 'B' ≠ 'r')

/-- The tracer's `Return ...` captions are not the generic caption. -/
theorem not_generic_return (s t : String) :
    isGenericRecursionCaption ("Return from quicksort(" ++ s ++ t) = false := by
  have hdata : ("Return from quicksort(" ++ s ++ t).data =
      'R' :: 'e' :: 't' :: ("urn from quicksort(".data ++ s.data ++ t.data) := by
    rw [String.data_append, String.data_append]
    rfl
  refine isGenericRecursionCaption_eq_false _ 2 ?_ (by omega) ?_ ?_
  · intro c hc
    rw [hdata] at hc
    injection hc with h
    rw [← h]
    decide
  · rw [hdata]
    simp
  · rw [hdata]
    exact (by decide : jsLowerChar 't' ≠ 'c')

/-- The tracer's `Recurse left` captions are not the generic caption. -/
theorem not_generic_recurse_left (a b : String) :
    isGenericRecursionCaption
      ("Recurse left: quicksort(lo=" ++ a ++ ", hi=" ++ b ++ ")") = false := by
  have hdata : ("Recurse left: quicksort(lo=" ++ a ++ ", hi=" ++ b ++ ")").data =
      'R' :: 'e' :: 'c' :: 'u' :: 'r' :: 's' :: 'e' ::
        (" left: quicksort(lo=".data ++ a.data ++ ", hi=".data ++ b.data ++
          ")".data) := by
    rw [String.data_append, String.data_append, String.data_append,
      String.data_append]
    rfl
  refine isGenericRecursionCaption_eq_false _ 6 ?_ (by omega) ?_ ?_
  · intro c hc
    rw [hdata] at hc
    injection hc with h
    rw [← h]
    decide
  · rw [hdata]
    simp
  · rw [hdata]
    exact (by decide : jsLowerChar 'e' ≠ 'i')

/-- The tracer's `Recurse right` captions are not the generic caption. -/
theorem not_generic_recurse_right (a b : String) :
    isGenericRecursionCaption
      ("Recurse right: quicksort(lo=" ++ a ++ ", hi=" ++ b ++ ")") = false := by
  have hdata : ("Recurse right: quicksort(lo=" ++ a ++ ", hi=" ++ b ++ ")").data =
      'R' :: 'e' :: 'c' :: 'u' :: 'r' :: 's' :: 'e' ::
        (" right: quicksort(lo=".data ++ a.data ++ ", hi=".data ++ b.data ++
          ")".data) := by
    rw [String.data_append, String.data_append, String.data_append,
      String.data_append]
    rfl
  refine isGenericRecursionCaption_eq_false _ 6 ?_ (by omega) ?_ ?_
  · intro c hc
    rw [hdata] at hc
    injection hc with h
    rw [← h]
    decide
  · rw [hdata]
    simp
  · rw [hdata]
    exact (by decide : jsLowerChar 'e' ≠ 'i')

/-- The tracer's `Partition ...` captions are not the generic caption. -/
theorem not_generic_partition (a b c d : String) :
    isGenericRecursionCaption
      ("Partition [" ++ a ++ ", " ++ b ++ "] with pivot " ++ c ++
        " at index " ++ d) = false := by
  have hdata : ("Partition [" ++ a ++ ", " ++ b ++ "] with pivot " ++ c ++
      " at index " ++ d).data =
      'P' :: ("artition [".data ++ a.data ++ ", ".data ++ b.data ++
        "] with pivot ".data ++ c.data ++ " at index ".data ++ d.data) := by
    rw [String.data_append, String.data_append, String.data_append,
      String.data_append, String.data_append, String.data_append,
      String.data_append]
    rfl
  refine isGenericRecursionCaption_eq_false _ 0 ?_ (by omega) ?_ ?_
  · intro c' hc
    rw [hdata] at hc
    injection hc with h
    rw [← h]
    decide
  · rw [hdata]
    simp
  · rw [hdata]
    exact (by decide : jsLowerChar 'P' ≠ 'r')

/-! ## Validity of the deterministic fallback: per-step machinery -/

/-- Sufficient conditions for an empty `stepIssues` list. -/
theorem stepIssues_eq_nil (st : StepSpec)
    (hps : ∀ ps, st.state.pointers = some ps →
      ∀ p ∈ ps, 0 ≤ p.2 ∧ p.2 < (st.state.array.length : ℤ))
    (hr : ∀ r, st.state.range = some r →
      0 ≤ r.l ∧ r.l ≤ r.r ∧ r.r < (st.state.array.length : ℤ))
    (hprt : ∀ p, st.state.partition = some p →
      0 ≤ p.pivotIndex ∧ p.pivotIndex < (st.state.array.length : ℤ))
    (hm : st.state.merge = none)
    (hev : ∀ evs, st.events = some evs → ∀ ev ∈ evs,
      0 ≤ ev.i ∧ ev.i < (st.state.array.length : ℤ) ∧
      0 ≤ ev.j ∧ ev.j < (st.state.array.length : ℤ)) :
    stepIssues st = [] := by
  unfold stepIssues
  rw [hm]
  have h1 : (match st.state.pointers with
      | none => ([] : List Issue)
      | some ps => ps.flatMap fun p =>
        if p.2 < 0 ∨ p.2 ≥ (st.state.array.length : ℤ) then
          [.pointerOutOfBounds p.1 p.2]
        else []) = [] := by
    rcases hp : st.state.pointers with _ | ps
    · rfl
    · dsimp only
      rw [List.flatMap_eq_nil_iff]
      intro p hp'
      have := hps ps hp p hp'
      rw [if_neg (by omega)]
  have h2 : (match st.state.range with
      | none => ([] : List Issue)
      | some r =>
        if r.l < 0 ∨ r.r < 0 ∨ r.l ≥ (st.state.array.length : ℤ) ∨
            r.r ≥ (st.state.array.length : ℤ) ∨ r.l > r.r then
          [.rangeInvalid r.l r.r]
        else []) = [] := by
    rcases hrr : st.state.range with _ | r
    · rfl
    · dsimp only
      have := hr r hrr
      rw [if_neg (by omega)]
  have h3 : (match st.state.partition with
      | none => ([] : List Issue)
      | some p =>
        if p.pivotIndex < 0 ∨ p.pivotIndex ≥ (st.state.array.length : ℤ) then
          [.pivotIndexOutOfBounds p.pivotIndex]
        else []) = [] := by
    rcases hpp : st.state.partition with _ | p
    · rfl
    · dsimp only
      have := hprt p hpp
      rw [if_neg (by omega)]
  have h5 : (match st.events with
      | none => ([] : List Issue)
      | some evs => evs.enum.flatMap fun e =>
          if e.2.i < 0 ∨ e.2.j < 0 ∨ e.2.i ≥ (st.state.array.length : ℤ) ∨
              e.2.j ≥ (st.state.array.length : ℤ) then
            [.eventIndicesInvalid e.1 e.2.i e.2.j]
          else []) = [] := by
    rcases hee : st.events with _ | evs
    · rfl
    · dsimp only
      rw [List.flatMap_eq_nil_iff]
      intro e he
      have hmem : e.2 ∈ evs := by
        have hge := List.mem_enum_iff_getElem?.mp he
        obtain ⟨hlt, heq⟩ := List.getElem?_eq_some.mp hge
        rw [← heq]
        exact List.getElem_mem _
      have := hev evs hee e.2 hmem
      rw [if_neg (by omega)]
  rw [h1, h2, h3, h5]
  rfl

/-- Sufficient conditions for an empty `recursiveStepIssues` list (for
quicksort). -/
theorem recursiveStepIssues_eq_nil (idx : ℕ) (st : StepSpec)
    (hcap : isGenericRecursionCaption st.caption = false)
    (s : List String) (hstk : st.state.stack = some s) (hs : 0 < s.length)
    (r : RecursionState) (hrec : st.state.recursion = some r)
    (hdepth : r.depth = (s.length : ℤ) - 1)
    (hdiv : r.phase = .divide → st.state.partition ≠ none) :
    recursiveStepIssues .quicksort idx st = [] := by
  unfold recursiveStepIssues
  rw [hcap, hstk, hrec]
  dsimp only
  rw [if_neg (show ¬(false = true) by decide)]
  rw [if_neg (show ¬s.length = 0 by omega)]
  rw [if_neg (show ¬r.depth ≠ (s.length : ℤ) - 1 by omega)]
  rw [if_neg (show ¬(ArraysAlgorithm.quicksort = .quicksort ∧
      r.phase = .divide ∧ st.state.partition = none) from
    fun h => hdiv h.2.1 h.2.2)]
  rw [if_neg (show ¬(ArraysAlgorithm.quicksort = .mergesort ∧
      r.phase = .combine ∧ st.state.merge = none) from
    fun h => ArraysAlgorithm.noConfusion h.1)]
  rfl

/-- `pushQuicksortStep` appends exactly `pushedStep` and bumps the step
counter. -/
theorem pushQuicksortStep_eq (context : QuicksortTraceContext) (callId : String)
    (parentCallId : Option String) (depth : ℕ) (phase : RecursionPhase)
    (lo hi : ℤ) (stack : List String) (caption : String)
    (partition : Option PartitionState) (events : Option (List StepEvent)) :
    pushQuicksortStep context callId parentCallId depth phase lo hi stack
      caption partition events =
    { context with
      steps := context.steps ++ [pushedStep context callId parentCallId depth
        phase lo hi stack caption partition events],
      nextStepId := context.nextStepId + 1 } := rfl

/-- `createValidRange` only returns in-bounds ordered ranges. -/
theorem createValidRange_bounds (n : ℕ) (lo hi : ℤ) (r : RangeSpec)
    (h : createValidRange n lo hi = some r) :
    0 ≤ r.l ∧ r.l ≤ r.r ∧ r.r < (n : ℤ) := by
  unfold createValidRange at h
  by_cases hc : lo < 0 ∨ hi < 0 ∨ lo ≥ (n : ℤ) ∨ hi ≥ (n : ℤ) ∨ lo > hi
  · rw [if_pos hc] at h
    cases h
  · rw [if_neg hc] at h
    injection h with h'
    subst h'
    push_neg at hc
    refine ⟨?_, ?_, ?_⟩ <;> dsimp only <;> omega

/-- `createValidPointers` only returns in-bounds pointers. -/
theorem createValidPointers_bounds (n : ℕ) (lo hi : ℤ) (ps : List (String × ℤ))
    (h : createValidPointers n lo hi = some ps) :
    ∀ p ∈ ps, 0 ≤ p.2 ∧ p.2 < (n : ℤ) := by
  have h' : (if 0 < ((if 0 ≤ lo ∧ lo < (n : ℤ) then [("lo", lo)] else []) ++
      (if 0 ≤ hi ∧ hi < (n : ℤ) then [("hi", hi)] else [])).length then
      some ((if 0 ≤ lo ∧ lo < (n : ℤ) then [("lo", lo)] else []) ++
        (if 0 ≤ hi ∧ hi < (n : ℤ) then [("hi", hi)] else []))
    else none) = some ps := h
  have hmem : ∀ p ∈ ((if 0 ≤ lo ∧ lo < (n : ℤ) then [("lo", lo)] else []) ++
      (if 0 ≤ hi ∧ hi < (n : ℤ) then [("hi", hi)] else [])),
      0 ≤ p.2 ∧ p.2 < (n : ℤ) := by
    intro p hp
    rcases List.mem_append.mp hp with hp' | hp' <;> split at hp'
    · rename_i hcond
      simp only [List.mem_singleton] at hp'
      subst hp'
      exact hcond
    · cases hp'
    · rename_i hcond
      simp only [List.mem_singleton] at hp'
      subst hp'
      exact hcond
    · cases hp'
  by_cases hlen : 0 < ((if 0 ≤ lo ∧ lo < (n : ℤ) then [("lo", lo)] else []) ++
      (if 0 ≤ hi ∧ hi < (n : ℤ) then [("hi", hi)] else [])).length
  · rw [if_pos hlen] at h'
    injection h' with h''
    rw [← h'']
    exact hmem
  · rw [if_neg hlen] at h'
    cases h'

/-- Members of the defaulted pointer list are in bounds. -/
theorem createValidPointers_getD_bounds (n : ℕ) (lo hi : ℤ) :
    ∀ p ∈ (createValidPointers n lo hi).getD [], 0 ≤ p.2 ∧ p.2 < (n : ℤ) := by
  rcases hc : createValidPointers n lo hi with _ | ps
  · intro p hp
    cases hp
  · intro p hp
    exact createValidPointers_bounds n lo hi ps hc p (by simpa using hp)

/-- The quicksort code-line map always lands in `[1, 6]`. -/
theorem codeLine_bounds (p : RecursionPhase) :
    1 ≤ getQuicksortCodeLineForPhase p ∧ getQuicksortCodeLineForPhase p ≤ 6 := by
  cases p <;> exact ⟨by decide, by decide⟩

/-- Appending anything to a non-empty string stays non-empty. -/
theorem one_le_length_append (s t : String) (h : 1 ≤ s.length) :
    1 ≤ (s ++ t).length := by
  rw [String.length_append]
  omega

/-- The args text of a pushed step is non-empty. -/
theorem args_text_len (s t : String) :
    1 ≤ ("lo=" ++ s ++ " hi=" ++ t).length := by
  apply one_le_length_append
  apply one_le_length_append
  apply one_le_length_append
  decide

/-- The pointers of a pushed step are in bounds. -/
theorem pushedPointers_bounds (n : ℕ) (lo hi : ℤ) (phase : RecursionPhase)
    (partition : Option PartitionState)
    (hprt : ∀ p, partition = some p →
      0 ≤ p.pivotIndex ∧ p.pivotIndex < (n : ℤ)) :
    ∀ ps, (match phase, partition with
      | .divide, some p =>
        some (((createValidPointers n lo hi).getD []) ++
          [("pivot", p.pivotIndex)])
      | _, _ => createValidPointers n lo hi) = some ps →
    ∀ q ∈ ps, 0 ≤ q.2 ∧ q.2 < (n : ℤ) := by
  cases phase <;>
    try exact fun ps hps q hq => createValidPointers_bounds n lo hi ps hps q hq
  rcases partition with _ | p
  · exact fun ps hps q hq => createValidPointers_bounds n lo hi ps hps q hq
  · intro ps hps q hq
    have hps' : some (((createValidPointers n lo hi).getD []) ++
        [("pivot", p.pivotIndex)]) = some ps := hps
    injection hps' with hps''
    rw [← hps''] at hq
    rcases List.mem_append.mp hq with hq' | hq'
    · exact createValidPointers_getD_bounds n lo hi q hq'
    · simp only [List.mem_singleton] at hq'
      subst hq'
      exact hprt p rfl

/-- A step pushed by the tracer satisfies all per-step validity facts. -/
theorem goodStep_push (N : ℕ) (context : QuicksortTraceContext)
    (callId : String) (parentCallId : Option String) (depth : ℕ)
    (phase : RecursionPhase) (lo hi : ℤ) (stack : List String)
    (caption : String) (partition : Option PartitionState)
    (events : Option (List StepEvent))
    (harr : context.array.length = N) (hN1 : 1 ≤ N) (hN2 : N ≤ 32)
    (hstackd : stack.length = depth + 1) (hstack128 : stack.length ≤ 128)
    (hcid : 1 ≤ callId.length)
    (hparent : ∀ p, parentCallId = some p → 1 ≤ p.length)
    (hcapgen : isGenericRecursionCaption caption = false)
    (hcaplen : 1 ≤ caption.length)
    (hprt : ∀ p, partition = some p →
      0 ≤ p.pivotIndex ∧ p.pivotIndex < (N : ℤ))
    (hdivprt : phase = .divide → partition ≠ none)
    (hev : ∀ evs, events = some evs → evs.length ≤ 48 ∧
      ∀ ev ∈ evs, 0 ≤ ev.i ∧ ev.i < (N : ℤ) ∧ 0 ≤ ev.j ∧ ev.j < (N : ℤ)) :
    GoodStep N (pushedStep context callId parentCallId depth phase lo hi stack
      caption partition events) := by
  subst harr
  have hevOut : ∀ evs,
      (match events with
        | some evs => if 0 < evs.length then some evs else none
        | none => none) = some evs →
      evs.length ≤ 48 ∧ ∀ ev ∈ evs, 0 ≤ ev.i ∧
        ev.i < (context.array.length : ℤ) ∧ 0 ≤ ev.j ∧
        ev.j < (context.array.length : ℤ) := by
    intro evs hevs
    rcases events with _ | es
    · cases hevs
    · dsimp only at hevs
      by_cases hlen : 0 < es.length
      · rw [if_pos hlen] at hevs
        injection hevs with hevs'
        rw [← hevs']
        exact hev es rfl
      · rw [if_neg hlen] at hevs
        cases hevs
  refine ⟨?_, ?_, ?_, (codeLine_bounds phase).1, (codeLine_bounds phase).2, rfl⟩
  · apply stepIssues_eq_nil
    · exact fun ps hps q hq =>
        pushedPointers_bounds context.array.length lo hi phase partition
          hprt ps hps q hq
    · exact fun r hr => createValidRange_bounds context.array.length lo hi r hr
    · exact fun p hp => hprt p hp
    · rfl
    · exact fun evs hevs ev hm => (hevOut evs hevs).2 ev hm
  · intro idx
    refine recursiveStepIssues_eq_nil idx _ hcapgen stack rfl (by omega)
      _ rfl ?_ ?_
    · show (depth : ℤ) = (stack.length : ℤ) - 1
      omega
    · intro hph
      show partition ≠ none
      exact hdivprt hph
  · apply parseStep_toJson
    · apply one_le_length_append
      decide
    · exact hcaplen
    · exact (codeLine_bounds phase).1
    · apply parseStepState_toJson
      · exact hN1
      · show context.array.length ≤ MAX_ARRAY_LENGTH
        exact hN2
      · intro s hs
        injection hs with hs'
        rw [← hs']
        exact hstack128
      · intro r hr
        injection hr with hr'
        rw [← hr']
        apply parseRecursion_toJson
        · exact hcid
        · exact (by decide : (1 : ℕ) ≤ "quicksort".length)
        · exact args_text_len (intToString lo) (intToString hi)
        · exact hparent
        · exact Int.natCast_nonneg depth
      · intro m hm
        cases hm
    · exact fun evs hevs => (hevOut evs hevs).1

/-- Adjacent steps at the same recursion depth are always compatible. -/
theorem adjOk_same_depth (p c : StepSpec) (rp rc : RecursionState)
    (hp : p.state.recursion = some rp) (hc : c.state.recursion = some rc)
    (hd : rc.depth = rp.depth) : AdjOk p c := by
  intro k
  unfold adjacentPairIssues
  rw [hp, hc]
  dsimp only
  rw [if_neg (by omega)]
  rw [if_neg (by omega)]
  rw [if_neg (show ¬(rc.depth - rp.depth = -1 ∧ rp.phase ≠ .phaseReturn)
    from fun h => by omega)]
  rfl

/-- A depth increase after a recurse phase into an `enter` step is
compatible. -/
theorem adjOk_enter (p c : StepSpec) (rp rc : RecursionState)
    (hp : p.state.recursion = some rp) (hc : c.state.recursion = some rc)
    (hd : rc.depth = rp.depth + 1)
    (hpp : rp.phase = .recurseLeft ∨ rp.phase = .recurseRight)
    (hcp : rc.phase = .enter) : AdjOk p c := by
  intro k
  unfold adjacentPairIssues
  rw [hp, hc]
  dsimp only
  rw [if_neg (by omega)]
  rw [if_pos (by omega : rc.depth - rp.depth = 1)]
  rw [if_neg (show ¬(rp.phase ≠ .recurseLeft ∧ rp.phase ≠ .recurseRight)
    from fun h => by rcases hpp with h' | h' <;> [exact h.1 h'; exact h.2 h'])]
  rw [if_neg (show ¬rc.phase ≠ .enter from fun h => h hcp)]
  rw [if_neg (show ¬(rc.depth - rp.depth = -1 ∧ rp.phase ≠ .phaseReturn)
    from fun h => by omega)]
  rfl

/-- A depth decrease after a `return` step is compatible. -/
theorem adjOk_return (p c : StepSpec) (rp rc : RecursionState)
    (hp : p.state.recursion = some rp) (hc : c.state.recursion = some rc)
    (hd : rc.depth = rp.depth - 1) (hpp : rp.phase = .phaseReturn) :
    AdjOk p c := by
  intro k
  unfold adjacentPairIssues
  rw [hp, hc]
  dsimp only
  rw [if_neg (by omega)]
  rw [if_neg (by omega)]
  rw [if_neg (show ¬(rc.depth - rp.depth = -1 ∧ rp.phase ≠ .phaseReturn)
    from fun h => h.2 hpp)]
  rfl

/-- `phasesOf` distributes over append. -/
theorem phasesOf_append (a b : List StepSpec) (cid : String) :
    phasesOf (a ++ b) cid = phasesOf a cid ++ phasesOf b cid := by
  unfold phasesOf
  exact List.filterMap_append a b _

/-- Steps whose frames all belong to other calls contribute no phases. -/
theorem phasesOf_eq_nil (sts : List StepSpec) (cid : String)
    (h : ∀ st ∈ sts, ∃ r, st.state.recursion = some r ∧ r.callId ≠ cid) :
    phasesOf sts cid = [] := by
  unfold phasesOf
  rw [List.filterMap_eq_nil_iff]
  intro st hst
  obtain ⟨r, hr, hne⟩ := h st hst
  rw [hr]
  show (if r.callId = cid then some r.phase else none) = none
  rw [if_neg hne]

/-- A single step of the right call contributes exactly its phase. -/
theorem phasesOf_singleton (st : StepSpec) (r : RecursionState) (cid : String)
    (hr : st.state.recursion = some r) (hcid : r.callId = cid) :
    phasesOf [st] cid = [r.phase] := by
  unfold phasesOf
  simp [List.filterMap_cons, hr, hcid]

/-- The phases of a `callId`'s filtered frame group coincide with
`phasesOf`. -/
theorem framesFor_map_phase (steps : List StepSpec) (cid : String) :
    (framesFor steps cid).map (fun f => f.phase) = phasesOf steps cid := by
  unfold framesFor recFrames phasesOf
  show List.map (fun f => f.phase)
      (List.filter (fun f => f.callId == cid)
        (List.filterMap (fun p =>
          p.2.state.recursion.map fun r =>
            (⟨p.1, r.callId, r.fn, r.depth, r.phase⟩ : RecursionTraceFrame))
          (List.enumFrom 0 steps))) =
    steps.filterMap fun st => st.state.recursion.bind fun r =>
      if r.callId = cid then some r.phase else none
  generalize 0 = k
  induction steps generalizing k with
  | nil => rfl
  | cons st rest ih =>
    show List.map (fun f => f.phase)
        (List.filter (fun f => f.callId == cid)
          (List.filterMap (fun p =>
            p.2.state.recursion.map fun r =>
              (⟨p.1, r.callId, r.fn, r.depth, r.phase⟩ : RecursionTraceFrame))
            ((k, st) :: List.enumFrom (k + 1) rest))) = _
    rw [List.filterMap_cons, List.filterMap_cons]
    rcases hr : st.state.recursion with _ | r
    · exact ih (k + 1)
    · simp only [Option.map_some', Option.some_bind]
      rw [List.filter_cons]
      by_cases hcid : r.callId = cid
      · rw [if_pos (by simpa using hcid)]
        rw [List.map_cons]
        rw [if_pos hcid]
        rw [ih (k + 1)]
      · rw [if_neg (by simpa using hcid)]
        rw [if_neg hcid]
        exact ih (k + 1)

/-- A frame group with phases `enter, base, return` passes the lifecycle
check. -/
theorem validateCallLifecycle_base_pattern (alg : ArraysAlgorithm)
    (cid : String) (frames : List RecursionTraceFrame)
    (h : frames.map (fun f => f.phase) = [.enter, .base, .phaseReturn]) :
    validateCallLifecycle alg cid frames = [] := by
  rcases frames with _ | ⟨f1, _ | ⟨f2, _ | ⟨f3, _ | ⟨f4, rest⟩⟩⟩⟩ <;> simp at h
  obtain ⟨h1, h2, h3⟩ := h
  simp [validateCallLifecycle, findPhaseIndex, List.findIdx?_cons, h1, h2, h3]

/-- A frame group with the five quicksort phases in order passes the
lifecycle check. -/
theorem validateCallLifecycle_full_pattern (cid : String)
    (frames : List RecursionTraceFrame)
    (h : frames.map (fun f => f.phase) =
      [.enter, .divide, .recurseLeft, .recurseRight, .phaseReturn]) :
    validateCallLifecycle .quicksort cid frames = [] := by
  rcases frames with
    _ | ⟨f1, _ | ⟨f2, _ | ⟨f3, _ | ⟨f4, _ | ⟨f5, _ | ⟨f6, rest⟩⟩⟩⟩⟩⟩ <;>
    simp at h
  obtain ⟨h1, h2, h3, h4, h5⟩ := h
  simp [validateCallLifecycle, requiredPhases, findPhaseIndex,
    List.findIdx?_cons, h1, h2, h3, h4, h5]

/-- One step of the tracer splits into the base and divide branches. -/
theorem traceQuicksortCall_succ (fuel : ℕ) (ctx : QuicksortTraceContext)
    (lo hi : ℤ) (depth : ℕ) (parent : Option String)
    (stackBase : List String) :
    traceQuicksortCall (fuel + 1) ctx lo hi depth parent stackBase =
      if lo ≥ hi then traceBase ctx lo hi depth parent stackBase
      else traceDivide fuel ctx lo hi depth parent stackBase := rfl

/-- The base branch of the tracer satisfies the trace invariant. -/
theorem traceBase_ok (ctx : QuicksortTraceContext) (lo hi : ℤ) (depth : ℕ)
    (parent : Option String) (stackBase : List String)
    (hN1 : 1 ≤ ctx.array.length) (hN2 : ctx.array.length ≤ 32)
    (hstack : stackBase.length = depth)
    (hdepth1 : depth + 1 ≤ ctx.array.length)
    (hparent : ∀ p, parent = some p → 1 ≤ p.length) :
    TraceOut ctx (traceBase ctx lo hi depth parent stackBase) lo hi depth := by
  set cId := "q" ++ natToString ctx.nextCallId with hcId
  set argsText := "lo=" ++ intToString lo ++ ", hi=" ++ intToString hi with hargs
  set stk := stackBase ++ [cId ++ "(" ++ argsText ++ ")"] with hstkdef
  set ctx1 : QuicksortTraceContext :=
    { ctx with nextCallId := ctx.nextCallId + 1 } with hctx1
  set sE := pushedStep ctx1 cId parent depth .enter lo hi stk
    ("Enter quicksort(" ++ argsText ++ ")") none none with hsE
  set c2 := pushQuicksortStep ctx1 cId parent depth .enter lo hi stk
    ("Enter quicksort(" ++ argsText ++ ")") none none with hc2
  set sB := pushedStep c2 cId parent depth .base lo hi stk
    ("Base case reached for quicksort(" ++ argsText ++ ")") none none with hsB
  set c3 := pushQuicksortStep c2 cId parent depth .base lo hi stk
    ("Base case reached for quicksort(" ++ argsText ++ ")") none none with hc3
  set sR := pushedStep c3 cId parent depth .phaseReturn lo hi stk
    ("Return from quicksort(" ++ argsText ++ ")") none none with hsR
  show TraceOut ctx (pushQuicksortStep c3 cId parent depth .phaseReturn lo hi
    stk ("Return from quicksort(" ++ argsText ++ ")") none none) lo hi depth
  have hstkLen : stk.length = depth + 1 := by
    rw [hstkdef, List.length_append, hstack]
    rfl
  have hcidLen : 1 ≤ cId.length := by
    rw [hcId]
    apply one_le_length_append
    decide
  have hgE : GoodStep ctx.array.length sE := by
    rw [hsE]
    apply goodStep_push
    · rfl
    · exact hN1
    · exact hN2
    · exact hstkLen
    · omega
    · exact hcidLen
    · exact hparent
    · exact not_generic_enter argsText ")"
    · apply one_le_length_append
      apply one_le_length_append
      decide
    · intro p hp
      cases hp
    · exact fun h => RecursionPhase.noConfusion h
    · intro evs hevs
      cases hevs
  have hgB : GoodStep ctx.array.length sB := by
    rw [hsB]
    apply goodStep_push
    · rfl
    · exact hN1
    · exact hN2
    · exact hstkLen
    · omega
    · exact hcidLen
    · exact hparent
    · exact not_generic_base argsText ")"
    · apply one_le_length_append
      apply one_le_length_append
      decide
    · intro p hp
      cases hp
    · exact fun h => RecursionPhase.noConfusion h
    · intro evs hevs
      cases hevs
  have hgR : GoodStep ctx.array.length sR := by
    rw [hsR]
    apply goodStep_push
    · rfl
    · exact hN1
    · exact hN2
    · exact hstkLen
    · omega
    · exact hcidLen
    · exact hparent
    · exact not_generic_return argsText ")"
    · apply one_le_length_append
      apply one_le_length_append
      decide
    · intro p hp
      cases hp
    · exact fun h => RecursionPhase.noConfusion h
    · intro evs hevs
      cases hevs
  refine ⟨rfl, ?_, [sE, sB, sR], ?_, by simp, ?_, ?_, ?_, ?_, ?_, ?_, ?_⟩
  · show ctx.nextCallId < ctx.nextCallId + 1
    omega
  · show ((ctx.steps ++ [sE]) ++ [sB]) ++ [sR] = ctx.steps ++ [sE, sB, sR]
    simp
  · show (3 : ℕ) ≤ 8 * (hi + 1 - lo).toNat + 3
    omega
  · intro st hst
    simp only [List.mem_cons, List.mem_singleton, List.not_mem_nil,
      or_false] at hst
    rcases hst with rfl | rfl | rfl
    · exact hgE
    · exact hgB
    · exact hgR
  · refine List.chain'_cons.mpr ⟨?_, List.chain'_cons.mpr ⟨?_,
      List.chain'_singleton _⟩⟩
    · exact adjOk_same_depth sE sB _ _ rfl rfl rfl
    · exact adjOk_same_depth sB sR _ _ rfl rfl rfl
  · exact ⟨⟨cId, parent, "quicksort", (depth : ℤ), .enter,
      "lo=" ++ intToString lo ++ " hi=" ++ intToString hi⟩, rfl, rfl, rfl⟩
  · exact ⟨⟨cId, parent, "quicksort", (depth : ℤ), .phaseReturn,
      "lo=" ++ intToString lo ++ " hi=" ++ intToString hi⟩, rfl, rfl, rfl⟩
  · intro st hst
    simp only [List.mem_cons, List.mem_singleton, List.not_mem_nil,
      or_false] at hst
    have hlt : ctx.nextCallId < (pushQuicksortStep c3 cId parent depth
        .phaseReturn lo hi stk ("Return from quicksort(" ++ argsText ++ ")")
        none none).nextCallId := by
      show ctx.nextCallId < ctx.nextCallId + 1
      omega
    rcases hst with rfl | rfl | rfl
    · exact ⟨_, rfl, ctx.nextCallId, le_refl _, hlt, rfl⟩
    · exact ⟨_, rfl, ctx.nextCallId, le_refl _, hlt, rfl⟩
    · exact ⟨_, rfl, ctx.nextCallId, le_refl _, hlt, rfl⟩
  · intro k hk1 hk2
    have hk2' : k < ctx.nextCallId + 1 := hk2
    have hkeq : k = ctx.nextCallId := by omega
    subst hkeq
    left
    show phasesOf ([sE] ++ ([sB] ++ [sR])) cId = [.enter, .base, .phaseReturn]
    rw [phasesOf_append, phasesOf_append,
      phasesOf_singleton sE ⟨cId, parent, "quicksort", (depth : ℤ), .enter,
        "lo=" ++ intToString lo ++ " hi=" ++ intToString hi⟩ cId rfl rfl,
      phasesOf_singleton sB ⟨cId, parent, "quicksort", (depth : ℤ), .base,
        "lo=" ++ intToString lo ++ " hi=" ++ intToString hi⟩ cId rfl rfl,
      phasesOf_singleton sR ⟨cId, parent, "quicksort", (depth : ℤ),
        .phaseReturn,
        "lo=" ++ intToString lo ++ " hi=" ++ intToString hi⟩ cId rfl rfl]
    rfl

/-- A single step of another call contributes no phases. -/
theorem phasesOf_single_ne (st : StepSpec) (r : RecursionState) (cid : String)
    (hr : st.state.recursion = some r) (hne : r.callId ≠ cid) :
    phasesOf [st] cid = [] :=
  phasesOf_eq_nil [st] cid (fun s hs => by
    simp only [List.mem_singleton] at hs
    subst hs
    exact ⟨r, hr, hne⟩)

/-- Distinct call numbers give distinct `callId`s. -/
theorem qid_ne (n m : ℕ) (h : n ≠ m) :
    "q" ++ natToString n ≠ "q" ++ natToString m :=
  fun heq => h (qid_injective n m heq)

/-- The divide branch of the tracer satisfies the trace invariant, given
the invariant for recursive calls at the smaller fuel. -/
theorem traceDivide_ok (fuel : ℕ) (ctx : QuicksortTraceContext) (lo hi : ℤ)
    (depth : ℕ) (parent : Option String) (stackBase : List String)
    (IH : ∀ (ctxI : QuicksortTraceContext) (loI hiI : ℤ) (depthI : ℕ)
      (parentI : Option String) (stackBaseI : List String),
      1 ≤ ctxI.array.length → ctxI.array.length ≤ 32 →
      0 ≤ loI → hiI ≤ (ctxI.array.length : ℤ) - 1 →
      max 1 (hiI + 1 - loI).toNat ≤ fuel →
      stackBaseI.length = depthI →
      depthI + max 1 (hiI + 1 - loI).toNat ≤ ctxI.array.length →
      (∀ p, parentI = some p → 1 ≤ p.length) →
      TraceOut ctxI (traceQuicksortCall fuel ctxI loI hiI depthI parentI
        stackBaseI) loI hiI depthI)
    (hN1 : 1 ≤ ctx.array.length) (hN2 : ctx.array.length ≤ 32)
    (hlo : 0 ≤ lo) (hhi : hi ≤ (ctx.array.length : ℤ) - 1)
    (hfuel : max 1 (hi + 1 - lo).toNat ≤ fuel + 1)
    (hstack : stackBase.length = depth)
    (hdepth : depth + max 1 (hi + 1 - lo).toNat ≤ ctx.array.length)
    (hparent : ∀ p, parent = some p → 1 ≤ p.length)
    (hlohi : lo < hi) :
    TraceOut ctx (traceDivide fuel ctx lo hi depth parent stackBase)
      lo hi depth := by
  set cId := "q" ++ natToString ctx.nextCallId with hcId
  set argsText := "lo=" ++ intToString lo ++ ", hi=" ++ intToString hi with hargs
  set stk := stackBase ++ [cId ++ "(" ++ argsText ++ ")"] with hstkdef
  set ctx1 : QuicksortTraceContext :=
    { ctx with nextCallId := ctx.nextCallId + 1 } with hctx1
  set sE := pushedStep ctx1 cId parent depth .enter lo hi stk
    ("Enter quicksort(" ++ argsText ++ ")") none none with hsE
  set c2 := pushQuicksortStep ctx1 cId parent depth .enter lo hi stk
    ("Enter quicksort(" ++ argsText ++ ")") none none with hc2
  have hlon : lo.toNat ≤ hi.toNat := by omega
  have hhin : hi.toNat < ctx.array.length := by omega
  have hps := partitionLomuto_spec ctx.array lo.toNat hi.toNat hlon hhin
  set pt := partitionLomuto ctx.array lo.toNat hi.toNat with hpt
  obtain ⟨-, hptlen, -, -, hplo, hphi, -, -, -⟩ := hps
  set newArr := pt.1 with hnewArr
  set p := pt.2.1 with hp
  set pv := pt.2.2 with hpv
  set c2a : QuicksortTraceContext := { c2 with array := newArr } with hc2a
  set pState : PartitionState := {
    pivotIndex := (p : ℤ),
    less := (newArr.drop lo.toNat).take (p - lo.toNat),
    greater := (newArr.drop (p + 1)).take (hi.toNat - p) } with hpState
  set dEvents : List StepEvent :=
    [.compare hi hi (some .eq), .swap (p : ℤ) hi] with hdEvents
  set capD := "Partition [" ++ intToString lo ++ ", " ++ intToString hi ++
    "] with pivot " ++ renderRat pv ++ " at index " ++ natToString p with hcapD
  set sD := pushedStep c2a cId parent depth .divide lo hi stk capD
    (some pState) (some dEvents) with hsD
  set c3 := pushQuicksortStep c2a cId parent depth .divide lo hi stk capD
    (some pState) (some dEvents) with hc3
  set capRL := "Recurse left: quicksort(lo=" ++ intToString lo ++ ", hi=" ++
    intToString ((p : ℤ) - 1) ++ ")" with hcapRL
  set sRL := pushedStep c3 cId parent depth .recurseLeft lo hi stk capRL
    none none with hsRL
  set c4 := pushQuicksortStep c3 cId parent depth .recurseLeft lo hi stk capRL
    none none with hc4
  set c5 := traceQuicksortCall fuel c4 lo ((p : ℤ) - 1) (depth + 1)
    (some cId) stk with hc5
  set capRR := "Recurse right: quicksort(lo=" ++ intToString ((p : ℤ) + 1) ++
    ", hi=" ++ intToString hi ++ ")" with hcapRR
  set sRR := pushedStep c5 cId parent depth .recurseRight lo hi stk capRR
    none none with hsRR
  set c6 := pushQuicksortStep c5 cId parent depth .recurseRight lo hi stk capRR
    none none with hc6
  set c7 := traceQuicksortCall fuel c6 ((p : ℤ) + 1) hi (depth + 1)
    (some cId) stk with hc7
  set sRet := pushedStep c7 cId parent depth .phaseReturn lo hi stk
    ("Return from quicksort(" ++ argsText ++ ")") none none with hsRet
  show TraceOut ctx (pushQuicksortStep c7 cId parent depth .phaseReturn lo hi
    stk ("Return from quicksort(" ++ argsText ++ ")") none none) lo hi depth
  have hstkLen : stk.length = depth + 1 := by
    rw [hstkdef, List.length_append, hstack]
    rfl
  have hcidLen : 1 ≤ cId.length := by
    rw [hcId]
    apply one_le_length_append
    decide
  have hsome : ∀ q, some cId = some q → 1 ≤ q.length := by
    intro q hq
    injection hq with hq'
    rw [← hq']
    exact hcidLen
  have hc4arr : c4.array.length = ctx.array.length := by
    show newArr.length = ctx.array.length
    exact hptlen
  have IHL := IH c4 lo ((p : ℤ) - 1) (depth + 1) (some cId) stk
    (by omega) (by omega) hlo (by omega)
    (by omega) hstkLen (by omega) hsome
  rw [← hc5] at IHL
  obtain ⟨harrL, hcallL, newL, hstepsL, hneL, hlenL, hgoodL, hchainL,
    hheadL, hlastL, hcidsL, hphasesL⟩ := IHL
  have hc6arr : c6.array.length = ctx.array.length := by
    show c5.array.length = ctx.array.length
    rw [harrL]
    exact hc4arr
  have IHR := IH c6 ((p : ℤ) + 1) hi (depth + 1) (some cId) stk
    (by omega) (by omega) (by omega) (by omega)
    (by omega) hstkLen (by omega) hsome
  rw [← hc7] at IHR
  obtain ⟨harrR, hcallR, newR, hstepsR, hneR, hlenR, hgoodR, hchainR,
    hheadR, hlastR, hcidsR, hphasesR⟩ := IHR
  have hc7arr : c7.array.length = ctx.array.length := by
    rw [harrR]
    exact hc6arr
  have hc4call : c4.nextCallId = ctx.nextCallId + 1 := rfl
  have hc6call : c6.nextCallId = c5.nextCallId := rfl
  have hcall47 : ctx.nextCallId < c7.nextCallId := by omega
  obtain ⟨rL0, hrL0, hdL0, hpL0⟩ := hheadL
  obtain ⟨stHL, hstHL, hrecHL⟩ := Option.bind_eq_some.mp hrL0
  obtain ⟨rL1, hrL1, hdL1, hpL1⟩ := hlastL
  obtain ⟨stLL, hstLL, hrecLL⟩ := Option.bind_eq_some.mp hrL1
  obtain ⟨rR0, hrR0, hdR0, hpR0⟩ := hheadR
  obtain ⟨stHR, hstHR, hrecHR⟩ := Option.bind_eq_some.mp hrR0
  obtain ⟨rR1, hrR1, hdR1, hpR1⟩ := hlastR
  obtain ⟨stLR, hstLR, hrecLR⟩ := Option.bind_eq_some.mp hrR1
  refine ⟨hc7arr, hcall47,
    sE :: sD :: sRL :: (newL ++ (sRR :: (newR ++ [sRet]))),
    ?_, by simp, ?_, ?_, ?_, ?_, ?_, ?_, ?_⟩
  · show c7.steps ++ [sRet] = _
    rw [hstepsR]
    show ((c5.steps ++ [sRR]) ++ newR) ++ [sRet] = _
    rw [hstepsL]
    show (((((ctx.steps ++ [sE]) ++ [sD]) ++ [sRL]) ++ newL ++ [sRR]) ++
      newR) ++ [sRet] = _
    simp
  · show (sE :: sD :: sRL :: (newL ++ (sRR :: (newR ++ [sRet])))).length ≤
      8 * (hi + 1 - lo).toNat + 3
    have hlen_eq : (sE :: sD :: sRL ::
        (newL ++ (sRR :: (newR ++ [sRet])))).length =
        newL.length + newR.length + 5 := by
      simp [List.length_append]
      omega
    rw [hlen_eq]
    have hsum : ((p : ℤ) - 1 + 1 - lo).toNat +
        (hi + 1 - ((p : ℤ) + 1)).toNat + 1 = (hi + 1 - lo).toNat := by
      omega
    omega
  · intro st hst
    simp only [List.mem_cons, List.mem_append, List.mem_singleton,
      List.not_mem_nil, or_false] at hst
    rcases hst with rfl | rfl | rfl | hm | rfl | hm | rfl
    · rw [hsE]
      apply goodStep_push
      · rfl
      · exact hN1
      · exact hN2
      · exact hstkLen
      · omega
      · exact hcidLen
      · exact hparent
      · exact not_generic_enter argsText ")"
      · apply one_le_length_append
        apply one_le_length_append
        decide
      · intro q hq
        cases hq
      · exact fun h => RecursionPhase.noConfusion h
      · intro evs hevs
        cases hevs
    · rw [hsD]
      apply goodStep_push
      · show newArr.length = ctx.array.length
        exact hptlen
      · exact hN1
      · exact hN2
      · exact hstkLen
      · omega
      · exact hcidLen
      · exact hparent
      · exact not_generic_partition (intToString lo) (intToString hi)
          (renderRat pv) (natToString p)
      · apply one_le_length_append
        apply one_le_length_append
        apply one_le_length_append
        apply one_le_length_append
        apply one_le_length_append
        apply one_le_length_append
        apply one_le_length_append
        decide
      · intro q hq
        injection hq with hq'
        rw [← hq']
        exact ⟨show (0 : ℤ) ≤ (p : ℤ) by omega,
          show ((p : ℤ) : ℤ) < (ctx.array.length : ℤ) by omega⟩
      · intro hph hnone
        exact Option.noConfusion hnone
      · intro evs hevs
        injection hevs with hevs'
        rw [← hevs']
        refine ⟨show (2 : ℕ) ≤ 48 by omega, ?_⟩
        intro ev hevm
        rw [hdEvents] at hevm
        simp only [List.mem_cons, List.mem_singleton, List.not_mem_nil,
          or_false] at hevm
        rcases hevm with rfl | rfl
        · exact ⟨show (0 : ℤ) ≤ hi by omega,
            show hi < (ctx.array.length : ℤ) by omega,
            show (0 : ℤ) ≤ hi by omega,
            show hi < (ctx.array.length : ℤ) by omega⟩
        · exact ⟨show (0 : ℤ) ≤ (p : ℤ) by omega,
            show ((p : ℤ) : ℤ) < (ctx.array.length : ℤ) by omega,
            show (0 : ℤ) ≤ hi by omega,
            show hi < (ctx.array.length : ℤ) by omega⟩
    · rw [hsRL]
      apply goodStep_push
      · show newArr.length = ctx.array.length
        exact hptlen
      · exact hN1
      · exact hN2
      · exact hstkLen
      · omega
      · exact hcidLen
      · exact hparent
      · exact not_generic_recurse_left (intToString lo)
          (intToString ((p : ℤ) - 1))
      · apply one_le_length_append
        apply one_le_length_append
        apply one_le_length_append
        apply one_le_length_append
        decide
      · intro q hq
        cases hq
      · exact fun h => RecursionPhase.noConfusion h
      · intro evs hevs
        cases hevs
    · have hg := hgoodL st hm
      rw [hc4arr] at hg
      exact hg
    · rw [hsRR]
      apply goodStep_push
      · show c5.array.length = ctx.array.length
        rw [harrL]
        exact hc4arr
      · exact hN1
      · exact hN2
      · exact hstkLen
      · omega
      · exact hcidLen
      · exact hparent
      · exact not_generic_recurse_right (intToString ((p : ℤ) + 1))
          (intToString hi)
      · apply one_le_length_append
        apply one_le_length_append
        apply one_le_length_append
        apply one_le_length_append
        decide
      · intro q hq
        cases hq
      · exact fun h => RecursionPhase.noConfusion h
      · intro evs hevs
        cases hevs
    · have hg := hgoodR st hm
      rw [hc6arr] at hg
      exact hg
    · rw [hsRet]
      apply goodStep_push
      · exact hc7arr
      · exact hN1
      · exact hN2
      · exact hstkLen
      · omega
      · exact hcidLen
      · exact hparent
      · exact not_generic_return argsText ")"
      · apply one_le_length_append
        apply one_le_length_append
        decide
      · intro q hq
        cases hq
      · exact fun h => RecursionPhase.noConfusion h
      · intro evs hevs
        cases hevs
  · refine List.chain'_cons.mpr ⟨adjOk_same_depth sE sD _ _ rfl rfl rfl, ?_⟩
    refine List.chain'_cons.mpr ⟨adjOk_same_depth sD sRL _ _ rfl rfl rfl, ?_⟩
    refine List.chain'_cons'.mpr ⟨?_, ?_⟩
    · intro y hy
      rw [List.head?_append, hstHL, Option.or_some] at hy
      simp only [Option.mem_def, Option.some.injEq] at hy
      subst hy
      refine adjOk_enter sRL stHL
        ⟨cId, parent, "quicksort", (depth : ℤ), .recurseLeft,
          "lo=" ++ intToString lo ++ " hi=" ++ intToString hi⟩ rL0
        rfl hrecHL ?_ (Or.inl rfl) hpL0
      rw [hdL0]
      push_cast
      ring
    · refine List.Chain'.append hchainL ?_ ?_
      · refine List.chain'_cons'.mpr ⟨?_, ?_⟩
        · intro y hy
          rw [List.head?_append, hstHR, Option.or_some] at hy
          simp only [Option.mem_def, Option.some.injEq] at hy
          subst hy
          refine adjOk_enter sRR stHR
            ⟨cId, parent, "quicksort", (depth : ℤ), .recurseRight,
              "lo=" ++ intToString lo ++ " hi=" ++ intToString hi⟩ rR0
            rfl hrecHR ?_ (Or.inr rfl) hpR0
          rw [hdR0]
          push_cast
          ring
        · refine List.Chain'.append hchainR (List.chain'_singleton _) ?_
          intro x hx y hy
          rw [hstLR] at hx
          simp only [Option.mem_def, Option.some.injEq] at hx
          subst hx
          simp only [List.head?_cons, Option.mem_def, Option.some.injEq] at hy
          subst hy
          refine adjOk_return stLR sRet rR1
            ⟨cId, parent, "quicksort", (depth : ℤ), .phaseReturn,
              "lo=" ++ intToString lo ++ " hi=" ++ intToString hi⟩
            hrecLR rfl ?_ hpR1
          show (depth : ℤ) = rR1.depth - 1
          rw [hdR1]
          push_cast
          ring
      · intro x hx y hy
        rw [hstLL] at hx
        simp only [Option.mem_def, Option.some.injEq] at hx
        subst hx
        simp only [List.head?_cons, Option.mem_def, Option.some.injEq] at hy
        subst hy
        refine adjOk_return stLL sRR rL1
          ⟨cId, parent, "quicksort", (depth : ℤ), .recurseRight,
            "lo=" ++ intToString lo ++ " hi=" ++ intToString hi⟩
          hrecLL rfl ?_ hpL1
        show (depth : ℤ) = rL1.depth - 1
        rw [hdL1]
        push_cast
        ring
  · exact ⟨⟨cId, parent, "quicksort", (depth : ℤ), .enter,
      "lo=" ++ intToString lo ++ " hi=" ++ intToString hi⟩, rfl, rfl, rfl⟩
  · have hlast : (sE :: sD :: sRL :: (newL ++ (sRR :: (newR ++ [sRet])))) =
        (sE :: sD :: sRL :: (newL ++ (sRR :: newR))) ++ [sRet] := by
      simp
    rw [hlast, List.getLast?_concat]
    exact ⟨⟨cId, parent, "quicksort", (depth : ℤ), .phaseReturn,
      "lo=" ++ intToString lo ++ " hi=" ++ intToString hi⟩, rfl, rfl, rfl⟩
  · intro st hst
    simp only [List.mem_cons, List.mem_append, List.mem_singleton,
      List.not_mem_nil, or_false] at hst
    have houtcall : (pushQuicksortStep c7 cId parent depth
        .phaseReturn lo hi stk ("Return from quicksort(" ++ argsText ++ ")")
        none none).nextCallId = c7.nextCallId := rfl
    have hltOut : ctx.nextCallId < (pushQuicksortStep c7 cId parent depth
        .phaseReturn lo hi stk ("Return from quicksort(" ++ argsText ++ ")")
        none none).nextCallId := hcall47
    rcases hst with rfl | rfl | rfl | hm | rfl | hm | rfl
    · exact ⟨_, rfl, ctx.nextCallId, le_refl _, hltOut, rfl⟩
    · exact ⟨_, rfl, ctx.nextCallId, le_refl _, hltOut, rfl⟩
    · exact ⟨_, rfl, ctx.nextCallId, le_refl _, hltOut, rfl⟩
    · obtain ⟨r, hr, j, hj1, hj2, hjid⟩ := hcidsL st hm
      exact ⟨r, hr, j, by omega, by omega, hjid⟩
    · exact ⟨_, rfl, ctx.nextCallId, le_refl _, hltOut, rfl⟩
    · obtain ⟨r, hr, j, hj1, hj2, hjid⟩ := hcidsR st hm
      exact ⟨r, hr, j, by omega, by omega, hjid⟩
    · exact ⟨_, rfl, ctx.nextCallId, le_refl _, hltOut, rfl⟩
  · intro k hk1 hk2
    have hk2' : k < c7.nextCallId := hk2
    have hsplit : phasesOf
        (sE :: sD :: sRL :: (newL ++ (sRR :: (newR ++ [sRet]))))
        ("q" ++ natToString k) =
        phasesOf [sE] ("q" ++ natToString k) ++
        (phasesOf [sD] ("q" ++ natToString k) ++
        (phasesOf [sRL] ("q" ++ natToString k) ++
        (phasesOf newL ("q" ++ natToString k) ++
        (phasesOf [sRR] ("q" ++ natToString k) ++
        (phasesOf newR ("q" ++ natToString k) ++
         phasesOf [sRet] ("q" ++ natToString k)))))) := by
      show phasesOf ([sE] ++ ([sD] ++ ([sRL] ++ (newL ++
        ([sRR] ++ (newR ++ [sRet])))))) ("q" ++ natToString k) = _
      rw [phasesOf_append, phasesOf_append, phasesOf_append,
        phasesOf_append, phasesOf_append, phasesOf_append]
    rw [hsplit]
    by_cases hk0 : k = ctx.nextCallId
    · subst hk0
      rw [← hcId]
      have hnilL : phasesOf newL cId = [] := by
        apply phasesOf_eq_nil
        intro st hstm
        obtain ⟨r, hr, j, hj1, hj2, hjid⟩ := hcidsL st hstm
        refine ⟨r, hr, ?_⟩
        rw [hjid, hcId]
        exact qid_ne j ctx.nextCallId (by omega)
      have hnilR : phasesOf newR cId = [] := by
        apply phasesOf_eq_nil
        intro st hstm
        obtain ⟨r, hr, j, hj1, hj2, hjid⟩ := hcidsR st hstm
        refine ⟨r, hr, ?_⟩
        rw [hjid, hcId]
        exact qid_ne j ctx.nextCallId (by omega)
      rw [phasesOf_singleton sE ⟨cId, parent, "quicksort", (depth : ℤ),
          .enter, "lo=" ++ intToString lo ++ " hi=" ++ intToString hi⟩ cId
          rfl rfl,
        phasesOf_singleton sD ⟨cId, parent, "quicksort", (depth : ℤ),
          .divide, "lo=" ++ intToString lo ++ " hi=" ++ intToString hi⟩ cId
          rfl rfl,
        phasesOf_singleton sRL ⟨cId, parent, "quicksort", (depth : ℤ),
          .recurseLeft, "lo=" ++ intToString lo ++ " hi=" ++ intToString hi⟩
          cId rfl rfl,
        phasesOf_singleton sRR ⟨cId, parent, "quicksort", (depth : ℤ),
          .recurseRight, "lo=" ++ intToString lo ++ " hi=" ++ intToString hi⟩
          cId rfl rfl,
        phasesOf_singleton sRet ⟨cId, parent, "quicksort", (depth : ℤ),
          .phaseReturn, "lo=" ++ intToString lo ++ " hi=" ++ intToString hi⟩
          cId rfl rfl,
        hnilL, hnilR]
      right
      rfl
    · have hqneE : cId ≠ "q" ++ natToString k := by
        rw [hcId]
        exact qid_ne ctx.nextCallId k (by omega)
      rw [phasesOf_single_ne sE ⟨cId, parent, "quicksort", (depth : ℤ),
          .enter, "lo=" ++ intToString lo ++ " hi=" ++ intToString hi⟩ _
          rfl hqneE,
        phasesOf_single_ne sD ⟨cId, parent, "quicksort", (depth : ℤ),
          .divide, "lo=" ++ intToString lo ++ " hi=" ++ intToString hi⟩ _
          rfl hqneE,
        phasesOf_single_ne sRL ⟨cId, parent, "quicksort", (depth : ℤ),
          .recurseLeft, "lo=" ++ intToString lo ++ " hi=" ++ intToString hi⟩ _
          rfl hqneE,
        phasesOf_single_ne sRR ⟨cId, parent, "quicksort", (depth : ℤ),
          .recurseRight, "lo=" ++ intToString lo ++ " hi=" ++ intToString hi⟩ _
          rfl hqneE,
        phasesOf_single_ne sRet ⟨cId, parent, "quicksort", (depth : ℤ),
          .phaseReturn, "lo=" ++ intToString lo ++ " hi=" ++ intToString hi⟩ _
          rfl hqneE]
      simp only [List.nil_append, List.append_nil]
      by_cases hkL : k < c5.nextCallId
      · have hkL1 : c4.nextCallId ≤ k := by omega
        have hnilR : phasesOf newR ("q" ++ natToString k) = [] := by
          apply phasesOf_eq_nil
          intro st hstm
          obtain ⟨r, hr, j, hj1, hj2, hjid⟩ := hcidsR st hstm
          refine ⟨r, hr, ?_⟩
          rw [hjid]
          exact qid_ne j k (by omega)
        rw [hnilR, List.append_nil]
        exact hphasesL k hkL1 hkL
      · have hkR1 : c6.nextCallId ≤ k := by omega
        have hnilL : phasesOf newL ("q" ++ natToString k) = [] := by
          apply phasesOf_eq_nil
          intro st hstm
          obtain ⟨r, hr, j, hj1, hj2, hjid⟩ := hcidsL st hstm
          refine ⟨r, hr, ?_⟩
          rw [hjid]
          exact qid_ne j k (by omega)
        rw [hnilL, List.nil_append]
        exact hphasesR k hkR1 hk2'

/-- The tracer satisfies the trace invariant whenever its fuel covers the
range size (as supplied by `buildDeterministicQuicksortSpec`). -/
theorem traceQuicksortCall_ok :
    ∀ (fuel : ℕ) (ctx : QuicksortTraceContext) (lo hi : ℤ) (depth : ℕ)
      (parent : Option String) (stackBase : List String),
      1 ≤ ctx.array.length → ctx.array.length ≤ 32 →
      0 ≤ lo → hi ≤ (ctx.array.length : ℤ) - 1 →
      max 1 (hi + 1 - lo).toNat ≤ fuel →
      stackBase.length = depth →
      depth + max 1 (hi + 1 - lo).toNat ≤ ctx.array.length →
      (∀ p, parent = some p → 1 ≤ p.length) →
      TraceOut ctx (traceQuicksortCall fuel ctx lo hi depth parent stackBase)
        lo hi depth := by
  intro fuel
  induction fuel with
  | zero =>
    intro ctx lo hi depth parent stackBase h1 h2 h3 h4 h5 h6 h7 h8
    exact absurd h5 (by omega)
  | succ fuel ih =>
    intro ctx lo hi depth parent stackBase h1 h2 h3 h4 h5 h6 h7 h8
    rw [traceQuicksortCall_succ]
    by_cases hbase : lo ≥ hi
    · rw [if_pos hbase]
      exact traceBase_ok ctx lo hi depth parent stackBase h1 h2 h6
        (by omega) h8
    · rw [if_neg hbase]
      exact traceDivide_ok fuel ctx lo hi depth parent stackBase ih h1 h2 h3
        h4 h5 h6 h7 h8 (by omega)

/-- Second components of `enum` members are list members. -/
theorem snd_mem_of_mem_enum {α : Type} {l : List α} {p : ℕ × α}
    (h : p ∈ l.enum) : p.2 ∈ l := by
  rw [List.mem_enum_iff_getElem?] at h
  obtain ⟨hk, heq⟩ := List.getElem?_eq_some.mp h
  rw [← heq]
  exact List.getElem_mem _

/-- Every collected recursion frame comes from some step's recursion
object. -/
theorem recFrames_mem (steps : List StepSpec) (f : RecursionTraceFrame)
    (h : f ∈ recFrames steps) :
    ∃ st ∈ steps, ∃ r, st.state.recursion = some r ∧ r.callId = f.callId := by
  unfold recFrames at h
  obtain ⟨p, hp, hg⟩ := List.mem_filterMap.mp h
  obtain ⟨r, hr, hf⟩ := Option.map_eq_some'.mp hg
  exact ⟨p.2, snd_mem_of_mem_enum hp, r, hr, by rw [← hf]⟩

/-- Every validated `callId` comes from some step's recursion object. -/
theorem callIdsInOrder_mem (steps : List StepSpec) (cid : String)
    (h : cid ∈ callIdsInOrder steps) :
    ∃ st ∈ steps, ∃ r, st.state.recursion = some r ∧ r.callId = cid := by
  unfold callIdsInOrder at h
  rw [mem_foldl_firstOccur] at h
  rcases h with h | h
  · cases h
  · obtain ⟨f, hf, hcid⟩ := List.mem_map.mp h
    obtain ⟨st, hst, r, hr, hrc⟩ := recFrames_mem steps f hf
    exact ⟨st, hst, r, hr, by rw [hrc, hcid]⟩

/-- A chain of compatible adjacent steps records no adjacency issues. -/
theorem adjacentIssues_eq_nil (steps : List StepSpec)
    (h : List.Chain' AdjOk steps) : adjacentIssues steps = [] := by
  unfold adjacentIssues
  rw [List.flatMap_eq_nil_iff]
  intro e he
  rcases e with ⟨k, a, b⟩
  rw [List.mem_enum_iff_getElem?] at he
  obtain ⟨hk, heq⟩ := List.getElem?_eq_some.mp he
  have hklen : k + 1 < steps.length := by
    have hh := hk
    rw [List.length_zip, List.length_tail] at hh
    omega
  rw [List.getElem_zip] at heq
  injection heq with ha hb
  have hb' : steps.get ⟨k + 1, hklen⟩ = b := by
    rw [← hb]
    simp [List.getElem_tail]
  have ha' : steps.get ⟨k, by omega⟩ = a := ha
  have hchain := List.chain'_iff_get.mp h k (by omega)
  rw [ha', hb'] at hchain
  exact hchain (k + 1)

/-- A first step with root `enter` recursion records no issue. -/
theorem firstStepIssues_eq_nil (steps : List StepSpec) (r : RecursionState)
    (h : (steps.head?.bind fun st => st.state.recursion) = some r)
    (hd : r.depth = 0) (hp : r.phase = .enter) :
    firstStepIssues steps = [] := by
  unfold firstStepIssues
  have h' : (steps.head? >>= fun st => st.state.recursion) = some r := h
  rw [h']
  dsimp only
  rw [if_neg (by simp [hd, hp])]

/-- A last step with root `return` recursion records no issue. -/
theorem lastStepIssues_eq_nil (steps : List StepSpec) (r : RecursionState)
    (h : (steps.getLast?.bind fun st => st.state.recursion) = some r)
    (hd : r.depth = 0) (hp : r.phase = .phaseReturn) :
    lastStepIssues steps = [] := by
  unfold lastStepIssues
  have h' : (steps.getLast? >>= fun st => st.state.recursion) = some r := h
  rw [h']
  dsimp only
  rw [if_neg (by simp [hd, hp])]

/-- Per-call lifecycle passes when each group does. -/
theorem lifecycleIssues_eq_nil (alg : ArraysAlgorithm) (steps : List StepSpec)
    (h : ∀ cid ∈ callIdsInOrder steps,
      validateCallLifecycle alg cid (framesFor steps cid) = []) :
    lifecycleIssues alg steps = [] := by
  unfold lifecycleIssues
  rw [List.flatMap_eq_nil_iff]
  exact h

/-- Sufficient conditions for an empty `rootIssues` list. -/
theorem rootIssues_eq_nil (spec : ArraysVizSpec)
    (hacl : ∀ p ∈ spec.steps.enum,
      ¬(p.2.activeCodeLine < 1 ∨
        p.2.activeCodeLine > (spec.codeLines.length : ℤ)))
    (hrec : isRecursiveAlgorithm spec.algorithm = true)
    (hsv : hasStackView spec.components = true)
    (hsteps : ∀ p ∈ spec.steps.enum,
      recursiveStepIssues spec.algorithm p.1 p.2 = [])
    (hfirst : firstStepIssues spec.steps = [])
    (hadj : adjacentIssues spec.steps = [])
    (hlast : lastStepIssues spec.steps = [])
    (hlife : lifecycleIssues spec.algorithm spec.steps = []) :
    rootIssues spec = [] := by
  unfold rootIssues
  rw [List.flatMap_eq_nil_iff.mpr
    (fun p hp => by rw [if_neg (hacl p hp)])]
  rw [if_neg (by simp [hrec])]
  rw [if_neg (by simp [hsv])]
  rw [List.flatMap_eq_nil_iff.mpr hsteps, hfirst, hadj, hlast, hlife]
  rfl

/-- Sufficient conditions for an empty `specIssues` list. -/
theorem specIssues_eq_nil (spec : ArraysVizSpec)
    (hsteps : ∀ st ∈ spec.steps, stepIssues st = [])
    (hroot : rootIssues spec = []) : specIssues spec = [] := by
  unfold specIssues
  rw [List.flatMap_eq_nil_iff.mpr hsteps, hroot]
  rfl

/-- C6 (amended): for every normalized quicksort input of 1 to 32 finite
numbers whose rendered title fits the 140-character cap, the deterministic
fallback spec, serialized and re-checked by `parseAndValidateArraysSpec`
plus the algorithm-match check, passes validation. -/
theorem C6_fallback_valid_amended (ni : NormalizedArraysInput)
    (halg : ni.algorithm = .quicksort)
    (hlen1 : 1 ≤ ni.array.length) (hlen2 : ni.array.length ≤ 32)
    (htitle : (buildDeterministicQuicksortSpec ni).title.length ≤ 140) :
    validateCandidate ni
      (some (specToJson (buildDeterministicQuicksortSpec ni))) =
    .ok (buildDeterministicQuicksortSpec ni) := by
  set spec := buildDeterministicQuicksortSpec ni with hspec
  have hto : TraceOut ⟨ni.array, [], 0, 0⟩
      (traceQuicksortCall (ni.array.length + 1) ⟨ni.array, [], 0, 0⟩ 0
        ((ni.array.length : ℤ) - 1) 0 none [])
      0 ((ni.array.length : ℤ) - 1) 0 :=
    traceQuicksortCall_ok (ni.array.length + 1) ⟨ni.array, [], 0, 0⟩ 0
      ((ni.array.length : ℤ) - 1) 0 none [] hlen1 hlen2 (by omega)
      (by show (ni.array.length : ℤ) - 1 ≤ (ni.array.length : ℤ) - 1; omega)
      (by show max 1 ((ni.array.length : ℤ) - 1 + 1 - 0).toNat ≤
            ni.array.length + 1
          omega)
      rfl
      (by show 0 + max 1 ((ni.array.length : ℤ) - 1 + 1 - 0).toNat ≤
            ni.array.length
          omega)
      (by intro p hp; cases hp)
  obtain ⟨harr, hcall, new, hsteq, hne, hlenb, hgood, hchain,
    ⟨r0, hr0, hr0d, hr0p⟩, ⟨r1, hr1, hr1d, hr1p⟩, hcids, hphases⟩ := hto
  have hstepnew : spec.steps = new := by
    show (traceQuicksortCall (ni.array.length + 1) ⟨ni.array, [], 0, 0⟩ 0
      ((ni.array.length : ℤ) - 1) 0 none []).steps = new
    rw [hsteq]
    rfl
  have hstepIssues : ∀ st ∈ spec.steps, stepIssues st = [] := by
    intro st hst
    rw [hstepnew] at hst
    exact (hgood st hst).1
  have hroot : rootIssues spec = [] := by
    apply rootIssues_eq_nil
    · intro p hp
      have hmem : p.2 ∈ spec.steps := snd_mem_of_mem_enum hp
      rw [hstepnew] at hmem
      obtain ⟨-, -, -, h4, h5, -⟩ := hgood p.2 hmem
      have hclen : (spec.codeLines.length : ℤ) = 6 := by rfl
      rw [hclen]
      omega
    · rfl
    · rfl
    · intro p hp
      have hmem : p.2 ∈ spec.steps := snd_mem_of_mem_enum hp
      rw [hstepnew] at hmem
      exact (hgood p.2 hmem).2.1 p.1
    · refine firstStepIssues_eq_nil spec.steps r0 ?_ ?_ hr0p
      · rw [hstepnew]
        exact hr0
      · rw [hr0d]
        rfl
    · apply adjacentIssues_eq_nil
      rw [hstepnew]
      exact hchain
    · refine lastStepIssues_eq_nil spec.steps r1 ?_ ?_ hr1p
      · rw [hstepnew]
        exact hr1
      · rw [hr1d]
        rfl
    · apply lifecycleIssues_eq_nil
      intro cid hcid
      obtain ⟨st, hst, r, hrec, hrcid⟩ := callIdsInOrder_mem spec.steps cid hcid
      rw [hstepnew] at hst
      obtain ⟨r', hrec', k, hk0, hk1, hkid⟩ := hcids st hst
      rw [hrec] at hrec'
      injection hrec' with hrr
      subst hrr
      have hcideq : cid = "q" ++ natToString k := by rw [← hrcid, hkid]
      subst hcideq
      have hph := hphases k hk0 hk1
      show validateCallLifecycle .quicksort ("q" ++ natToString k)
        (framesFor spec.steps ("q" ++ natToString k)) = []
      rcases hph with hph | hph
      · apply validateCallLifecycle_base_pattern
        rw [framesFor_map_phase, hstepnew]
        exact hph
      · apply validateCallLifecycle_full_pattern
        rw [framesFor_map_phase, hstepnew]
        exact hph
  have hissue : specIssues spec = [] := specIssues_eq_nil spec hstepIssues hroot
  have hparse : parseSpec (specToJson spec) = some spec := by
    apply parseSpec_toJson
    · rfl
    · show 1 ≤ (("Quicksort walkthrough for [" ++
        String.intercalate ", " (ni.array.map renderRat)) ++ "]").length
      apply one_le_length_append
      apply one_le_length_append
      decide
    · exact htitle
    · rfl
    · rfl
    · intro st hst
      rw [hstepnew] at hst
      exact (hgood st hst).2.2.1
    · rw [hstepnew]
      exact List.length_pos.mpr hne
    · rw [hstepnew]
      show new.length ≤ 300
      omega
  have hpav : parseAndValidateArraysSpec (some (specToJson spec)) = .ok spec :=
    (accepted_iff (specToJson spec) spec).mpr ⟨hparse, hissue⟩
  have halgeq : spec.algorithm = ni.algorithm := by
    rw [halg]
    exact rfl
  have hvam : validateAlgorithmMatch spec ni = .ok () := by
    unfold validateAlgorithmMatch
    rw [if_neg (fun hne => hne halgeq)]
  show (parseAndValidateArraysSpec (some (specToJson spec)) >>= fun s =>
    validateAlgorithmMatch s ni >>= fun _ => pure s) = .ok spec
  rw [hpav]
  show (validateAlgorithmMatch spec ni >>= fun _ => pure spec) = .ok spec
  rw [hvam]
  rfl

/-- Witness: the amended C6 theorem applied to the concrete two-element
input `[2, 1]`, whose title fits the cap. -/
theorem C6_fallback_valid_amended_witness :
    (buildDeterministicQuicksortSpec ⟨.quicksort, [2, 1], none⟩).title.length ≤ 140 ∧
    validateCandidate ⟨.quicksort, [2, 1], none⟩
      (some (specToJson (buildDeterministicQuicksortSpec
        ⟨.quicksort, [2, 1], none⟩))) =
      .ok (buildDeterministicQuicksortSpec ⟨.quicksort, [2, 1], none⟩) :=
  ⟨by decide,
   C6_fallback_valid_amended ⟨.quicksort, [2, 1], none⟩ rfl (by decide)
     (by decide) (by decide)⟩
